import Mathlib

/-!
glmGamPoi, `src/beta_estimation.cpp`.

A shallow embedding of the Gamma-Poisson deviance, the clamp and the three
row-wise coefficient solvers of `beta_estimation.cpp`.

Conventions of the embedding.

* `double` arithmetic is idealised.  The solvers and the deviance take an
  arbitrary linearly ordered field `α` as the numeric type, so rounding,
  overflow, infinities and not-a-number values that arise from arithmetic are
  not represented there.  The one not-a-number the source assigns explicitly
  (`conv_test = quiet_NaN()`) is `none` in an `Option`.  Integer counts are
  numbers of `α` like real ones.
* The clamp, the fitted mean and the step of the diagonal solver are defined
  for every element type with the operations they use.  They are read on an
  ordered field and on `Double α`, which adds not-a-number and the two
  infinities to the finite values `α`, with the rules of `double` arithmetic
  for them (a comparison with not-a-number is false, `0 / 0` is
  not-a-number); rounding and the sign of zero are not represented.
* The deviance of one count is defined for every element type with the
  operations it uses.  It is read on an ordered field and on `Binary64`, the
  finite doubles with every arithmetic operation rounded to 53 significant
  binary digits.
* The functions of the C++ and Armadillo libraries the source calls
  (`std::exp`, `std::log`, `sqrt`, `qr_econ`, `solve`) are parameters, so every
  definition is computable.  Theorems that hold for every ordered field and
  every choice of these functions are stated so; theorems that rest on
  properties of the exponential or the logarithm take `α := ℝ`, `Real.exp` and
  `Real.log`.
* An Armadillo matrix is a `Mat`: its shape and its elements in column-major
  order.  Element access outside the stored elements yields `0`.
* `checkUserInterrupt()` is not represented.
-/

namespace GlmGamPoi

/-! ## Armadillo matrices -/

/-- An `arma::Mat`: `n_rows`, `n_cols` and the elements `mem` in column-major
order.  An `arma::Row` is a `Mat` with `n_rows = 1`. -/
structure Mat (α : Type) where
  n_rows : Nat
  n_cols : Nat
  mem : List α
deriving DecidableEq

variable {α : Type}

/-- The member `n_elem` of an `arma::Mat`: the number of elements. -/
def Mat.n_elem (m : Mat α) : Nat := m.n_rows * m.n_cols

/-- Linear element access `m.at(i)` (column-major). -/
def Mat.at_ [Zero α] (m : Mat α) (i : Nat) : α := m.mem.getD i 0

/-- Writing `m.at(i) = x`. -/
def Mat.set (m : Mat α) (i : Nat) (x : α) : Mat α :=
  { m with mem := m.mem.set i x }

/-- Two-index element access `m(r, c)`. -/
def Mat.get [Zero α] (m : Mat α) (r c : Nat) : α := m.mem.getD (r + c * m.n_rows) 0

/-- The matrix of the given shape whose element `(r, c)` is `f r c`. -/
def Mat.ofFn (n_rows n_cols : Nat) (f : Nat → Nat → α) : Mat α :=
  ⟨n_rows, n_cols, (List.range (n_rows * n_cols)).map fun i => f (i % n_rows) (i / n_rows)⟩

/-- An `arma::Row` holding the given elements. -/
def Mat.ofRow (l : List α) : Mat α := ⟨1, l.length, l⟩

/-- A matrix is well formed when it stores exactly `n_elem` elements. -/
def Mat.WF (m : Mat α) : Prop := m.mem.length = m.n_elem

instance (m : Mat α) : Decidable m.WF := by unfold Mat.WF; infer_instance

/-- The first `n` elements of row `r` of a matrix, as an `arma::Row`: what
`get_row(r, buffer)` of a beachmat matrix writes into a buffer of `n`
elements. -/
def Mat.get_row [Zero α] (m : Mat α) (r n : Nat) : Mat α :=
  Mat.ofFn 1 n fun _ c => m.get r c

/-- Row `r` of a matrix, as an `arma::Row` (`m.row(r)`). -/
def Mat.row [Zero α] (m : Mat α) (r : Nat) : Mat α :=
  m.get_row r m.n_cols

/-- The operation `arma::trimatu(m)`: the upper triangle of `m`. -/
def Mat.trimatu [Zero α] (m : Mat α) : Mat α :=
  Mat.ofFn m.n_rows m.n_cols fun r c => if r ≤ c then m.get r c else 0

/-- Transpose `m.t()`. -/
def Mat.t [Zero α] (m : Mat α) : Mat α :=
  Mat.ofFn m.n_cols m.n_rows fun r c => m.get c r

/-- Matrix product `a * b`. -/
def Mat.mul [Zero α] [Add α] [Mul α] (a b : Mat α) : Mat α :=
  Mat.ofFn a.n_rows b.n_cols fun r c =>
    ((List.range a.n_cols).map fun k => a.get r k * b.get k c).sum

/-- Element-wise combination of two matrices of the same shape (`a % b`,
`a / b`, `a + b`, `a - b`). -/
def Mat.zipWith (f : α → α → α) (a b : Mat α) : Mat α :=
  ⟨a.n_rows, a.n_cols, List.zipWith f a.mem b.mem⟩

/-- Element-wise application of a function (`exp(m)`, `sqrt(m)`, `pow(m, 2)`,
`s * m`, `1.0 + m`). -/
def Mat.map (f : α → α) (m : Mat α) : Mat α :=
  ⟨m.n_rows, m.n_cols, m.mem.map f⟩

/-- The operation `m.each_col() % v`: every column of `m` is multiplied
element-wise by the vector `v`, so row `r` is scaled by `v.at(r)`. -/
def Mat.each_col_schur [Zero α] [Mul α] (m v : Mat α) : Mat α :=
  Mat.ofFn m.n_rows m.n_cols fun r c => m.get r c * v.at_ r

/-- The operation `arma::sum(m, 0)`: the row vector of the column sums. -/
def Mat.sum0 [Zero α] [Add α] (m : Mat α) : Mat α :=
  Mat.ofFn 1 m.n_cols fun _ c => ((List.range m.n_rows).map fun r => m.get r c).sum

/-! ## Library functions -/

/-- The numeric library functions the source calls: `std::exp`, `std::log`,
`sqrt`, Armadillo's `qr_econ` (returning `(q, r)`) and
`solve(trimatu(r), b)`. -/
structure NumLib (α : Type) where
  exp : α → α
  log : α → α
  sqrt : α → α
  qr_econ : Mat α → Mat α × Mat α
  solve : Mat α → Mat α → Mat α

/-- A cell of an R numeric vector: a number, the not-available sentinel
`NA_REAL`, or `R_NegInf`. -/
inductive RDouble (α : Type) where
  | val (x : α)
  | NA_REAL
  | R_NegInf
deriving DecidableEq

/-! ## Doubles with not-a-number and infinities -/

/-- The values of a `double`: not-a-number, the two infinities and the finite
values.  The finite values are the numbers of `α`; rounding and the sign of
zero are not represented. -/
inductive Double (α : Type) where
  | nan
  | neg_inf
  | fin (x : α)
  | pos_inf
deriving DecidableEq

section Doubles

variable [LinearOrderedField α]

/-- The comparison `a < b` of two doubles: false when one of them is
not-a-number. -/
def Double.lt : Double α → Double α → Prop
  | Double.fin x, Double.fin y => x < y
  | Double.neg_inf, Double.fin _ => True
  | Double.neg_inf, Double.pos_inf => True
  | Double.fin _, Double.pos_inf => True
  | _, _ => False

/-- The comparison `a <= b` of two doubles: false when one of them is
not-a-number. -/
def Double.le : Double α → Double α → Prop
  | Double.fin x, Double.fin y => x ≤ y
  | Double.neg_inf, Double.neg_inf => True
  | Double.neg_inf, Double.fin _ => True
  | Double.neg_inf, Double.pos_inf => True
  | Double.fin _, Double.pos_inf => True
  | Double.pos_inf, Double.pos_inf => True
  | _, _ => False

/-- The infinity with the sign of a non-zero finite value. -/
def Double.inf_of_sign (x : α) : Double α :=
  if 0 < x then Double.pos_inf else Double.neg_inf

/-- Negation `-a`. -/
def Double.neg : Double α → Double α
  | Double.nan => Double.nan
  | Double.neg_inf => Double.pos_inf
  | Double.fin x => Double.fin (-x)
  | Double.pos_inf => Double.neg_inf

/-- Addition `a + b`: not-a-number for `inf + (-inf)`. -/
def Double.add : Double α → Double α → Double α
  | Double.fin x, Double.fin y => Double.fin (x + y)
  | Double.fin _, Double.pos_inf => Double.pos_inf
  | Double.fin _, Double.neg_inf => Double.neg_inf
  | Double.pos_inf, Double.fin _ => Double.pos_inf
  | Double.neg_inf, Double.fin _ => Double.neg_inf
  | Double.pos_inf, Double.pos_inf => Double.pos_inf
  | Double.neg_inf, Double.neg_inf => Double.neg_inf
  | _, _ => Double.nan

/-- Multiplication `a * b`: not-a-number for `0 * inf`. -/
def Double.mul : Double α → Double α → Double α
  | Double.fin x, Double.fin y => Double.fin (x * y)
  | Double.fin x, Double.pos_inf => if x = 0 then Double.nan else Double.inf_of_sign x
  | Double.fin x, Double.neg_inf => if x = 0 then Double.nan else Double.inf_of_sign (-x)
  | Double.pos_inf, Double.fin y => if y = 0 then Double.nan else Double.inf_of_sign y
  | Double.neg_inf, Double.fin y => if y = 0 then Double.nan else Double.inf_of_sign (-y)
  | Double.pos_inf, Double.pos_inf => Double.pos_inf
  | Double.neg_inf, Double.neg_inf => Double.pos_inf
  | Double.pos_inf, Double.neg_inf => Double.neg_inf
  | Double.neg_inf, Double.pos_inf => Double.neg_inf
  | _, _ => Double.nan

/-- Division `a / b`: not-a-number for `0 / 0` and `inf / inf`, an infinity
for a non-zero value divided by zero (the zero is taken as positive). -/
def Double.div : Double α → Double α → Double α
  | Double.fin x, Double.fin y =>
    if y = 0 then (if x = 0 then Double.nan else Double.inf_of_sign x)
    else Double.fin (x / y)
  | Double.fin _, Double.pos_inf => Double.fin 0
  | Double.fin _, Double.neg_inf => Double.fin 0
  | Double.pos_inf, Double.fin y => if 0 ≤ y then Double.pos_inf else Double.neg_inf
  | Double.neg_inf, Double.fin y => if 0 ≤ y then Double.neg_inf else Double.pos_inf
  | _, _ => Double.nan

/-- The power `pow(a, n)` with a natural exponent, by repeated
multiplication. -/
def Double.pow (a : Double α) : Nat → Double α
  | 0 => Double.fin 1
  | n + 1 => Double.mul (Double.pow a n) a

/-- The function `std::exp` on a double, from its values on the finite
values: not-a-number stays not-a-number, `exp(-inf) = 0`, `exp(inf) = inf`. -/
def Double.exp (exp : α → α) : Double α → Double α
  | Double.nan => Double.nan
  | Double.neg_inf => Double.fin 0
  | Double.fin x => Double.fin (exp x)
  | Double.pos_inf => Double.pos_inf

instance : Zero (Double α) := ⟨Double.fin 0⟩

instance : One (Double α) := ⟨Double.fin 1⟩

instance : OfScientific (Double α) :=
  ⟨fun m s e => Double.fin (OfScientific.ofScientific m s e)⟩

instance : Neg (Double α) := ⟨Double.neg⟩

instance : Add (Double α) := ⟨Double.add⟩

instance : Sub (Double α) := ⟨fun a b => Double.add a (Double.neg b)⟩

instance : Mul (Double α) := ⟨Double.mul⟩

instance : Div (Double α) := ⟨Double.div⟩

instance : Pow (Double α) Nat := ⟨Double.pow⟩

instance : LT (Double α) := ⟨Double.lt⟩

instance : LE (Double α) := ⟨Double.le⟩

instance Double.decidableLT : DecidableRel (fun a b : Double α => a < b) := fun a b =>
  match a, b with
  | Double.fin x, Double.fin y => inferInstanceAs (Decidable (x < y))
  | Double.neg_inf, Double.fin _ => isTrue trivial
  | Double.neg_inf, Double.pos_inf => isTrue trivial
  | Double.fin _, Double.pos_inf => isTrue trivial
  | Double.nan, _ => isFalse (fun h => h)
  | Double.pos_inf, _ => isFalse (fun h => h)
  | Double.fin _, Double.nan => isFalse (fun h => h)
  | Double.fin _, Double.neg_inf => isFalse (fun h => h)
  | Double.neg_inf, Double.nan => isFalse (fun h => h)
  | Double.neg_inf, Double.neg_inf => isFalse (fun h => h)

end Doubles

/-! ## Doubles with rounding -/

/-- The number of binary digits of `n`, counted in at most `fuel` steps. -/
def bit_length_aux : Nat → Nat → Nat
  | 0, _ => 0
  | fuel + 1, n => if n = 0 then 0 else bit_length_aux fuel (n / 2) + 1

/-- The number of binary digits of `n`. -/
def bit_length (n : Nat) : Nat := bit_length_aux n n

/-- A finite `double` with the value `m * 2 ^ e`.  The arithmetic operations
round their exact result to 53 significant binary digits, to nearest, ties to
even, and return it with `m` odd (or as `0 * 2 ^ 0`), so that equal values are
equal records.  The exponent range of a `double` (overflow, subnormal
numbers), the infinities, not-a-number and the sign of zero are not
represented; a division by zero yields `0`. -/
structure Binary64 where
  m : Int
  e : Int
deriving DecidableEq

/-- The record of the value `m * 2 ^ e` with an odd first component. -/
def Binary64.canon (m e : Int) : Binary64 :=
  if m = 0 then ⟨0, 0⟩
  else
    let n := m.natAbs
    let t := bit_length (n ^^^ (n - 1)) - 1
    ⟨m / (2 ^ t : Nat), e + t⟩

/-- The double nearest to `m * 2 ^ e`, ties to even. -/
def Binary64.round (m e : Int) : Binary64 :=
  let n := m.natAbs
  let k := bit_length n
  if k ≤ 53 then Binary64.canon m e
  else
    let s := k - 53
    let q := n >>> s
    let r := n % 2 ^ s
    let half := 2 ^ (s - 1)
    let q' := if half < r ∨ (r = half ∧ q % 2 = 1) then q + 1 else q
    Binary64.canon (if m < 0 then -(q' : Int) else (q' : Int)) (e + s)

/-- The double nearest to `a / b * 2 ^ e`, ties to even, for `b ≠ 0`: the
quotient is computed to at least 55 binary digits, the last one set when the
division leaves a remainder, and then rounded. -/
def Binary64.round_div (a b e : Int) : Binary64 :=
  let na := a.natAbs
  let nb := b.natAbs
  let p := 55 + bit_length nb
  let q := na * 2 ^ p / nb
  let rem := na * 2 ^ p % nb
  let mant := 2 * q + (if rem = 0 then 0 else 1)
  Binary64.round (if (a < 0) = (b < 0) then (mant : Int) else -(mant : Int)) (e - p - 1)

/-- Addition `a + b`, rounded. -/
def Binary64.add (a b : Binary64) : Binary64 :=
  let e := min a.e b.e
  Binary64.round (a.m * 2 ^ (a.e - e).toNat + b.m * 2 ^ (b.e - e).toNat) e

/-- Negation `-a`, which is exact. -/
def Binary64.neg (a : Binary64) : Binary64 := ⟨-a.m, a.e⟩

/-- Multiplication `a * b`, rounded. -/
def Binary64.mul (a b : Binary64) : Binary64 := Binary64.round (a.m * b.m) (a.e + b.e)

/-- Division `a / b`, rounded. -/
def Binary64.div (a b : Binary64) : Binary64 :=
  if b.m = 0 then ⟨0, 0⟩ else Binary64.round_div a.m b.m (a.e - b.e)

/-- The comparison `a < b`. -/
def Binary64.lt (a b : Binary64) : Prop :=
  a.m * 2 ^ (a.e - min a.e b.e).toNat < b.m * 2 ^ (b.e - min a.e b.e).toNat

instance : Zero Binary64 := ⟨⟨0, 0⟩⟩

instance : One Binary64 := ⟨⟨1, 0⟩⟩

instance (n : Nat) [n.AtLeastTwo] : OfNat Binary64 n := ⟨Binary64.round n 0⟩

instance : OfScientific Binary64 :=
  ⟨fun m s e =>
    if s then Binary64.round_div m (10 ^ e : Nat) 0 else Binary64.round (m * 10 ^ e : Nat) 0⟩

instance : Neg Binary64 := ⟨Binary64.neg⟩

instance : Add Binary64 := ⟨Binary64.add⟩

instance : Sub Binary64 := ⟨fun a b => Binary64.add a (Binary64.neg b)⟩

instance : Mul Binary64 := ⟨Binary64.mul⟩

instance : Div Binary64 := ⟨Binary64.div⟩

instance : LT Binary64 := ⟨Binary64.lt⟩

instance Binary64.decidableLT : DecidableRel (fun a b : Binary64 => a < b) := fun a b =>
  inferInstanceAs
    (Decidable (a.m * 2 ^ (a.e - min a.e b.e).toNat < b.m * 2 ^ (b.e - min a.e b.e).toNat))

section DevianceFormula

variable [Zero α] [One α] [OfNat α 2] [Neg α] [Add α] [Sub α] [Mul α] [Div α] [LT α]
  [DecidableRel (fun a b : α => a < b)] [DecidableEq α] [OfScientific α]

/-! ## Deviance (lines 11-52)

The deviance of one count uses the arithmetic operations, two comparisons and
`std::log` only, so it is defined for every element type with these
operations: an ordered field, where the arithmetic is exact, and `Binary64`,
where it is rounded. -/

/-- The function `compute_gp_deviance(y, mu, theta)`, lines 11-29. -/
def compute_gp_deviance (log : α → α) (y mu theta : α) : α :=
  if theta < 1e-6 then
    if y = 0 then
      2 * mu
    else
      2 * (y * log (y / mu) - (y - mu))
  else
    if y = 0 then
      2 / theta * log (1 + mu * theta)
    else
      let s1 := y * log ((mu + y * mu * theta) / (y + y * mu * theta))
      let s2 := 1 / theta * log ((1 + mu * theta) / (1 + y * theta))
      (-2) * (s1 - s2)

end DevianceFormula

section Deviance

variable [LinearOrderedField α]

/-- The value `compute_gp_deviance` returns on its branch `theta < 1e-6`
(lines 14-18): the Poisson deviance. -/
def poisson_deviance (log : α → α) (y mu : α) : α :=
  if y = 0 then
    2 * mu
  else
    2 * (y * log (y / mu) - (y - mu))

/-- The value `compute_gp_deviance` returns on its other branch (lines 21-27):
the closed form of the Gamma-Poisson deviance. -/
def gamma_poisson_deviance (log : α → α) (y mu theta : α) : α :=
  if y = 0 then
    2 / theta * log (1 + mu * theta)
  else
    let s1 := y * log ((mu + y * mu * theta) / (y + y * mu * theta))
    let s2 := 1 / theta * log ((1 + mu * theta) / (1 + y * theta))
    (-2) * (s1 - s2)

/-- The overload `compute_gp_deviance_sum(Y, Mu, thetas)` with a vector of
dispersions, lines 31-41: element `i` uses `thetas(i % nrows)` with
`nrows = Y.n_rows`. -/
def compute_gp_deviance_sum_thetas (log : α → α) (Y Mu : Mat α) (thetas : List α) : α :=
  let nrows := Y.n_rows
  (List.range Y.n_elem).foldl
    (fun dev i => dev + compute_gp_deviance log (Y.at_ i) (Mu.at_ i) (thetas.getD (i % nrows) 0))
    0

/-- The sum the specification describes for the overload with a vector of
dispersions, written from the words of the specification for comparison with
`compute_gp_deviance_sum_thetas`: for rows `Y` and `Mu` of `n_samples`
elements, element `i` uses `theta[i mod n_samples]`. -/
def spec_deviance_sum_thetas (log : α → α) (Y Mu thetas : List α) : α :=
  let n_samples := Y.length
  ((List.range n_samples).map fun i =>
    compute_gp_deviance log (Y.getD i 0) (Mu.getD i 0) (thetas.getD (i % n_samples) 0)).sum

/-- The overload `compute_gp_deviance_sum(Y, Mu, theta)` with one dispersion,
lines 43-52. -/
def compute_gp_deviance_sum (log : α → α) (Y Mu : Mat α) (theta : α) : α :=
  (List.range Y.n_elem).foldl
    (fun dev i => dev + compute_gp_deviance log (Y.at_ i) (Mu.at_ i) theta)
    0

end Deviance

section Clamp

variable [Zero α] [LT α] [DecidableRel (fun a b : α => a < b)]

/-! ## Clamp (lines 56-65)

The clamp only compares and assigns, so it is defined for every element type
with a decidable `<`: an ordered field, and `Double`, where a comparison with
not-a-number is false. -/

/-- The value `clamp_inplace` leaves in place of an element `x` (lines
59-63). -/
def clamp_value (min max x : α) : α :=
  if x < min then min
  else if x > max then max
  else x

/-- The function `clamp_inplace(v, min, max)`, lines 56-65; the updated matrix
is returned. -/
def clamp_inplace (v : Mat α) (min max : α) : Mat α :=
  (List.range v.n_elem).foldl
    (fun v i =>
      if v.at_ i < min then v.set i min
      else if v.at_ i > max then v.set i max
      else v)
    v

end Clamp

section Steps

variable [Zero α] [One α] [Add α] [Sub α] [Mul α] [Div α] [Pow α Nat] [LT α]
  [DecidableRel (fun a b : α => a < b)] [OfScientific α]

/-! ## The fitted mean and the diagonal step (lines 113-114, 139-140, 324-331)

These lines use the arithmetic operations, the comparison of the clamp and
`std::exp` only, so they are defined for every element type with these
operations: an ordered field, and `Double`. -/

/-- The fitted mean of a coefficient row, lines 113-114 and 139-140 (314-315,
338-339): `mu_hat = exp_off % exp(beta * model_matrix.t())` followed by
`clamp_inplace(mu_hat, 1e-50, 1e50)`. -/
def fitted_mean (L : NumLib α) (model_matrix exp_off beta : Mat α) : Mat α :=
  let mu_hat := Mat.zipWith (· * ·) exp_off (Mat.map L.exp (Mat.mul beta (Mat.t model_matrix)))
  clamp_inplace mu_hat 1e-50 1e50

/-- The weights `w_vec = (mu_hat / (1.0 + theta * mu_hat)).t()`, lines 123 and
324. -/
def w_vec (mu_hat : Mat α) (theta : α) : Mat α :=
  Mat.t (Mat.zipWith (· / ·) mu_hat (Mat.map (fun m => 1 + theta * m) mu_hat))

/-- The working residuals `(counts - mu_hat) / mu_hat` of lines 131 and 328. -/
def working_residual (counts mu_hat : Mat α) : Mat α :=
  Mat.zipWith (· / ·) (Mat.zipWith (· - ·) counts mu_hat) mu_hat

/-- The initial fitted mean of a row, lines 113-114 (314-315). -/
def initial_mu_hat (L : NumLib α) (model_matrix exp_off beta_hat : Mat α) : Mat α :=
  fitted_mean L model_matrix exp_off beta_hat

/-- The step of `fitBeta_diagonal_fisher_scoring_impl`, lines 324-331. -/
def diagonal_step (model_matrix counts mu_hat : Mat α) (theta : α) : Mat α :=
  let weighted_model_matrix := Mat.each_col_schur model_matrix (w_vec mu_hat theta)
  let score_vec := Mat.mul (working_residual counts mu_hat) weighted_model_matrix
  let info_vec := Mat.sum0 (Mat.each_col_schur (Mat.map (fun x => x ^ 2) model_matrix)
    (w_vec mu_hat theta))
  Mat.zipWith (· / ·) score_vec info_vec

/-- The fitted mean of a line-search trial, lines 138-140 (337-339):
`beta_prop = beta_hat + speeding_factor * step`, then the fitted mean of
`beta_prop`.  It is the field `mu_hat` of `line_search_trial`. -/
def trial_mu_hat (L : NumLib α) (model_matrix exp_off beta_hat step : Mat α)
    (speeding_factor : α) : Mat α :=
  let beta_prop := Mat.zipWith (· + ·) beta_hat (Mat.map (fun s => speeding_factor * s) step)
  fitted_mean L model_matrix exp_off beta_prop

end Steps

section Solvers

variable [LinearOrderedField α]

/-! ## Fisher scoring and its diagonal approximation (lines 85-179, 283-378)

The source says of `fitBeta_diagonal_fisher_scoring_impl` that it is a direct
adaptation of `fitBeta_fisher_scoring_impl`: the two functions differ in the
computation of `step` (lines 123-132 against 324-331) and in the test that
flags divergence (line 145 against 344).  The embedding has one definition
with a flag `diagonal` that selects between the two at these places. -/

/-- The step of `fitBeta_fisher_scoring_impl`, lines 123-132. -/
def fisher_step (L : NumLib α) (model_matrix counts mu_hat : Mat α) (theta : α) : Mat α :=
  let w_sqrt_vec := Mat.map L.sqrt (w_vec mu_hat theta)
  let weighted_model_matrix := Mat.each_col_schur model_matrix w_sqrt_vec
  let qr := L.qr_econ weighted_model_matrix
  let score_vec := Mat.mul (working_residual counts mu_hat) (Mat.each_col_schur qr.1 w_sqrt_vec)
  Mat.t (L.solve (Mat.trimatu qr.2) (Mat.t score_vec))

/-- One pass through the body of the line-search loop (lines 138-142): the
values it computes.  This record is not program state; it is kept so that
properties of every trial can be stated. -/
structure Trial (α : Type) where
  line_iter : Nat
  speeding_factor : α
  beta_prop : Mat α
  mu_hat : Mat α
  dev : α
  conv_test : α

/-- The acceptance test of lines 143 and 342 on the values of a trial:
`dev < dev_old || conv_test < tolerance`. -/
def Trial.accepted (trial : Trial α) (dev_old tolerance : α) : Prop :=
  trial.dev < dev_old ∨ trial.conv_test < tolerance

instance (trial : Trial α) (dev_old tolerance : α) :
    Decidable (trial.accepted dev_old tolerance) :=
  inferInstanceAs (Decidable (trial.dev < dev_old ∨ trial.conv_test < tolerance))

/-- The variables the line-search loop leaves behind (lines 135-154), and the
trials it made in order.  `conv_test = none` is the not-a-number of line
147. -/
structure LineSearch (α : Type) where
  beta_prop : Mat α
  mu_hat : Mat α
  dev : α
  conv_test : Option α
  speeding_factor : α
  line_iter : Nat
  trials : List (Trial α)

/-- The body of the line-search loop up to the computation of `conv_test`,
lines 138-142 (337-341), at the given `speeding_factor` and `line_iter`. -/
def line_search_trial (L : NumLib α) (model_matrix counts exp_off : Mat α) (theta : α)
    (beta_hat step : Mat α) (dev_old speeding_factor : α) (line_iter : Nat) : Trial α :=
  let beta_prop := Mat.zipWith (· + ·) beta_hat (Mat.map (fun s => speeding_factor * s) step)
  let mu_hat := fitted_mean L model_matrix exp_off beta_prop
  let dev := compute_gp_deviance_sum L.log counts mu_hat theta
  let conv_test := |dev - dev_old| / (|dev| + 0.1)
  ⟨line_iter, speeding_factor, beta_prop, mu_hat, dev, conv_test⟩

/-- The loop `while(true)` of lines 137-154 (336-353), entered with the given
`speeding_factor` and `line_iter`.  With `diagonal` the test of line 344 is
used, otherwise that of line 145. -/
def line_search (L : NumLib α) (diagonal : Bool) (model_matrix counts exp_off : Mat α)
    (theta tolerance : α) (beta_hat step : Mat α) (dev_old speeding_factor : α)
    (line_iter : Nat) : LineSearch α :=
  let trial := line_search_trial L model_matrix counts exp_off theta beta_hat step dev_old
    speeding_factor line_iter
  if trial.accepted dev_old tolerance then
    ⟨trial.beta_prop, trial.mu_hat, trial.dev, some trial.conv_test, speeding_factor, line_iter,
      [trial]⟩
  else if h : line_iter ≥ 100 ∨ (diagonal = true ∧ speeding_factor < 1e-6) then
    ⟨trial.beta_prop, trial.mu_hat, trial.dev, none, speeding_factor, line_iter, [trial]⟩
  else
    let r := line_search L diagonal model_matrix counts exp_off theta tolerance beta_hat step
      dev_old (speeding_factor / 2) (line_iter + 1)
    { r with trials := trial :: r.trials }
termination_by 100 - line_iter
decreasing_by
  simp only [not_or] at h
  omega

/-- One pass through the body of the loop over `t` (lines 122-170): the fitted
mean the weights and the score were computed from, the deviance `dev_old` the
line search compared with, the speeding factor the line search was entered
with, what the line search left behind, and the speeding factor after lines
155-159.  Not program state; kept so that properties of every iteration can
be stated. -/
structure IterRecord (α : Type) where
  t : Nat
  mu_hat : Mat α
  dev_old : α
  speeding_factor_in : α
  search : LineSearch α
  speeding_factor : α

/-- What the body of the loop over `gene_idx` computes for one row: the row
written to `beta_mat` (line 173), `iterations(gene_idx)`, whether the branch of
line 162 was taken, and (not program state) the record of every iteration. -/
structure RowFit (α : Type) where
  beta_hat : List (RDouble α)
  iterations : Int
  diverged : Bool
  history : List (IterRecord α)

/-- The step of either solver: lines 123-132, or with `diagonal` lines
324-331. -/
def scoring_step (L : NumLib α) (diagonal : Bool) (model_matrix counts mu_hat : Mat α)
    (theta : α) : Mat α :=
  if diagonal then diagonal_step model_matrix counts mu_hat theta
  else fisher_step L model_matrix counts mu_hat theta

/-- The body of the loop over `t` from the computation of the step to the
recovery of the speeding factor, lines 123-159 (324-358). -/
def scoring_iteration (L : NumLib α) (diagonal : Bool) (model_matrix counts exp_off : Mat α)
    (theta tolerance : α) (t : Nat) (beta_hat mu_hat : Mat α) (dev_old speeding_factor : α) :
    IterRecord α :=
  let step := scoring_step L diagonal model_matrix counts mu_hat theta
  let search := line_search L diagonal model_matrix counts exp_off theta tolerance beta_hat
    step dev_old speeding_factor 0
  let speeding_factor' :=
    if search.line_iter = 0 ∧ search.speeding_factor < 1 then
      min (search.speeding_factor * 1.5) 1
    else search.speeding_factor
  ⟨t, mu_hat, dev_old, speeding_factor, search, speeding_factor'⟩

/-- The loop `for (int t = 0; t < max_iter; t++)` of lines 121-171 (322-370),
entered at `t` with the given values of the variables. -/
def scoring_loop (L : NumLib α) (diagonal : Bool) (model_matrix counts exp_off : Mat α)
    (theta tolerance : α) (max_iter : Int) (t : Nat) (beta_hat mu_hat : Mat α)
    (dev_old speeding_factor : α) (iterations : Int) : RowFit α :=
  if _h : (t : Int) < max_iter then
    let iterations := iterations + 1
    let record := scoring_iteration L diagonal model_matrix counts exp_off theta tolerance t
      beta_hat mu_hat dev_old speeding_factor
    let beta_hat := record.search.beta_prop
    match record.search.conv_test with
    | none => ⟨beta_hat.mem.map fun _ => RDouble.NA_REAL, max_iter, true, [record]⟩
    | some conv_test =>
      if 0 < t ∧ conv_test < tolerance then
        ⟨beta_hat.mem.map RDouble.val, iterations, false, [record]⟩
      else
        let r := scoring_loop L diagonal model_matrix counts exp_off theta tolerance max_iter
          (t + 1) beta_hat record.search.mu_hat record.search.dev record.speeding_factor
          iterations
        { r with history := record :: r.history }
  else
    ⟨beta_hat.mem.map RDouble.val, iterations, false, []⟩
termination_by (max_iter - t).toNat
decreasing_by omega

/-- The body of the loop over `gene_idx` from line 112 to line 173 (313-372),
for the row with the given counts, offsets, dispersion and start value. -/
def fit_row (L : NumLib α) (diagonal : Bool) (model_matrix counts exp_off : Mat α)
    (theta : α) (beta_hat : Mat α) (tolerance : α) (max_iter : Int) : RowFit α :=
  let mu_hat := initial_mu_hat L model_matrix exp_off beta_hat
  let dev := compute_gp_deviance_sum L.log counts mu_hat theta
  scoring_loop L diagonal model_matrix counts exp_off theta tolerance max_iter 0 beta_hat mu_hat
    dev 1 0

/-- The loop over `gene_idx` of lines 104-174 (305-373): the fit of every row
of `Y`, in order. -/
def fit_rows (L : NumLib α) (diagonal : Bool) (Y model_matrix exp_offset_matrix : Mat α)
    (thetas : List α) (beta_mat : Mat α) (tolerance : α) (max_iter : Int) : List (RowFit α) :=
  let n_samples := Y.n_cols
  let n_genes := Y.n_rows
  (List.range n_genes).map fun gene_idx =>
    fit_row L diagonal model_matrix (Y.get_row gene_idx n_samples)
      (exp_offset_matrix.get_row gene_idx n_samples) (thetas.getD gene_idx 0)
      (beta_mat.row gene_idx) tolerance max_iter

/-- The list the two scoring functions return: `beta_mat`, one row of
coefficients for each row of `Y`, and `iter`. -/
structure ScoringResult (α : Type) where
  beta_mat : List (List (RDouble α))
  iter : List Int

/-- The function `fitBeta_fisher_scoring_impl`, lines 85-179. -/
def fitBeta_fisher_scoring_impl (L : NumLib α) (Y model_matrix exp_offset_matrix : Mat α)
    (thetas : List α) (beta_mat : Mat α) (tolerance : α) (max_iter : Int) : ScoringResult α :=
  let rows := fit_rows L false Y model_matrix exp_offset_matrix thetas beta_mat tolerance max_iter
  ⟨rows.map (·.beta_hat), rows.map (·.iterations)⟩

/-- The function `fitBeta_diagonal_fisher_scoring_impl`, lines 283-378. -/
def fitBeta_diagonal_fisher_scoring_impl (L : NumLib α) (Y model_matrix exp_offset_matrix : Mat α)
    (thetas : List α) (beta_mat : Mat α) (tolerance : α) (max_iter : Int) : ScoringResult α :=
  let rows := fit_rows L true Y model_matrix exp_offset_matrix thetas beta_mat tolerance max_iter
  ⟨rows.map (·.beta_hat), rows.map (·.iterations)⟩

/-- The storage type `beachmat::find_sexp_type(Y)` reports. -/
inductive SexpType where
  | INTSXP
  | REALSXP
  | OTHER
deriving DecidableEq

/-- The function `fitBeta_fisher_scoring`, lines 183-194.  Integer counts are
numbers of `α` like real ones, so both instantiations of the template are the
same function here. -/
def fitBeta_fisher_scoring (L : NumLib α) (mattype : SexpType)
    (Y model_matrix exp_offset_matrix : Mat α) (thetas : List α) (beta_mat : Mat α)
    (tolerance : α) (max_iter : Int) : Except String (ScoringResult α) :=
  match mattype with
  | SexpType.INTSXP => Except.ok
      (fitBeta_fisher_scoring_impl L Y model_matrix exp_offset_matrix thetas beta_mat tolerance
        max_iter)
  | SexpType.REALSXP => Except.ok
      (fitBeta_fisher_scoring_impl L Y model_matrix exp_offset_matrix thetas beta_mat tolerance
        max_iter)
  | SexpType.OTHER => Except.error "unacceptable matrix type"

/-- The function `fitBeta_diagonal_fisher_scoring`, lines 382-393. -/
def fitBeta_diagonal_fisher_scoring (L : NumLib α) (mattype : SexpType)
    (Y model_matrix exp_offset_matrix : Mat α) (thetas : List α) (beta_mat : Mat α)
    (tolerance : α) (max_iter : Int) : Except String (ScoringResult α) :=
  match mattype with
  | SexpType.INTSXP => Except.ok
      (fitBeta_diagonal_fisher_scoring_impl L Y model_matrix exp_offset_matrix thetas beta_mat
        tolerance max_iter)
  | SexpType.REALSXP => Except.ok
      (fitBeta_diagonal_fisher_scoring_impl L Y model_matrix exp_offset_matrix thetas beta_mat
        tolerance max_iter)
  | SexpType.OTHER => Except.error "unacceptable matrix type"

/-! ## The one-group solver (lines 200-268) -/

/-- The variables the loop over `sample_iter` accumulates (lines 225-236). -/
structure NewtonSums (α : Type) where
  dl : α
  ddl : α
  all_zero : Bool

/-- The loop over `sample_iter`, lines 225-236. -/
def newton_sums (exp : α → α) (n_samples : Nat) (counts off : Mat α) (theta beta : α) :
    NewtonSums α :=
  (List.range n_samples).foldl
    (fun acc sample_iter =>
      let count := counts.at_ sample_iter
      let all_zero := acc.all_zero && decide (count = 0)
      let mu := exp (beta + off.at_ sample_iter)
      let denom := 1 + mu * theta
      ⟨acc.dl + (count - mu) / denom, acc.ddl + mu * (1 + count * theta) / denom / denom,
        all_zero⟩)
    ⟨0, 0, true⟩

/-- What the one-group solver computes for one row: `result(gene_idx)`,
`iterations(gene_idx)`, and (not program state) the number of times line 242,
`beta += step`, was executed. -/
structure OneGroupFit (α : Type) where
  beta : RDouble α
  iter : Int
  updates : Nat

/-- The Newton-Raphson loop `for(; iter < maxIter; iter++)` of lines 224-246,
entered at `iter` with the given `beta`. -/
def newton_loop (exp : α → α) (n_samples : Nat) (counts off : Mat α) (theta tolerance : α)
    (maxIter : Int) (beta : α) (iter : Nat) : OneGroupFit α :=
  if _h : (iter : Int) < maxIter then
    let sums := newton_sums exp n_samples counts off theta beta
    if sums.all_zero then
      ⟨RDouble.R_NegInf, iter, 0⟩
    else
      let step := sums.dl / sums.ddl
      let beta := beta + step
      if |step| < tolerance then
        ⟨RDouble.val beta, iter, 1⟩
      else
        let r := newton_loop exp n_samples counts off theta tolerance maxIter beta (iter + 1)
        { r with updates := r.updates + 1 }
  else
    ⟨RDouble.val beta, iter, 0⟩
termination_by (maxIter - iter).toNat
decreasing_by omega

/-- The list `fitBeta_one_group` returns: `beta` and `iter`, one entry for
each row of `Y`. -/
structure OneGroupResult (α : Type) where
  beta : List (RDouble α)
  iter : List Int

/-- The loop over `gene_idx` of lines 212-249: the fit of every row. -/
def one_group_rows (exp : α → α) (Y offsets : Mat α) (thetas beta_start_values : List α)
    (tolerance : α) (maxIter : Int) : List (OneGroupFit α) :=
  let n_samples := Y.n_cols
  let n_genes := Y.n_rows
  (List.range n_genes).map fun gene_idx =>
    newton_loop exp n_samples (Y.get_row gene_idx n_samples)
      (offsets.get_row gene_idx n_samples) (thetas.getD gene_idx 0) tolerance maxIter
      (beta_start_values.getD gene_idx 0) 0

/-- The function `fitBeta_one_group_internal`, lines 200-254.  The call
`abs(step)` of line 243 is read as the absolute value of a `double`. -/
def fitBeta_one_group_internal (exp : α → α) (Y offsets : Mat α)
    (thetas beta_start_values : List α) (tolerance : α) (maxIter : Int) : OneGroupResult α :=
  let rows := one_group_rows exp Y offsets thetas beta_start_values tolerance maxIter
  ⟨rows.map (·.beta), rows.map (·.iter)⟩

/-- The function `fitBeta_one_group`, lines 257-268. -/
def fitBeta_one_group (exp : α → α) (mattype : SexpType) (Y offsets : Mat α)
    (thetas beta_start_values : List α) (tolerance : α) (maxIter : Int) :
    Except String (OneGroupResult α) :=
  match mattype with
  | SexpType.INTSXP => Except.ok
      (fitBeta_one_group_internal exp Y offsets thetas beta_start_values tolerance maxIter)
  | SexpType.REALSXP => Except.ok
      (fitBeta_one_group_internal exp Y offsets thetas beta_start_values tolerance maxIter)
  | SexpType.OTHER => Except.error "unacceptable matrix type"

end Solvers

section Algebra

variable {α : Type} [LinearOrderedField α]

/-! ## The steps in matrix form -/

/-- The entries `m(i, j)`, `i < n`, `j < p`, of an Armadillo matrix as a matrix
of Mathlib. -/
def Mat.toMatrix (m : Mat α) (n p : Nat) : Matrix (Fin n) (Fin p) α :=
  fun i j => m.get i j

/-- The first `n` entries `m.at(i)` of an Armadillo vector as a vector of
Mathlib. -/
def Mat.toVec (m : Mat α) (n : Nat) : Fin n → α :=
  fun i => m.at_ i

/-- The matrix `weighted_model_matrix` of line 127:
`model_matrix.each_col() % w_sqrt_vec`. -/
def fisher_weighted_model_matrix (L : NumLib α) (model_matrix mu_hat : Mat α) (theta : α) :
    Mat α :=
  Mat.each_col_schur model_matrix (Mat.map L.sqrt (w_vec mu_hat theta))

/-- The vector `score_vec` of line 131, for the factor `q` of the
decomposition. -/
def fisher_score_vec (L : NumLib α) (q counts mu_hat : Mat α) (theta : α) : Mat α :=
  Mat.mul (working_residual counts mu_hat)
    (Mat.each_col_schur q (Mat.map L.sqrt (w_vec mu_hat theta)))

/-- The vector `score_vec` of line 328. -/
def diagonal_score_vec (model_matrix counts mu_hat : Mat α) (theta : α) : Mat α :=
  Mat.mul (working_residual counts mu_hat)
    (Mat.each_col_schur model_matrix (w_vec mu_hat theta))

/-- The vector `info_vec` of line 330. -/
def diagonal_info_vec (model_matrix mu_hat : Mat α) (theta : α) : Mat α :=
  Mat.sum0 (Mat.each_col_schur (Mat.map (fun x => x ^ 2) model_matrix) (w_vec mu_hat theta))

/-- The weight `mu / (1 + theta * mu)` of a sample with the fitted mean
`mu`. -/
def weight (theta mu : α) : α :=
  mu / (1 + theta * mu)

/-- The working residual `(y - mu) / mu` of a sample with the count `y` and
the fitted mean `mu`. -/
def residual (y mu : α) : α :=
  (y - mu) / mu

/-- What `qr_econ(q, r, A)` is taken to deliver for an `n × p` matrix `A`: an
economy decomposition `A = q * r` with `q` of `n × p` and orthonormal columns,
and `r` of `p × p`, upper triangular and invertible. -/
def IsEconQR (q r A : Mat α) (n p : Nat) : Prop :=
  q.n_rows = n ∧ q.n_cols = p ∧ r.n_rows = p ∧ r.n_cols = p
    ∧ (∀ i j, i < p → j < p → j < i → r.get i j = 0)
    ∧ q.toMatrix n p * r.toMatrix p p = A.toMatrix n p
    ∧ (q.toMatrix n p).transpose * q.toMatrix n p = 1
    ∧ IsUnit (r.toMatrix p p).det

/-- What `solve(trimatu(r), b)` is taken to deliver for a `p × p` matrix `r`
and a column `b` of `p` entries: a column `x` of `p` entries with
`trimatu(r) * x = b`. -/
def SolvesUpper (solve : Mat α → Mat α → Mat α) (r : Mat α) (p : Nat) : Prop :=
  ∀ b : Mat α, b.n_rows = p → b.n_cols = 1 →
    (solve (Mat.trimatu r) b).n_rows = p ∧ (solve (Mat.trimatu r) b).n_cols = 1
      ∧ (Mat.trimatu r).toMatrix p p * (solve (Mat.trimatu r) b).toMatrix p 1
        = b.toMatrix p 1

end Algebra



/-! ## Facts about lists and matrices -/

theorem foldl_add_eq_sum {β : Type} [AddCommMonoid β] {ι : Type} (f : ι → β) (l : List ι) (init : β) :
    l.foldl (fun dev i => dev + f i) init = init + (l.map f).sum := by
  induction l generalizing init with
  | nil => simp
  | cons a l ih => simp [ih, add_assoc]

theorem compute_gp_deviance_sum_eq_sum {α : Type} [LinearOrderedField α] (log : α → α)
    (Y Mu : Mat α) (theta : α) :
    compute_gp_deviance_sum log Y Mu theta
      = ((List.range Y.n_elem).map fun i =>
          compute_gp_deviance log (Y.at_ i) (Mu.at_ i) theta).sum := by
  unfold compute_gp_deviance_sum
  rw [foldl_add_eq_sum (fun i => compute_gp_deviance log (Y.at_ i) (Mu.at_ i) theta)]
  simp

theorem map_at_range {α : Type} [Zero α] (m : Mat α) (n : Nat) (h : m.mem.length = n) :
    (List.range n).map (fun i => m.at_ i) = m.mem := by
  apply List.ext_getElem
  · simp [h]
  · intro i h1 h2
    simp [Mat.at_, List.getElem?_eq_getElem h2]

/-! ## The deviance on the reals -/

theorem compute_gp_deviance_of_lt {α : Type} [LinearOrderedField α] (log : α → α) (y mu theta : α)
    (h : theta < 1e-6) : compute_gp_deviance log y mu theta = poisson_deviance log y mu := by
  simp [compute_gp_deviance, poisson_deviance, h]

theorem compute_gp_deviance_of_ge {α : Type} [LinearOrderedField α] (log : α → α) (y mu theta : α)
    (h : 1e-6 ≤ theta) :
    compute_gp_deviance log y mu theta = gamma_poisson_deviance log y mu theta := by
  simp [compute_gp_deviance, gamma_poisson_deviance, not_lt.mpr h]

theorem poisson_deviance_nonneg (y mu : ℝ) (hy : 0 ≤ y) (hmu : 0 < mu) :
    0 ≤ poisson_deviance Real.log y mu := by
  unfold poisson_deviance
  split_ifs with h0
  · linarith
  · have hy0 : 0 < y := lt_of_le_of_ne hy (Ne.symm h0)
    have hpos : 0 < y / mu := div_pos hy0 hmu
    have hlog := Real.one_sub_inv_le_log_of_pos hpos
    have hmul : y * (1 - (y / mu)⁻¹) ≤ y * Real.log (y / mu) :=
      mul_le_mul_of_nonneg_left hlog hy
    have heq : y * (1 - (y / mu)⁻¹) = y - mu := by
      field_simp
    linarith

theorem compute_gp_deviance_self (mu theta : ℝ) (hmu : 0 < mu) :
    compute_gp_deviance Real.log mu mu theta = 0 := by
  have hne : mu ≠ 0 := ne_of_gt hmu
  unfold compute_gp_deviance
  split_ifs with h1
  · simp [div_self hne]
  · rcases eq_or_ne (mu + mu * mu * theta) 0 with h0 | h0
    · rcases eq_or_ne (1 + mu * theta) 0 with h2 | h2
      · simp [h0, h2]
      · simp [h0, div_self h2]
    · rcases eq_or_ne (1 + mu * theta) 0 with h2 | h2
      · simp [div_self h0, h2]
      · simp [div_self h0, div_self h2]

theorem at_mem {α : Type} [Zero α] (m : Mat α) (i : Nat) (h : i < m.mem.length) :
    m.at_ i ∈ m.mem := by
  simp only [Mat.at_, List.getD_eq_getElem?_getD, List.getElem?_eq_getElem h, Option.getD_some]
  exact List.getElem_mem h

/-- C2. The deviance vanishes at a perfect fit: for `mu > 0` and `theta ≥ 0`,
`compute_gp_deviance(mu, mu, theta) = 0`, and for a matrix `Mu` of positive
entries `compute_gp_deviance_sum(Mu, Mu, theta) = 0`. -/
theorem deviance_perfect_fit (mu theta : ℝ) (Mu : Mat ℝ) (hmu : 0 < mu) (_htheta : 0 ≤ theta)
    (hwf : Mu.WF) (hpos : ∀ x ∈ Mu.mem, 0 < x) :
    compute_gp_deviance Real.log mu mu theta = 0
      ∧ compute_gp_deviance_sum Real.log Mu Mu theta = 0 := by
  refine ⟨compute_gp_deviance_self mu theta hmu, ?_⟩
  rw [compute_gp_deviance_sum_eq_sum]
  apply List.sum_eq_zero
  intro x hx
  obtain ⟨i, hi, rfl⟩ := List.mem_map.mp hx
  have hi' : i < Mu.mem.length := by
    rw [hwf]
    exact List.mem_range.mp hi
  exact compute_gp_deviance_self _ theta (hpos _ (at_mem Mu i hi'))

/-- C2, the scenario of the specification: `y = mu = [2, 3, 5]` gives the row
deviance `0` (here with `theta = 1/2`, and `compute_gp_deviance(2, 2, 1/2) = 0`). -/
theorem deviance_perfect_fit_witness :
    compute_gp_deviance Real.log 2 2 (1 / 2) = 0
      ∧ compute_gp_deviance_sum Real.log (Mat.ofRow [2, 3, 5]) (Mat.ofRow [2, 3, 5]) (1 / 2) = 0 :=
  deviance_perfect_fit 2 (1 / 2) (Mat.ofRow [2, 3, 5]) (by norm_num) (by norm_num)
    (by simp [Mat.WF, Mat.ofRow, Mat.n_elem])
    (by
      intro x hx
      simp only [Mat.ofRow, List.mem_cons, List.mem_singleton, List.not_mem_nil, or_false] at hx
      rcases hx with h | h | h <;> rw [h] <;> norm_num)

/-- C3. For an all-zero count matrix `Y`, a matrix `Mu` with as many elements
as `Y` and a scalar `theta < 1e-6`, `compute_gp_deviance_sum(Y, Mu, theta)` is
twice the sum of the entries of `Mu`. -/
theorem deviance_sum_zero_counts {α : Type} [LinearOrderedField α] (log : α → α) (Y Mu : Mat α)
    (theta : α) (hY : ∀ y ∈ Y.mem, y = 0) (hlen : Mu.mem.length = Y.n_elem)
    (htheta : theta < 1e-6) :
    compute_gp_deviance_sum log Y Mu theta = 2 * Mu.mem.sum := by
  have hY0 : ∀ i, Y.at_ i = 0 := by
    intro i
    rcases lt_or_le i Y.mem.length with h | h
    · exact hY _ (at_mem Y i h)
    · simp [Mat.at_, List.getElem?_eq_none h]
  rw [compute_gp_deviance_sum_eq_sum]
  have hterm : ∀ i, compute_gp_deviance log (Y.at_ i) (Mu.at_ i) theta = 2 * Mu.at_ i := by
    intro i
    simp [compute_gp_deviance, htheta, hY0 i]
  simp only [hterm]
  rw [← map_at_range Mu Y.n_elem hlen, List.sum_map_mul_left]

/-- C3, the scenario of the specification: `y = [0, 0, 0]`, `mu = [1, 1, 1]`,
`theta = 0` gives the deviance `6`. -/
theorem deviance_sum_zero_counts_witness :
    compute_gp_deviance_sum Real.log (Mat.ofRow [0, 0, 0]) (Mat.ofRow [1, 1, 1]) 0 = 6 := by
  have h := deviance_sum_zero_counts Real.log (Mat.ofRow [0, 0, 0]) (Mat.ofRow [1, 1, 1]) 0
    (by simp [Mat.ofRow]) (by simp [Mat.ofRow, Mat.n_elem]) (by norm_num)
  rw [h]
  norm_num [Mat.ofRow]

theorem tendsto_log_slope (a b : ℝ) :
    Filter.Tendsto (fun theta : ℝ => 1 / theta * Real.log ((1 + a * theta) / (1 + b * theta)))
      (nhdsWithin 0 (Set.Ioi 0)) (nhds (a - b)) := by
  have hA : HasDerivAt (fun theta : ℝ => 1 + a * theta) a 0 := by
    simpa using ((hasDerivAt_id (0 : ℝ)).const_mul a).const_add 1
  have hB : HasDerivAt (fun theta : ℝ => 1 + b * theta) b 0 := by
    simpa using ((hasDerivAt_id (0 : ℝ)).const_mul b).const_add 1
  have hq : HasDerivAt (fun theta : ℝ => (1 + a * theta) / (1 + b * theta)) (a - b) 0 := by
    have := hA.div hB (by norm_num)
    simpa using this
  have hl : HasDerivAt (fun theta : ℝ => Real.log ((1 + a * theta) / (1 + b * theta))) (a - b) 0 := by
    have := hq.log (by norm_num)
    simpa using this
  have hs := hasDerivAt_iff_tendsto_slope.mp hl
  have hs2 := hs.mono_left (nhdsWithin_mono (0 : ℝ) (fun x (hx : x ∈ Set.Ioi (0 : ℝ)) =>
    (ne_of_gt hx : x ≠ 0)))
  refine hs2.congr (fun theta => ?_)
  simp [slope_def_field, div_eq_inv_mul]

/-- C4. For `y ≥ 0` and `mu > 0`, the closed form `compute_gp_deviance` returns
for `theta ≥ 1e-6`, read as a function of `theta > 0`, converges as
`theta → 0+` to the Poisson deviance `compute_gp_deviance` returns for
`theta < 1e-6`. -/
theorem gamma_poisson_deviance_tendsto_poisson (y mu : ℝ) (hy : 0 ≤ y) (hmu : 0 < mu) :
    (∀ theta : ℝ, 1e-6 ≤ theta →
        compute_gp_deviance Real.log y mu theta = gamma_poisson_deviance Real.log y mu theta)
      ∧ (∀ theta : ℝ, theta < 1e-6 →
        compute_gp_deviance Real.log y mu theta = poisson_deviance Real.log y mu)
      ∧ Filter.Tendsto (fun theta : ℝ => gamma_poisson_deviance Real.log y mu theta)
          (nhdsWithin 0 (Set.Ioi 0)) (nhds (poisson_deviance Real.log y mu)) := by
  refine ⟨fun theta h => compute_gp_deviance_of_ge _ _ _ _ h,
    fun theta h => compute_gp_deviance_of_lt _ _ _ _ h, ?_⟩
  rcases eq_or_lt_of_le hy with h0 | hpos
  · -- y = 0
    subst h0
    have h := (tendsto_log_slope mu 0).const_mul 2
    simp only [poisson_deviance, gamma_poisson_deviance, if_true]
    have e : (2 : ℝ) * (mu - 0) = 2 * mu := by ring
    rw [e] at h
    refine h.congr (fun theta => ?_)
    simp
    ring
  · have hne : y ≠ 0 := ne_of_gt hpos
    simp only [poisson_deviance, gamma_poisson_deviance, if_neg hne]
    have hs2 := tendsto_log_slope mu y
    have hc : ContinuousAt
        (fun theta : ℝ => y * Real.log ((mu + y * mu * theta) / (y + y * mu * theta))) 0 := by
      have hden : y + y * mu * (0 : ℝ) ≠ 0 := by simpa using hne
      have hnum : (mu + y * mu * (0 : ℝ)) / (y + y * mu * 0) ≠ 0 := by
        simp only [mul_zero, add_zero]
        exact div_ne_zero (ne_of_gt hmu) hne
      have hq : ContinuousAt (fun theta : ℝ => (mu + y * mu * theta) / (y + y * mu * theta)) 0 :=
        ContinuousAt.div (by fun_prop) (by fun_prop) hden
      exact continuousAt_const.mul (hq.log hnum)
    have hs1 := hc.tendsto.mono_left (nhdsWithin_le_nhds (s := Set.Ioi (0 : ℝ)))
    have h := ((hs1.sub hs2).const_mul (-2))
    have e : (-2 : ℝ) * (y * Real.log ((mu + y * mu * 0) / (y + y * mu * 0)) - (mu - y))
        = 2 * (y * Real.log (y / mu) - (y - mu)) := by
      simp only [mul_zero, add_zero]
      rw [Real.log_div (ne_of_gt hmu) hne, Real.log_div hne (ne_of_gt hmu)]
      ring
    rw [e] at h
    exact h

/-- C4 at `y = 3`, `mu = 2`. -/
theorem gamma_poisson_deviance_tendsto_poisson_witness :
    Filter.Tendsto (fun theta : ℝ => gamma_poisson_deviance Real.log 3 2 theta)
      (nhdsWithin 0 (Set.Ioi 0)) (nhds (poisson_deviance Real.log 3 2)) :=
  (gamma_poisson_deviance_tendsto_poisson 3 2 (by norm_num) (by norm_num)).2.2

/-- C5, as the code has it. The overload of `compute_gp_deviance_sum` with a
vector of dispersions sums `compute_gp_deviance(Y[i], Mu[i], theta[i mod
Y.n_rows])` over the elements of `Y`; for a row `Y`, where `Y.n_rows = 1`,
every element uses `theta[0]`, so the result is that of the scalar overload at
`theta[0]`. -/
theorem deviance_sum_thetas_index {α : Type} [LinearOrderedField α] (log : α → α) (Y Mu : Mat α)
    (ys thetas : List α) :
    compute_gp_deviance_sum_thetas log Y Mu thetas
        = ((List.range Y.n_elem).map fun i =>
            compute_gp_deviance log (Y.at_ i) (Mu.at_ i) (thetas.getD (i % Y.n_rows) 0)).sum
      ∧ compute_gp_deviance_sum_thetas log (Mat.ofRow ys) Mu thetas
        = compute_gp_deviance_sum log (Mat.ofRow ys) Mu (thetas.getD 0 0) := by
  constructor
  · unfold compute_gp_deviance_sum_thetas
    simp only []
    rw [foldl_add_eq_sum
      (fun i => compute_gp_deviance log (Y.at_ i) (Mu.at_ i) (thetas.getD (i % Y.n_rows) 0))]
    simp
  · unfold compute_gp_deviance_sum_thetas compute_gp_deviance_sum
    simp [Mat.ofRow, Nat.mod_one]

/-- C5, refuted as stated. For the rows `Y = [0, 0]` and `Mu = [1, 1]` and the
dispersions `[0, 1]`, the overload returns `4` (both elements use `theta[0]`),
while the sum with `theta[i mod n_samples]` is `2 + 2 * log 2`. -/
theorem deviance_sum_thetas_not_mod_samples :
    compute_gp_deviance_sum_thetas Real.log (Mat.ofRow [0, 0]) (Mat.ofRow [1, 1]) [0, 1] = 4
      ∧ spec_deviance_sum_thetas Real.log [0, 0] [1, 1] [0, 1] = 2 + 2 * Real.log 2
      ∧ compute_gp_deviance_sum_thetas Real.log (Mat.ofRow [0, 0]) (Mat.ofRow [1, 1]) [0, 1]
          ≠ spec_deviance_sum_thetas Real.log [0, 0] [1, 1] [0, 1] := by
  have h1 : compute_gp_deviance_sum_thetas Real.log (Mat.ofRow [0, 0]) (Mat.ofRow [1, 1]) [0, 1]
      = 4 := by
    norm_num [compute_gp_deviance_sum_thetas, compute_gp_deviance, Mat.ofRow, Mat.n_elem,
      Mat.at_, List.range, List.range.loop]
  have h2 : spec_deviance_sum_thetas Real.log [0, 0] [1, 1] [0, 1] = 2 + 2 * Real.log 2 := by
    norm_num [spec_deviance_sum_thetas, compute_gp_deviance, List.range, List.range.loop]
  refine ⟨h1, h2, ?_⟩
  rw [h1, h2]
  have hlog : Real.log 2 < 2 - 1 := Real.log_lt_sub_one_of_pos (by norm_num) (by norm_num)
  intro h
  linarith

/-! ## The clamp -/

theorem length_eq_of_getElem?_none {β : Type} {a b : List β}
    (h : ∀ i : Nat, a[i]? = none ↔ b[i]? = none) : a.length = b.length := by
  simp only [List.getElem?_eq_none_iff] at h
  exact le_antisymm ((h b.length).mpr le_rfl) ((h a.length).mp le_rfl)

/-- The state of the loop of `clamp_inplace` after the iterations `i < n`. -/
theorem clamp_inplace_fold {α : Type} [Zero α] [LT α]
    [DecidableRel (fun a b : α => a < b)] (v : Mat α) (lo hi : α) (n : Nat) :
    ((List.range n).foldl
        (fun v i =>
          if v.at_ i < lo then v.set i lo
          else if v.at_ i > hi then v.set i hi
          else v) v).n_rows = v.n_rows
      ∧ ((List.range n).foldl
        (fun v i =>
          if v.at_ i < lo then v.set i lo
          else if v.at_ i > hi then v.set i hi
          else v) v).n_cols = v.n_cols
      ∧ ∀ i, ((List.range n).foldl
        (fun v i =>
          if v.at_ i < lo then v.set i lo
          else if v.at_ i > hi then v.set i hi
          else v) v).mem[i]?
          = if i < n then (v.mem[i]?).map (clamp_value lo hi) else v.mem[i]? := by
  induction n with
  | zero => simp
  | succ n ih =>
    rw [List.range_succ, List.foldl_append]
    obtain ⟨ih1, ih2, ih3⟩ := ih
    generalize (List.range n).foldl
        (fun v i =>
          if v.at_ i < lo then v.set i lo
          else if v.at_ i > hi then v.set i hi
          else v) v = r at ih1 ih2 ih3
    have hat : r.at_ n = (v.mem[n]?).getD 0 := by
      simp [Mat.at_, ih3 n]
    simp only [List.foldl_cons, List.foldl_nil]
    refine ⟨?_, ?_, ?_⟩
    · split_ifs <;> simp [Mat.set, ih1]
    · split_ifs <;> simp [Mat.set, ih2]
    · intro i
      have hnone : ∀ j : Nat, r.mem[j]? = none ↔ v.mem[j]? = none := by
        intro j
        rw [ih3 j]
        split_ifs <;> simp
      have hlen : r.mem.length = v.mem.length := length_eq_of_getElem?_none hnone
      rcases Nat.lt_trichotomy i n with hlt | heq | hgt
      · have hne : n ≠ i := by omega
        have hi1 : i < n + 1 := by omega
        split_ifs <;> simp [Mat.set, List.getElem?_set_ne hne, ih3 i, hlt]
      · subst heq
        rcases lt_or_le i v.mem.length with hin | hout
        · have hv : v.mem[i]? = some v.mem[i] := List.getElem?_eq_getElem hin
          have hin' : i < r.mem.length := by omega
          rw [hv] at hat
          simp only [Option.getD_some] at hat
          simp only [hat, hv, Option.map_some', lt_add_iff_pos_right, zero_lt_one, if_true,
            clamp_value]
          split_ifs with c1 c2
          · simp [Mat.set, List.getElem?_set, hin']
          · simp [Mat.set, List.getElem?_set, hin']
          · rw [ih3 i]
            simp [hv]
        · have hv : v.mem[i]? = none := List.getElem?_eq_none hout
          have hout' : r.mem.length ≤ i := by omega
          simp only [hv, Option.map_none', lt_add_iff_pos_right, zero_lt_one, if_true]
          split_ifs <;> simp [Mat.set, List.getElem?_set, List.getElem?_eq_none hout']
            <;> omega
      · have hne : n ≠ i := by omega
        have hi1 : ¬ i < n + 1 := by omega
        have hi2 : ¬ i < n := by omega
        split_ifs <;> simp [Mat.set, List.getElem?_set_ne hne, ih3 i, hi2]

theorem clamp_inplace_getElem? {α : Type} [Zero α] [LT α]
    [DecidableRel (fun a b : α => a < b)] (v : Mat α) (lo hi : α)
    (i : Nat) :
    (clamp_inplace v lo hi).mem[i]?
      = if i < v.n_elem then (v.mem[i]?).map (clamp_value lo hi) else v.mem[i]? :=
  (clamp_inplace_fold v lo hi v.n_elem).2.2 i

theorem clamp_inplace_length {α : Type} [Zero α] [LT α]
    [DecidableRel (fun a b : α => a < b)] (v : Mat α) (lo hi : α) :
    (clamp_inplace v lo hi).mem.length = v.mem.length := by
  apply length_eq_of_getElem?_none
  intro j
  rw [clamp_inplace_getElem?]
  split_ifs <;> simp

theorem clamp_value_bounds {α : Type} [LinearOrderedField α] (lo hi x : α) (h : lo ≤ hi) :
    lo ≤ clamp_value lo hi x ∧ clamp_value lo hi x ≤ hi := by
  unfold clamp_value
  split_ifs with h1 h2
  · exact ⟨le_rfl, h⟩
  · exact ⟨h, le_rfl⟩
  · exact ⟨not_lt.mp h1, not_lt.mp h2⟩

theorem clamp_value_eq_min_max {α : Type} [LinearOrderedField α] (lo hi x : α) (h : lo ≤ hi) :
    clamp_value lo hi x = min (max x lo) hi := by
  unfold clamp_value
  split_ifs with h1 h2
  · rw [max_eq_right (le_of_lt h1), min_eq_left h]
  · rw [max_eq_left (le_trans h (le_of_lt h2)), min_eq_right (le_of_lt h2)]
  · rw [max_eq_left (not_lt.mp h1), min_eq_left (not_lt.mp h2)]

/-- Every stored element of a clamped matrix lies within the bounds, when the
matrix stores no more than `n_elem` elements. -/
theorem clamp_inplace_mem_bounds {α : Type} [LinearOrderedField α] (v : Mat α) (lo hi : α)
    (h : lo ≤ hi) (hlen : v.mem.length ≤ v.n_elem) :
    ∀ x ∈ (clamp_inplace v lo hi).mem, lo ≤ x ∧ x ≤ hi := by
  intro x hx
  obtain ⟨i, hi', rfl⟩ := List.getElem_of_mem hx
  have hi2 : i < v.mem.length := by
    rw [clamp_inplace_length] at hi'
    exact hi'
  have hget := clamp_inplace_getElem? v lo hi i
  rw [List.getElem?_eq_getElem hi', List.getElem?_eq_getElem hi2,
    if_pos (lt_of_lt_of_le hi2 hlen)] at hget
  simp only [Option.map_some', Option.some.injEq] at hget
  rw [hget]
  exact clamp_value_bounds lo hi _ h

theorem clamp_inplace_at {α : Type} [Zero α] [LT α]
    [DecidableRel (fun a b : α => a < b)] (v : Mat α) (lo hi : α)
    (hwf : v.WF) (i : Nat) (hi' : i < v.n_elem) :
    (clamp_inplace v lo hi).at_ i = clamp_value lo hi (v.at_ i) := by
  have hi2 : i < v.mem.length := by
    rw [hwf]
    exact hi'
  have hget := clamp_inplace_getElem? v lo hi i
  rw [if_pos hi', List.getElem?_eq_getElem hi2] at hget
  simp [Mat.at_, hget, List.getElem?_eq_getElem hi2]

/-- On an ordered field, where every element compares with the bounds: for a
well-formed matrix `v` and bounds `lo ≤ hi`, `clamp_inplace(v, lo, hi)` keeps
the shape and the length of `v`; an element below `lo` becomes `lo`, an element
above `hi` becomes `hi`, any other element is unchanged; so element `i`
becomes `min(max(v[i], lo), hi)` and lies in `[lo, hi]`. -/
theorem clamp_inplace_spec {α : Type} [LinearOrderedField α] (v : Mat α) (lo hi : α)
    (hwf : v.WF) (h : lo ≤ hi) :
    (clamp_inplace v lo hi).n_rows = v.n_rows
      ∧ (clamp_inplace v lo hi).n_cols = v.n_cols
      ∧ (clamp_inplace v lo hi).mem.length = v.mem.length
      ∧ ∀ i, i < v.n_elem →
          (v.at_ i < lo → (clamp_inplace v lo hi).at_ i = lo)
          ∧ (hi < v.at_ i → (clamp_inplace v lo hi).at_ i = hi)
          ∧ (lo ≤ v.at_ i → v.at_ i ≤ hi → (clamp_inplace v lo hi).at_ i = v.at_ i)
          ∧ (clamp_inplace v lo hi).at_ i = min (max (v.at_ i) lo) hi
          ∧ lo ≤ (clamp_inplace v lo hi).at_ i
          ∧ (clamp_inplace v lo hi).at_ i ≤ hi := by
  refine ⟨(clamp_inplace_fold v lo hi v.n_elem).1, (clamp_inplace_fold v lo hi v.n_elem).2.1,
    clamp_inplace_length v lo hi, ?_⟩
  intro i hi'
  rw [clamp_inplace_at v lo hi hwf i hi']
  refine ⟨?_, ?_, ?_, clamp_value_eq_min_max lo hi _ h, clamp_value_bounds lo hi _ h⟩
  · intro h1
    simp [clamp_value, h1]
  · intro h1
    simp [clamp_value, h1, not_lt.mpr (le_trans h (le_of_lt h1))]
  · intro h1 h2
    simp [clamp_value, not_lt.mpr h1, not_lt.mpr h2]

/-- The clamp of the row `[0, 5, 1/2, 3]` of rationals with the bounds `1` and
`3`: the result has four elements, and element `1`, which was `5`, is `3`. -/
theorem clamp_inplace_spec_witness :
    (clamp_inplace (Mat.ofRow [(0 : ℚ), 5, 1 / 2, 3]) 1 3).mem.length = 4
      ∧ (clamp_inplace (Mat.ofRow [(0 : ℚ), 5, 1 / 2, 3]) 1 3).at_ 1 = 3 := by
  have h := clamp_inplace_spec (Mat.ofRow [(0 : ℚ), 5, 1 / 2, 3]) 1 3
    (by simp [Mat.WF, Mat.ofRow, Mat.n_elem]) (by norm_num)
  refine ⟨by simpa [Mat.ofRow] using h.2.2.1, ?_⟩
  have h1 := (h.2.2.2 1 (by simp [Mat.ofRow, Mat.n_elem])).2.1
  exact h1 (by norm_num [Mat.ofRow, Mat.at_])

/-! ## The line search -/

section LineSearch

variable {α : Type} [LinearOrderedField α] (L : NumLib α) (diagonal : Bool)
  (model_matrix counts exp_off : Mat α) (theta tolerance : α) (beta_hat step : Mat α)
  (dev_old : α)

theorem line_search_unfold (speeding_factor : α) (line_iter : Nat) :
    line_search L diagonal model_matrix counts exp_off theta tolerance beta_hat step dev_old
        speeding_factor line_iter
      = if (line_search_trial L model_matrix counts exp_off theta beta_hat step dev_old
            speeding_factor line_iter).accepted dev_old tolerance then
          ⟨(line_search_trial L model_matrix counts exp_off theta beta_hat step dev_old
              speeding_factor line_iter).beta_prop,
            (line_search_trial L model_matrix counts exp_off theta beta_hat step dev_old
              speeding_factor line_iter).mu_hat,
            (line_search_trial L model_matrix counts exp_off theta beta_hat step dev_old
              speeding_factor line_iter).dev,
            some (line_search_trial L model_matrix counts exp_off theta beta_hat step dev_old
              speeding_factor line_iter).conv_test,
            speeding_factor, line_iter,
            [line_search_trial L model_matrix counts exp_off theta beta_hat step dev_old
              speeding_factor line_iter]⟩
        else if line_iter ≥ 100 ∨ (diagonal = true ∧ speeding_factor < 1e-6) then
          ⟨(line_search_trial L model_matrix counts exp_off theta beta_hat step dev_old
              speeding_factor line_iter).beta_prop,
            (line_search_trial L model_matrix counts exp_off theta beta_hat step dev_old
              speeding_factor line_iter).mu_hat,
            (line_search_trial L model_matrix counts exp_off theta beta_hat step dev_old
              speeding_factor line_iter).dev,
            none, speeding_factor, line_iter,
            [line_search_trial L model_matrix counts exp_off theta beta_hat step dev_old
              speeding_factor line_iter]⟩
        else
          { line_search L diagonal model_matrix counts exp_off theta tolerance beta_hat step
              dev_old (speeding_factor / 2) (line_iter + 1) with
            trials := line_search_trial L model_matrix counts exp_off theta beta_hat step dev_old
                speeding_factor line_iter
              :: (line_search L diagonal model_matrix counts exp_off theta tolerance beta_hat
                step dev_old (speeding_factor / 2) (line_iter + 1)).trials } := by
  rw [line_search]
  split_ifs <;> rfl

/-- What the line search entered with `speeding_factor` and `line_iter` leaves
behind: for some number `j` of halvings, the trials `0, ..., j` were made, trial
`k` at the factor `speeding_factor / 2 ^ k`; the trials before the last one
failed the acceptance test and did not meet the divergence test; the last one
was accepted, or it failed and met the divergence test. -/
theorem line_search_spec (speeding_factor : α) (line_iter : Nat) :
    ∃ j : Nat,
      (line_search L diagonal model_matrix counts exp_off theta tolerance beta_hat step dev_old
          speeding_factor line_iter).line_iter = line_iter + j
      ∧ (line_search L diagonal model_matrix counts exp_off theta tolerance beta_hat step dev_old
          speeding_factor line_iter).speeding_factor = speeding_factor / 2 ^ j
      ∧ (line_search L diagonal model_matrix counts exp_off theta tolerance beta_hat step dev_old
          speeding_factor line_iter).trials
          = (List.range (j + 1)).map (fun k =>
              line_search_trial L model_matrix counts exp_off theta beta_hat step dev_old
                (speeding_factor / 2 ^ k) (line_iter + k))
      ∧ (line_search L diagonal model_matrix counts exp_off theta tolerance beta_hat step dev_old
          speeding_factor line_iter).beta_prop
          = (line_search_trial L model_matrix counts exp_off theta beta_hat step dev_old
              (speeding_factor / 2 ^ j) (line_iter + j)).beta_prop
      ∧ (line_search L diagonal model_matrix counts exp_off theta tolerance beta_hat step dev_old
          speeding_factor line_iter).mu_hat
          = (line_search_trial L model_matrix counts exp_off theta beta_hat step dev_old
              (speeding_factor / 2 ^ j) (line_iter + j)).mu_hat
      ∧ (line_search L diagonal model_matrix counts exp_off theta tolerance beta_hat step dev_old
          speeding_factor line_iter).dev
          = (line_search_trial L model_matrix counts exp_off theta beta_hat step dev_old
              (speeding_factor / 2 ^ j) (line_iter + j)).dev
      ∧ (∀ k, k < j →
          ¬ (line_search_trial L model_matrix counts exp_off theta beta_hat step dev_old
              (speeding_factor / 2 ^ k) (line_iter + k)).accepted dev_old tolerance
          ∧ line_iter + k < 100
          ∧ ¬ (diagonal = true ∧ speeding_factor / 2 ^ k < 1e-6))
      ∧ (((line_search L diagonal model_matrix counts exp_off theta tolerance beta_hat step
              dev_old speeding_factor line_iter).conv_test
            = some (line_search_trial L model_matrix counts exp_off theta beta_hat step dev_old
              (speeding_factor / 2 ^ j) (line_iter + j)).conv_test
          ∧ (line_search_trial L model_matrix counts exp_off theta beta_hat step dev_old
              (speeding_factor / 2 ^ j) (line_iter + j)).accepted dev_old tolerance)
        ∨ ((line_search L diagonal model_matrix counts exp_off theta tolerance beta_hat step
              dev_old speeding_factor line_iter).conv_test = none
          ∧ ¬ (line_search_trial L model_matrix counts exp_off theta beta_hat step dev_old
              (speeding_factor / 2 ^ j) (line_iter + j)).accepted dev_old tolerance
          ∧ (line_iter + j ≥ 100 ∨ (diagonal = true ∧ speeding_factor / 2 ^ j < 1e-6)))) := by
  induction speeding_factor, line_iter using
    line_search.induct L diagonal model_matrix counts exp_off theta tolerance beta_hat step
      dev_old with
  | case1 sf li trial hacc =>
    refine ⟨0, ?_⟩
    rw [line_search_unfold]
    simp only [trial] at hacc
    simp [hacc, List.range_succ]
  | case2 sf li trial hacc hstop =>
    refine ⟨0, ?_⟩
    rw [line_search_unfold]
    simp only [trial] at hacc
    simp only [hacc, if_false, hstop, if_true]
    simp [hacc, hstop, List.range_succ]
  | case3 sf li trial hacc hstop ih =>
    obtain ⟨j, h1, h2, h3, h4, h5, h6, h7, h8⟩ := ih
    have hpow : ∀ k : Nat, sf / 2 / 2 ^ k = sf / 2 ^ (k + 1) := by
      intro k
      rw [pow_succ, div_div, mul_comm]
    have hadd : ∀ k : Nat, li + 1 + k = li + (k + 1) := by
      intro k
      omega
    simp only [hpow, hadd] at h1 h2 h3 h4 h5 h6 h7 h8
    refine ⟨j + 1, ?_⟩
    rw [line_search_unfold]
    simp only [trial] at hacc
    simp only [hacc, if_false, hstop]
    refine ⟨h1, h2, ?_, h4, h5, h6, ?_, h8⟩
    · rw [h3, List.range_succ_eq_map (j + 1)]
      simp [Function.comp_def]
    · intro k hk
      rcases k with _ | k
      · simpa using ⟨hacc, by simpa using hstop⟩
      · exact h7 k (by omega)

end LineSearch

/-! ## The loop over the iterations -/

section ScoringLoop

variable {α : Type} [LinearOrderedField α] (L : NumLib α) (diagonal : Bool)
  (model_matrix counts exp_off : Mat α) (theta tolerance : α) (max_iter : Int)

theorem scoring_loop_unfold (t : Nat) (beta_hat mu_hat : Mat α) (dev_old speeding_factor : α)
    (iterations : Int) :
    scoring_loop L diagonal model_matrix counts exp_off theta tolerance max_iter t beta_hat
        mu_hat dev_old speeding_factor iterations
      = if (t : Int) < max_iter then
          match (scoring_iteration L diagonal model_matrix counts exp_off theta tolerance t
              beta_hat mu_hat dev_old speeding_factor).search.conv_test with
          | none =>
            ⟨(scoring_iteration L diagonal model_matrix counts exp_off theta tolerance t
                beta_hat mu_hat dev_old speeding_factor).search.beta_prop.mem.map
                fun _ => RDouble.NA_REAL,
              max_iter, true,
              [scoring_iteration L diagonal model_matrix counts exp_off theta tolerance t
                beta_hat mu_hat dev_old speeding_factor]⟩
          | some conv_test =>
            if 0 < t ∧ conv_test < tolerance then
              ⟨(scoring_iteration L diagonal model_matrix counts exp_off theta tolerance t
                  beta_hat mu_hat dev_old speeding_factor).search.beta_prop.mem.map RDouble.val,
                iterations + 1, false,
                [scoring_iteration L diagonal model_matrix counts exp_off theta tolerance t
                  beta_hat mu_hat dev_old speeding_factor]⟩
            else
              { scoring_loop L diagonal model_matrix counts exp_off theta tolerance max_iter
                  (t + 1)
                  (scoring_iteration L diagonal model_matrix counts exp_off theta tolerance t
                    beta_hat mu_hat dev_old speeding_factor).search.beta_prop
                  (scoring_iteration L diagonal model_matrix counts exp_off theta tolerance t
                    beta_hat mu_hat dev_old speeding_factor).search.mu_hat
                  (scoring_iteration L diagonal model_matrix counts exp_off theta tolerance t
                    beta_hat mu_hat dev_old speeding_factor).search.dev
                  (scoring_iteration L diagonal model_matrix counts exp_off theta tolerance t
                    beta_hat mu_hat dev_old speeding_factor).speeding_factor
                  (iterations + 1) with
                history :=
                  scoring_iteration L diagonal model_matrix counts exp_off theta tolerance t
                    beta_hat mu_hat dev_old speeding_factor
                  :: (scoring_loop L diagonal model_matrix counts exp_off theta tolerance
                    max_iter (t + 1)
                    (scoring_iteration L diagonal model_matrix counts exp_off theta tolerance t
                      beta_hat mu_hat dev_old speeding_factor).search.beta_prop
                    (scoring_iteration L diagonal model_matrix counts exp_off theta tolerance t
                      beta_hat mu_hat dev_old speeding_factor).search.mu_hat
                    (scoring_iteration L diagonal model_matrix counts exp_off theta tolerance t
                      beta_hat mu_hat dev_old speeding_factor).search.dev
                    (scoring_iteration L diagonal model_matrix counts exp_off theta tolerance t
                      beta_hat mu_hat dev_old speeding_factor).speeding_factor
                    (iterations + 1)).history }
        else
          ⟨beta_hat.mem.map RDouble.val, iterations, false, []⟩ := by
  rw [scoring_loop]
  split_ifs <;> rfl

/-- Invariant rule for the loop over `t`: if `I` holds of the variables on
entry, is kept by every pass through the body, and makes `Q` hold of the
record of a pass, then `Q` holds of the record of every iteration. -/
theorem scoring_loop_history (I : Nat → Mat α → Mat α → α → α → Prop)
    (Q : IterRecord α → Prop)
    (hQ : ∀ t beta_hat mu_hat dev_old speeding_factor, I t beta_hat mu_hat dev_old speeding_factor →
      Q (scoring_iteration L diagonal model_matrix counts exp_off theta tolerance t beta_hat
        mu_hat dev_old speeding_factor))
    (hI : ∀ t beta_hat mu_hat dev_old speeding_factor, I t beta_hat mu_hat dev_old speeding_factor →
      I (t + 1)
        (scoring_iteration L diagonal model_matrix counts exp_off theta tolerance t beta_hat
          mu_hat dev_old speeding_factor).search.beta_prop
        (scoring_iteration L diagonal model_matrix counts exp_off theta tolerance t beta_hat
          mu_hat dev_old speeding_factor).search.mu_hat
        (scoring_iteration L diagonal model_matrix counts exp_off theta tolerance t beta_hat
          mu_hat dev_old speeding_factor).search.dev
        (scoring_iteration L diagonal model_matrix counts exp_off theta tolerance t beta_hat
          mu_hat dev_old speeding_factor).speeding_factor)
    (t : Nat) (beta_hat mu_hat : Mat α) (dev_old speeding_factor : α) (iterations : Int)
    (h0 : I t beta_hat mu_hat dev_old speeding_factor) :
    ∀ it ∈ (scoring_loop L diagonal model_matrix counts exp_off theta tolerance max_iter t
      beta_hat mu_hat dev_old speeding_factor iterations).history, Q it := by
  induction t, beta_hat, mu_hat, dev_old, speeding_factor, iterations using
    scoring_loop.induct L diagonal model_matrix counts exp_off theta tolerance max_iter with
  | case1 t beta_hat mu_hat dev_old speeding_factor iterations hlt record hnone =>
    rw [scoring_loop_unfold]
    simp only [record] at hnone
    simp only [hlt, if_true, hnone, List.mem_singleton]
    intro it hit
    rw [hit]
    exact hQ _ _ _ _ _ h0
  | case2 t beta_hat mu_hat dev_old speeding_factor iterations hlt record c hsome hconv =>
    rw [scoring_loop_unfold]
    simp only [record] at hsome
    simp only [hlt, if_true, hsome, hconv, and_self, List.mem_singleton]
    intro it hit
    rw [hit]
    exact hQ _ _ _ _ _ h0
  | case3 t beta_hat mu_hat dev_old speeding_factor iterations hlt its record bh c hsome
      hconv ih =>
    rw [scoring_loop_unfold]
    simp only [record] at hsome
    simp only [hlt, if_true, hsome, hconv, if_false, List.mem_cons]
    intro it hit
    rcases hit with hit | hit
    · rw [hit]
      exact hQ _ _ _ _ _ h0
    · exact ih (hI _ _ _ _ _ h0) it hit
  | case4 t beta_hat mu_hat dev_old speeding_factor iterations hlt =>
    rw [scoring_loop_unfold]
    simp [hlt]

theorem scoring_loop_iterations_le (t : Nat) (beta_hat mu_hat : Mat α)
    (dev_old speeding_factor : α) (iterations : Int) (h1 : iterations ≤ t)
    (h2 : (t : Int) ≤ max_iter) :
    (scoring_loop L diagonal model_matrix counts exp_off theta tolerance max_iter t beta_hat
      mu_hat dev_old speeding_factor iterations).iterations ≤ max_iter := by
  induction t, beta_hat, mu_hat, dev_old, speeding_factor, iterations using
    scoring_loop.induct L diagonal model_matrix counts exp_off theta tolerance max_iter with
  | case1 t beta_hat mu_hat dev_old speeding_factor iterations hlt record hnone =>
    rw [scoring_loop_unfold]
    simp only [record] at hnone
    simp [hlt, hnone]
  | case2 t beta_hat mu_hat dev_old speeding_factor iterations hlt record c hsome hconv =>
    rw [scoring_loop_unfold]
    simp only [record] at hsome
    simp only [hlt, if_true, hsome, hconv, and_self]
    omega
  | case3 t beta_hat mu_hat dev_old speeding_factor iterations hlt its record bh c hsome
      hconv ih =>
    rw [scoring_loop_unfold]
    simp only [record] at hsome
    simp only [hlt, if_true, hsome, hconv, if_false]
    apply ih
    · simp only [its]
      push_cast
      omega
    · push_cast
      omega
  | case4 t beta_hat mu_hat dev_old speeding_factor iterations hlt =>
    rw [scoring_loop_unfold]
    simp only [hlt, if_false]
    omega

end ScoringLoop

/-! ## The fitted mean stays within the clamp bounds -/

theorem get_row_length {α : Type} [Zero α] (m : Mat α) (r n : Nat) :
    (m.get_row r n).mem.length = (m.get_row r n).n_elem := by
  simp [Mat.get_row, Mat.ofFn, Mat.n_elem]

theorem fitted_mean_bounds {α : Type} [LinearOrderedField α] (L : NumLib α)
    (model_matrix exp_off beta : Mat α) (hlen : exp_off.mem.length ≤ exp_off.n_elem) :
    ∀ x ∈ (fitted_mean L model_matrix exp_off beta).mem, (1e-50 : α) ≤ x ∧ x ≤ 1e50 := by
  unfold fitted_mean
  apply clamp_inplace_mem_bounds
  · norm_num
  · simp only [Mat.zipWith, Mat.n_elem, List.length_zipWith]
    exact le_trans (min_le_left _ _) hlen

theorem mem_fit_rows {α : Type} [LinearOrderedField α] (L : NumLib α) (diagonal : Bool)
    (Y model_matrix exp_offset_matrix : Mat α) (thetas : List α) (beta_mat : Mat α)
    (tolerance : α) (max_iter : Int) (r : RowFit α)
    (hr : r ∈ fit_rows L diagonal Y model_matrix exp_offset_matrix thetas beta_mat tolerance
      max_iter) :
    ∃ gene_idx, gene_idx < Y.n_rows
      ∧ r = fit_row L diagonal model_matrix (Y.get_row gene_idx Y.n_cols)
          (exp_offset_matrix.get_row gene_idx Y.n_cols) (thetas.getD gene_idx 0)
          (beta_mat.row gene_idx) tolerance max_iter := by
  simp only [fit_rows, List.mem_map, List.mem_range] at hr
  obtain ⟨g, hg, rfl⟩ := hr
  exact ⟨g, hg, rfl⟩

/-- On an ordered field, where no value is not-a-number: in both scoring
functions, for every row, the initial fitted mean, the fitted mean the weights
and the score of an iteration are computed from, and the fitted mean of every
line-search trial have all their entries in `[1e-50, 1e50]`. -/
theorem mu_hat_within_bounds {α : Type} [LinearOrderedField α] (L : NumLib α) (diagonal : Bool)
    (Y model_matrix exp_offset_matrix : Mat α) (thetas : List α) (beta_mat : Mat α)
    (tolerance : α) (max_iter : Int) :
    (∀ gene_idx, ∀ x ∈ (initial_mu_hat L model_matrix
          (exp_offset_matrix.get_row gene_idx Y.n_cols) (beta_mat.row gene_idx)).mem,
        (1e-50 : α) ≤ x ∧ x ≤ 1e50)
      ∧ ∀ r ∈ fit_rows L diagonal Y model_matrix exp_offset_matrix thetas beta_mat tolerance
          max_iter,
        ∀ it ∈ r.history,
          (∀ x ∈ it.mu_hat.mem, (1e-50 : α) ≤ x ∧ x ≤ 1e50)
          ∧ (∀ tr ∈ it.search.trials, ∀ x ∈ tr.mu_hat.mem, (1e-50 : α) ≤ x ∧ x ≤ 1e50)
          ∧ ∀ x ∈ it.search.mu_hat.mem, (1e-50 : α) ≤ x ∧ x ≤ 1e50 := by
  have hE : ∀ g, (exp_offset_matrix.get_row g Y.n_cols).mem.length
      ≤ (exp_offset_matrix.get_row g Y.n_cols).n_elem := fun g =>
    le_of_eq (get_row_length _ _ _)
  refine ⟨fun g => fitted_mean_bounds L _ _ _ (hE g), ?_⟩
  intro r hr
  obtain ⟨g, _, rfl⟩ := mem_fit_rows L diagonal Y model_matrix exp_offset_matrix thetas beta_mat
    tolerance max_iter r hr
  unfold fit_row
  apply scoring_loop_history L diagonal model_matrix _ _ _ tolerance max_iter
    (fun _ _ mu _ _ => ∀ x ∈ mu.mem, (1e-50 : α) ≤ x ∧ x ≤ 1e50)
  · intro t bh mu d sf hmu
    obtain ⟨j, _, _, h3, _, h5, _⟩ := line_search_spec L diagonal model_matrix
      (Y.get_row g Y.n_cols) (exp_offset_matrix.get_row g Y.n_cols) (thetas.getD g 0) tolerance
      bh (scoring_step L diagonal model_matrix (Y.get_row g Y.n_cols) mu (thetas.getD g 0)) d sf 0
    refine ⟨hmu, ?_, ?_⟩
    · intro tr htr
      simp only [scoring_iteration] at htr
      rw [h3] at htr
      obtain ⟨k, _, rfl⟩ := List.mem_map.mp htr
      exact fitted_mean_bounds L _ _ _ (hE g)
    · simp only [scoring_iteration]
      rw [h5]
      exact fitted_mean_bounds L _ _ _ (hE g)
  · intro t bh mu d sf _
    obtain ⟨j, _, _, _, _, h5, _⟩ := line_search_spec L diagonal model_matrix
      (Y.get_row g Y.n_cols) (exp_offset_matrix.get_row g Y.n_cols) (thetas.getD g 0) tolerance
      bh (scoring_step L diagonal model_matrix (Y.get_row g Y.n_cols) mu (thetas.getD g 0)) d sf 0
    simp only [scoring_iteration]
    rw [h5]
    exact fitted_mean_bounds L _ _ _ (hE g)
  · exact fitted_mean_bounds L _ _ _ (hE g)

/-! ## Iteration counts -/

theorem newton_loop_unfold {α : Type} [LinearOrderedField α] (exp : α → α) (n_samples : Nat)
    (counts off : Mat α) (theta tolerance : α) (maxIter : Int) (beta : α) (iter : Nat) :
    newton_loop exp n_samples counts off theta tolerance maxIter beta iter
      = if (iter : Int) < maxIter then
          if (newton_sums exp n_samples counts off theta beta).all_zero then
            ⟨RDouble.R_NegInf, iter, 0⟩
          else if |(newton_sums exp n_samples counts off theta beta).dl
              / (newton_sums exp n_samples counts off theta beta).ddl| < tolerance then
            ⟨RDouble.val (beta + (newton_sums exp n_samples counts off theta beta).dl
              / (newton_sums exp n_samples counts off theta beta).ddl), iter, 1⟩
          else
            { newton_loop exp n_samples counts off theta tolerance maxIter
                (beta + (newton_sums exp n_samples counts off theta beta).dl
                  / (newton_sums exp n_samples counts off theta beta).ddl) (iter + 1) with
              updates := (newton_loop exp n_samples counts off theta tolerance maxIter
                (beta + (newton_sums exp n_samples counts off theta beta).dl
                  / (newton_sums exp n_samples counts off theta beta).ddl) (iter + 1)).updates
                + 1 }
        else
          ⟨RDouble.val beta, iter, 0⟩ := by
  rw [newton_loop]
  dsimp only
  split_ifs <;> rfl

theorem newton_loop_iter_le {α : Type} [LinearOrderedField α] (exp : α → α) (n_samples : Nat)
    (counts off : Mat α) (theta tolerance : α) (maxIter : Int) (beta : α) (iter : Nat)
    (h : (iter : Int) ≤ maxIter) :
    (newton_loop exp n_samples counts off theta tolerance maxIter beta iter).iter ≤ maxIter := by
  induction beta, iter using
    newton_loop.induct exp n_samples counts off theta tolerance maxIter with
  | case1 beta iter hlt sums hzero =>
    rw [newton_loop_unfold]
    simp only [sums] at hzero
    simp only [hlt, if_true, hzero]
    exact h
  | case2 beta iter hlt sums hzero step hstep =>
    rw [newton_loop_unfold]
    simp only [sums] at hzero
    simp only [step, sums] at hstep
    simp only [hlt, if_true, hzero, hstep]
    exact h
  | case3 beta iter hlt sums hzero step beta' hstep ih =>
    rw [newton_loop_unfold]
    simp only [sums] at hzero
    simp only [step, sums] at hstep
    simp only [hlt, if_true, hzero, hstep, if_false]
    apply ih
    push_cast
    omega
  | case4 beta iter hlt =>
    rw [newton_loop_unfold]
    simp only [hlt, if_false]
    exact h

/-- C8. For `max_iter ≥ 0`, whenever `fitBeta_fisher_scoring`,
`fitBeta_diagonal_fisher_scoring` or `fitBeta_one_group` returns, it reports
one iteration count for each row of `Y`, and each count is at most
`max_iter`. -/
theorem iterations_le_max_iter {α : Type} [LinearOrderedField α] (L : NumLib α)
    (mattype : SexpType) (Y model_matrix exp_offset_matrix offset_matrix : Mat α)
    (thetas beta_start_values : List α) (beta_mat : Mat α) (tolerance : α) (max_iter : Int)
    (hmax : 0 ≤ max_iter) :
    (∀ res, fitBeta_fisher_scoring L mattype Y model_matrix exp_offset_matrix thetas beta_mat
        tolerance max_iter = Except.ok res →
          res.iter.length = Y.n_rows ∧ ∀ n ∈ res.iter, n ≤ max_iter)
      ∧ (∀ res, fitBeta_diagonal_fisher_scoring L mattype Y model_matrix exp_offset_matrix thetas
        beta_mat tolerance max_iter = Except.ok res →
          res.iter.length = Y.n_rows ∧ ∀ n ∈ res.iter, n ≤ max_iter)
      ∧ (∀ res, fitBeta_one_group L.exp mattype Y offset_matrix thetas beta_start_values
        tolerance max_iter = Except.ok res →
          res.iter.length = Y.n_rows ∧ ∀ n ∈ res.iter, n ≤ max_iter) := by
  have hrow : ∀ diagonal, ∀ r ∈ fit_rows L diagonal Y model_matrix exp_offset_matrix thetas
      beta_mat tolerance max_iter, r.iterations ≤ max_iter := by
    intro diagonal r hr
    obtain ⟨g, _, rfl⟩ := mem_fit_rows L diagonal Y model_matrix exp_offset_matrix thetas
      beta_mat tolerance max_iter r hr
    unfold fit_row
    exact scoring_loop_iterations_le L diagonal model_matrix _ _ _ tolerance max_iter 0 _ _ _ _ 0
      (by simp) (by simpa using hmax)
  have hlen : ∀ diagonal, (fit_rows L diagonal Y model_matrix exp_offset_matrix thetas
      beta_mat tolerance max_iter).length = Y.n_rows := by
    intro diagonal
    simp [fit_rows]
  refine ⟨?_, ?_, ?_⟩
  · intro res hres
    have hres' : res = fitBeta_fisher_scoring_impl L Y model_matrix exp_offset_matrix thetas
        beta_mat tolerance max_iter := by
      cases mattype <;> simp [fitBeta_fisher_scoring] at hres <;> exact hres.symm
    subst hres'
    refine ⟨by simp [fitBeta_fisher_scoring_impl, hlen], ?_⟩
    intro n hn
    simp only [fitBeta_fisher_scoring_impl, List.mem_map] at hn
    obtain ⟨r, hr, rfl⟩ := hn
    exact hrow false r hr
  · intro res hres
    have hres' : res = fitBeta_diagonal_fisher_scoring_impl L Y model_matrix exp_offset_matrix
        thetas beta_mat tolerance max_iter := by
      cases mattype <;> simp [fitBeta_diagonal_fisher_scoring] at hres <;> exact hres.symm
    subst hres'
    refine ⟨by simp [fitBeta_diagonal_fisher_scoring_impl, hlen], ?_⟩
    intro n hn
    simp only [fitBeta_diagonal_fisher_scoring_impl, List.mem_map] at hn
    obtain ⟨r, hr, rfl⟩ := hn
    exact hrow true r hr
  · intro res hres
    have hres' : res = fitBeta_one_group_internal L.exp Y offset_matrix thetas
        beta_start_values tolerance max_iter := by
      cases mattype <;> simp [fitBeta_one_group] at hres <;> exact hres.symm
    subst hres'
    refine ⟨by simp [fitBeta_one_group_internal, one_group_rows], ?_⟩
    intro n hn
    simp only [fitBeta_one_group_internal, one_group_rows, List.mem_map, List.mem_range] at hn
    obtain ⟨r, ⟨g, _, rfl⟩, rfl⟩ := hn
    exact newton_loop_iter_le L.exp _ _ _ _ tolerance max_iter _ 0 (by simpa using hmax)

/-- C8 on a matrix of one row and one column with `max_iter = 3`. -/
theorem iterations_le_max_iter_witness :
    (∀ res, fitBeta_fisher_scoring ⟨Real.exp, Real.log, Real.sqrt, fun m => (m, m), fun _ b => b⟩
        SexpType.REALSXP (Mat.ofRow [4]) (Mat.ofRow [1]) (Mat.ofRow [1]) [0] (Mat.ofRow [0])
        (1 / 100) 3 = Except.ok res →
          res.iter.length = (Mat.ofRow [(4 : ℝ)]).n_rows ∧ ∀ n ∈ res.iter, n ≤ 3)
      ∧ (∀ res, fitBeta_diagonal_fisher_scoring
        ⟨Real.exp, Real.log, Real.sqrt, fun m => (m, m), fun _ b => b⟩
        SexpType.REALSXP (Mat.ofRow [4]) (Mat.ofRow [1]) (Mat.ofRow [1]) [0] (Mat.ofRow [0])
        (1 / 100) 3 = Except.ok res →
          res.iter.length = (Mat.ofRow [(4 : ℝ)]).n_rows ∧ ∀ n ∈ res.iter, n ≤ 3)
      ∧ (∀ res, fitBeta_one_group Real.exp
        SexpType.REALSXP (Mat.ofRow [4]) (Mat.ofRow [0]) [0] [0] (1 / 100) 3 = Except.ok res →
          res.iter.length = (Mat.ofRow [(4 : ℝ)]).n_rows ∧ ∀ n ∈ res.iter, n ≤ 3) :=
  iterations_le_max_iter ⟨Real.exp, Real.log, Real.sqrt, fun m => (m, m), fun _ b => b⟩
    SexpType.REALSXP (Mat.ofRow [4]) (Mat.ofRow [1]) (Mat.ofRow [1]) (Mat.ofRow [0]) [0] [0]
    (Mat.ofRow [0]) (1 / 100) 3 (by norm_num)

/-! ## Divergence -/

/-- Every record of the history is the record of a pass through the body of
the loop over `t`. -/
theorem history_is_iteration {α : Type} [LinearOrderedField α] (L : NumLib α) (diagonal : Bool)
    (model_matrix counts exp_off : Mat α) (theta tolerance : α) (max_iter : Int) (t : Nat)
    (beta_hat mu_hat : Mat α) (dev_old speeding_factor : α) (iterations : Int) :
    ∀ it ∈ (scoring_loop L diagonal model_matrix counts exp_off theta tolerance max_iter t
        beta_hat mu_hat dev_old speeding_factor iterations).history,
      ∃ t' beta_hat' mu_hat' dev_old' speeding_factor',
        it = scoring_iteration L diagonal model_matrix counts exp_off theta tolerance t'
          beta_hat' mu_hat' dev_old' speeding_factor' :=
  scoring_loop_history L diagonal model_matrix counts exp_off theta tolerance max_iter
    (fun _ _ _ _ _ => True) _ (fun t b m d s _ => ⟨t, b, m, d, s, rfl⟩)
    (fun _ _ _ _ _ _ => trivial) t beta_hat mu_hat dev_old speeding_factor iterations trivial

theorem line_search_trial_conv_test {α : Type} [LinearOrderedField α] (L : NumLib α)
    (model_matrix counts exp_off : Mat α) (theta : α) (beta_hat step : Mat α)
    (dev_old speeding_factor : α) (line_iter : Nat) :
    (line_search_trial L model_matrix counts exp_off theta beta_hat step dev_old speeding_factor
        line_iter).conv_test
      = |(line_search_trial L model_matrix counts exp_off theta beta_hat step dev_old
            speeding_factor line_iter).dev - dev_old|
        / (|(line_search_trial L model_matrix counts exp_off theta beta_hat step dev_old
            speeding_factor line_iter).dev| + 0.1) := rfl

theorem get_row_ofRow_one {α : Type} [Zero α] (x : α) :
    (Mat.ofRow [x]).get_row 0 1 = Mat.ofRow [x] ∧ (Mat.ofRow [x]).row 0 = Mat.ofRow [x] := by
  simp [Mat.row, Mat.get_row, Mat.ofFn, Mat.ofRow, Mat.get, List.range_succ]

theorem clamp_inplace_ofRow_one {α : Type} [LinearOrderedField α] (x lo hi : α) :
    clamp_inplace (Mat.ofRow [x]) lo hi = Mat.ofRow [clamp_value lo hi x] := by
  simp only [clamp_inplace, Mat.ofRow, Mat.n_elem, List.length_singleton, mul_one,
    List.range_succ, List.range_zero, List.nil_append, List.foldl_cons, List.foldl_nil,
    Mat.at_, List.getD_cons_zero, clamp_value]
  split_ifs <;> simp [Mat.set]

theorem fitted_mean_ofRow_one {α : Type} [LinearOrderedField α] (L : NumLib α) (x e b : α) :
    fitted_mean L (Mat.ofRow [x]) (Mat.ofRow [e]) (Mat.ofRow [b])
      = Mat.ofRow [clamp_value 1e-50 1e50 (e * L.exp (b * x))] := by
  have h : Mat.zipWith (· * ·) (Mat.ofRow [e])
      (Mat.map L.exp (Mat.mul (Mat.ofRow [b]) (Mat.t (Mat.ofRow [x]))))
      = Mat.ofRow [e * L.exp (b * x)] := by
    simp [Mat.zipWith, Mat.map, Mat.mul, Mat.t, Mat.ofFn, Mat.ofRow, Mat.get, List.range_succ]
  unfold fitted_mean
  rw [h, clamp_inplace_ofRow_one]

theorem compute_gp_deviance_sum_ofRow_one {α : Type} [LinearOrderedField α] (log : α → α)
    (y mu theta : α) :
    compute_gp_deviance_sum log (Mat.ofRow [y]) (Mat.ofRow [mu]) theta
      = compute_gp_deviance log y mu theta := by
  simp [compute_gp_deviance_sum, Mat.ofRow, Mat.n_elem, Mat.at_, List.range_succ]

theorem diagonal_step_ofRow_one {α : Type} [LinearOrderedField α] (x y mu theta : α) :
    diagonal_step (Mat.ofRow [x]) (Mat.ofRow [y]) (Mat.ofRow [mu]) theta
      = Mat.ofRow [(y - mu) / mu * (x * (mu / (1 + theta * mu)))
          / (x ^ 2 * (mu / (1 + theta * mu)))] := by
  simp [diagonal_step, w_vec, working_residual, Mat.zipWith, Mat.map, Mat.mul, Mat.t, Mat.ofFn,
    Mat.ofRow, Mat.get, Mat.at_, Mat.each_col_schur, Mat.sum0, List.range_succ]

theorem fisher_step_ofRow_one (x y mu theta : ℝ) :
    fisher_step ⟨Real.exp, Real.log, Real.sqrt, fun m => (Mat.ofRow [1], m),
        fun r b => Mat.zipWith (· / ·) b r⟩ (Mat.ofRow [x]) (Mat.ofRow [y]) (Mat.ofRow [mu]) theta
      = Mat.ofRow [(y - mu) / mu * (1 * Real.sqrt (mu / (1 + theta * mu)))
          / (x * Real.sqrt (mu / (1 + theta * mu)))] := by
  simp [fisher_step, w_vec, working_residual, Mat.zipWith, Mat.map, Mat.mul, Mat.t, Mat.ofFn,
    Mat.ofRow, Mat.get, Mat.at_, Mat.each_col_schur, Mat.trimatu, List.range_succ]

theorem proposal_ofRow_one {α : Type} [LinearOrderedField α] (b s f : α) :
    Mat.zipWith (· + ·) (Mat.ofRow [b]) (Mat.map (fun s => f * s) (Mat.ofRow [s]))
      = Mat.ofRow [b + f * s] := by
  simp [Mat.zipWith, Mat.map, Mat.ofRow]

/-! ### An accepted update that raises the deviance -/

theorem exp_three_bounds : (13 : ℝ) < Real.exp 3 ∧ Real.exp 3 < 27 := by
  have h3 : Real.exp 3 = Real.exp 1 ^ 3 := by
    rw [← Real.exp_nat_mul]
    norm_num
  have hlo := Real.exp_one_gt_d9
  have hhi := Real.exp_one_lt_d9
  have hpos : (0 : ℝ) < Real.exp 1 := Real.exp_pos 1
  rw [h3]
  constructor
  · have : (2.7 : ℝ) ^ 3 ≤ Real.exp 1 ^ 3 :=
      pow_le_pow_left₀ (by norm_num) (by linarith) 3
    have h27 : (13 : ℝ) < 2.7 ^ 3 := by norm_num
    linarith
  · have : Real.exp 1 ^ 3 < (3 : ℝ) ^ 3 :=
      pow_lt_pow_left₀ (by linarith) (le_of_lt hpos) (by norm_num)
    have h27 : (3 : ℝ) ^ 3 = 27 := by norm_num
    linarith

theorem clamp_value_of_mem {α : Type} [LinearOrderedField α] (lo hi x : α) (h1 : lo ≤ x)
    (h2 : x ≤ hi) : clamp_value lo hi x = x := by
  simp [clamp_value, not_lt.mpr h1, not_lt.mpr h2]

/-- The deviances before and after the first update of the row with the count
`4`, the offset `1`, the design `1`, the dispersion `0` and the start value
`0`: the step is `3`, the fitted mean goes from `1` to `exp 3`, and the
deviance goes up. -/
theorem deviance_goes_up :
    0 ≤ compute_gp_deviance Real.log 4 1 0
      ∧ compute_gp_deviance Real.log 4 1 0 < compute_gp_deviance Real.log 4 (Real.exp 3) 0 := by
  have h0 : compute_gp_deviance Real.log 4 1 0 = 2 * (4 * Real.log 4 - 3) := by
    norm_num [compute_gp_deviance]
  have h1 : compute_gp_deviance Real.log 4 (Real.exp 3) 0
      = 2 * (4 * (Real.log 4 - 3) - (4 - Real.exp 3)) := by
    have hne : Real.exp 3 ≠ 0 := ne_of_gt (Real.exp_pos 3)
    norm_num [compute_gp_deviance, Real.log_div, hne]
  constructor
  · rw [compute_gp_deviance_of_lt _ _ _ _ (by norm_num)]
    exact poisson_deviance_nonneg 4 1 (by norm_num) (by norm_num)
  · rw [h0, h1]
    have := exp_three_bounds.1
    linarith

/-- With `max_iter = 1`, a first iteration whose line search accepts is the
only iteration, and the row is not marked diverged. -/
theorem scoring_loop_single {α : Type} [LinearOrderedField α] (L : NumLib α) (diagonal : Bool)
    (model_matrix counts exp_off : Mat α) (theta tolerance : α) (beta_hat mu_hat : Mat α)
    (dev_old speeding_factor : α) (iterations : Int) (c : α)
    (hsome : (scoring_iteration L diagonal model_matrix counts exp_off theta tolerance 0
      beta_hat mu_hat dev_old speeding_factor).search.conv_test = some c) :
    (scoring_loop L diagonal model_matrix counts exp_off theta tolerance 1 0 beta_hat mu_hat
        dev_old speeding_factor iterations).diverged = false
      ∧ (scoring_loop L diagonal model_matrix counts exp_off theta tolerance 1 0 beta_hat mu_hat
        dev_old speeding_factor iterations).history
        = [scoring_iteration L diagonal model_matrix counts exp_off theta tolerance 0
            beta_hat mu_hat dev_old speeding_factor] := by
  rw [scoring_loop_unfold]
  simp only [Nat.cast_zero, zero_lt_one, if_true, hsome, lt_self_iff_false, false_and, if_false]
  rw [scoring_loop_unfold]
  simp

/-- The first line-search trial of the row of `deviance_goes_up` with
`tolerance = 1`, in either solver: it is accepted although the deviance went
up. -/
theorem first_trial_accepted (L : NumLib ℝ) (diagonal : Bool) (hexp : L.exp = Real.exp)
    (hlog : L.log = Real.log) :
    (line_search L diagonal (Mat.ofRow [1]) (Mat.ofRow [4]) (Mat.ofRow [1]) 0 1 (Mat.ofRow [0])
        (Mat.ofRow [3]) (compute_gp_deviance Real.log 4 1 0) 1 0).conv_test
        = some (|compute_gp_deviance Real.log 4 (Real.exp 3) 0
              - compute_gp_deviance Real.log 4 1 0|
            / (|compute_gp_deviance Real.log 4 (Real.exp 3) 0| + 0.1))
      ∧ (line_search L diagonal (Mat.ofRow [1]) (Mat.ofRow [4]) (Mat.ofRow [1]) 0 1
        (Mat.ofRow [0]) (Mat.ofRow [3]) (compute_gp_deviance Real.log 4 1 0) 1 0).dev
        = compute_gp_deviance Real.log 4 (Real.exp 3) 0 := by
  obtain ⟨hlo, hhi⟩ := exp_three_bounds
  obtain ⟨hd0, hd1⟩ := deviance_goes_up
  have hclamp : clamp_value (1e-50 : ℝ) 1e50 (Real.exp 3) = Real.exp 3 :=
    clamp_value_of_mem _ _ _ (by norm_num; linarith) (by norm_num; linarith)
  have htrial : line_search_trial L (Mat.ofRow [1]) (Mat.ofRow [4]) (Mat.ofRow [1]) 0
      (Mat.ofRow [0]) (Mat.ofRow [3]) (compute_gp_deviance Real.log 4 1 0) 1 0
      = ⟨0, 1, Mat.ofRow [3], Mat.ofRow [Real.exp 3],
          compute_gp_deviance Real.log 4 (Real.exp 3) 0,
          |compute_gp_deviance Real.log 4 (Real.exp 3) 0 - compute_gp_deviance Real.log 4 1 0|
            / (|compute_gp_deviance Real.log 4 (Real.exp 3) 0| + 0.1)⟩ := by
    have e : (1 : ℝ) * Real.exp ((0 + 1 * 3) * 1) = Real.exp 3 := by norm_num
    simp only [line_search_trial, proposal_ofRow_one, fitted_mean_ofRow_one,
      compute_gp_deviance_sum_ofRow_one, hexp, hlog, e, hclamp]
    norm_num
  have hacc : (line_search_trial L (Mat.ofRow [1]) (Mat.ofRow [4]) (Mat.ofRow [1]) 0
      (Mat.ofRow [0]) (Mat.ofRow [3]) (compute_gp_deviance Real.log 4 1 0) 1 0).accepted
      (compute_gp_deviance Real.log 4 1 0) 1 := by
    rw [htrial]
    right
    show |compute_gp_deviance Real.log 4 (Real.exp 3) 0 - compute_gp_deviance Real.log 4 1 0|
      / (|compute_gp_deviance Real.log 4 (Real.exp 3) 0| + 0.1) < 1
    rw [abs_of_pos (by linarith : 0 < compute_gp_deviance Real.log 4 (Real.exp 3) 0
        - compute_gp_deviance Real.log 4 1 0),
      abs_of_pos (by linarith : 0 < compute_gp_deviance Real.log 4 (Real.exp 3) 0),
      div_lt_one (by linarith)]
    linarith
  rw [line_search_unfold, if_pos hacc, htrial]
  exact ⟨rfl, rfl⟩

/-- The row of `deviance_goes_up` with `tolerance = 1` and `max_iter = 1`, in a
solver whose first step is `3`: the row is not marked diverged, and its one
line search accepts a proposal whose deviance is above `dev_old`. -/
theorem fit_row_raises_deviance (L : NumLib ℝ) (diagonal : Bool) (hexp : L.exp = Real.exp)
    (hlog : L.log = Real.log)
    (hstep : scoring_step L diagonal (Mat.ofRow [1]) (Mat.ofRow [4]) (Mat.ofRow [1]) 0
      = Mat.ofRow [3]) :
    (fit_row L diagonal (Mat.ofRow [1]) (Mat.ofRow [4]) (Mat.ofRow [1]) 0 (Mat.ofRow [0]) 1
        1).diverged = false
      ∧ ∃ it ∈ (fit_row L diagonal (Mat.ofRow [1]) (Mat.ofRow [4]) (Mat.ofRow [1]) 0
          (Mat.ofRow [0]) 1 1).history,
        (∃ c, it.search.conv_test = some c) ∧ it.dev_old < it.search.dev := by
  have hmu : initial_mu_hat L (Mat.ofRow [1]) (Mat.ofRow [1]) (Mat.ofRow [0]) = Mat.ofRow [1] := by
    rw [initial_mu_hat, fitted_mean_ofRow_one, hexp]
    have e : (1 : ℝ) * Real.exp (0 * 1) = 1 := by norm_num
    rw [e, clamp_value_of_mem _ _ _ (by norm_num) (by norm_num)]
  obtain ⟨hc, hdev⟩ := first_trial_accepted L diagonal hexp hlog
  have hit : (scoring_iteration L diagonal (Mat.ofRow [1]) (Mat.ofRow [4]) (Mat.ofRow [1])
      0 1 0 (Mat.ofRow [0]) (Mat.ofRow [1]) (compute_gp_deviance Real.log 4 1 0) 1).search
      = line_search L diagonal (Mat.ofRow [1]) (Mat.ofRow [4]) (Mat.ofRow [1]) 0 1
          (Mat.ofRow [0]) (Mat.ofRow [3]) (compute_gp_deviance Real.log 4 1 0) 1 0 := by
    simp only [scoring_iteration, hstep]
  obtain ⟨hdiv, hhist⟩ := scoring_loop_single L diagonal (Mat.ofRow [1]) (Mat.ofRow [4])
    (Mat.ofRow [1]) 0 1 (Mat.ofRow [0]) (Mat.ofRow [1]) (compute_gp_deviance Real.log 4 1 0) 1
    0 _ (hit ▸ hc)
  simp only [fit_row, hmu, compute_gp_deviance_sum_ofRow_one, hlog]
  refine ⟨hdiv, _, by rw [hhist]; exact List.mem_singleton.mpr rfl, ⟨_, hit ▸ hc⟩, ?_⟩
  rw [hit, hdev]
  exact deviance_goes_up.2

theorem fit_rows_ofRow_one {α : Type} [LinearOrderedField α] (L : NumLib α) (diagonal : Bool)
    (y x e theta b tolerance : α) (max_iter : Int) :
    fit_rows L diagonal (Mat.ofRow [y]) (Mat.ofRow [x]) (Mat.ofRow [e]) [theta] (Mat.ofRow [b])
        tolerance max_iter
      = [fit_row L diagonal (Mat.ofRow [x]) (Mat.ofRow [y]) (Mat.ofRow [e]) theta (Mat.ofRow [b])
          tolerance max_iter] := by
  have hy := (get_row_ofRow_one y).1
  have he := (get_row_ofRow_one e).1
  have hb := (get_row_ofRow_one b).2
  have hn : (Mat.ofRow [y]).n_rows = 1 ∧ (Mat.ofRow [y]).n_cols = 1 := by
    simp [Mat.ofRow]
  simp only [fit_rows, hn.1, hn.2, List.range_succ, List.range_zero, List.nil_append,
    List.map_cons, List.map_nil, hy, he, hb, List.getD_cons_zero]

/-- C9, refuted as stated. The row with the count `4`, the offset `1`, the
design `1`, the dispersion `0`, the start value `0`, `tolerance = 1` and
`max_iter = 1` is not marked diverged in either solver, and its one line search
accepts a proposal whose deviance is above `dev_old`. -/
theorem accepted_update_raises_deviance :
    (∃ r ∈ fit_rows ⟨Real.exp, Real.log, Real.sqrt, fun m => (Mat.ofRow [1], m),
          fun r b => Mat.zipWith (· / ·) b r⟩ true (Mat.ofRow [4]) (Mat.ofRow [1])
          (Mat.ofRow [1]) [0] (Mat.ofRow [0]) 1 1,
        r.diverged = false
        ∧ ∃ it ∈ r.history, (∃ c, it.search.conv_test = some c) ∧ it.dev_old < it.search.dev)
      ∧ ∃ r ∈ fit_rows ⟨Real.exp, Real.log, Real.sqrt, fun m => (Mat.ofRow [1], m),
          fun r b => Mat.zipWith (· / ·) b r⟩ false (Mat.ofRow [4]) (Mat.ofRow [1])
          (Mat.ofRow [1]) [0] (Mat.ofRow [0]) 1 1,
        r.diverged = false
        ∧ ∃ it ∈ r.history, (∃ c, it.search.conv_test = some c)
            ∧ it.dev_old < it.search.dev := by
  constructor
  · rw [fit_rows_ofRow_one]
    refine ⟨_, List.mem_singleton.mpr rfl, fit_row_raises_deviance _ true rfl rfl ?_⟩
    simp only [scoring_step, if_true]
    rw [diagonal_step_ofRow_one]
    norm_num
  · rw [fit_rows_ofRow_one]
    refine ⟨_, List.mem_singleton.mpr rfl, fit_row_raises_deviance _ false rfl rfl ?_⟩
    simp only [scoring_step, Bool.false_eq_true, if_false]
    rw [fisher_step_ofRow_one]
    norm_num

/-! ### What an accepted update guarantees -/

/-- The record of one pass through the body of the loop over `t`, entered with
`beta_hat`, its fitted mean and the deviance of that fitted mean: the accepted
proposal is `beta_hat` plus the final speeding factor times the step, `dev` is
the deviance at the proposal, and when the line search accepted (left
`conv_test` a number `c`), `c` is the relative change and `dev < dev_old` or
`c < tolerance`. -/
theorem scoring_iteration_accepted {α : Type} [LinearOrderedField α] (L : NumLib α)
    (diagonal : Bool) (model_matrix counts exp_off : Mat α) (theta tolerance : α) (t : Nat)
    (beta_hat : Mat α) (speeding_factor : α) :
    (scoring_iteration L diagonal model_matrix counts exp_off theta tolerance t beta_hat
        (fitted_mean L model_matrix exp_off beta_hat)
        (compute_gp_deviance_sum L.log counts (fitted_mean L model_matrix exp_off beta_hat) theta)
        speeding_factor).search.beta_prop
        = Mat.zipWith (· + ·) beta_hat
          (Mat.map (fun s =>
            (scoring_iteration L diagonal model_matrix counts exp_off theta tolerance t beta_hat
              (fitted_mean L model_matrix exp_off beta_hat)
              (compute_gp_deviance_sum L.log counts (fitted_mean L model_matrix exp_off beta_hat)
                theta)
              speeding_factor).search.speeding_factor * s)
            (scoring_step L diagonal model_matrix counts
              (fitted_mean L model_matrix exp_off beta_hat) theta))
      ∧ (scoring_iteration L diagonal model_matrix counts exp_off theta tolerance t beta_hat
        (fitted_mean L model_matrix exp_off beta_hat)
        (compute_gp_deviance_sum L.log counts (fitted_mean L model_matrix exp_off beta_hat) theta)
        speeding_factor).search.mu_hat
        = fitted_mean L model_matrix exp_off
          (scoring_iteration L diagonal model_matrix counts exp_off theta tolerance t beta_hat
            (fitted_mean L model_matrix exp_off beta_hat)
            (compute_gp_deviance_sum L.log counts (fitted_mean L model_matrix exp_off beta_hat)
              theta)
            speeding_factor).search.beta_prop
      ∧ (scoring_iteration L diagonal model_matrix counts exp_off theta tolerance t beta_hat
        (fitted_mean L model_matrix exp_off beta_hat)
        (compute_gp_deviance_sum L.log counts (fitted_mean L model_matrix exp_off beta_hat) theta)
        speeding_factor).search.dev
        = compute_gp_deviance_sum L.log counts
          (scoring_iteration L diagonal model_matrix counts exp_off theta tolerance t beta_hat
            (fitted_mean L model_matrix exp_off beta_hat)
            (compute_gp_deviance_sum L.log counts (fitted_mean L model_matrix exp_off beta_hat)
              theta)
            speeding_factor).search.mu_hat theta
      ∧ ∀ c, (scoring_iteration L diagonal model_matrix counts exp_off theta tolerance t beta_hat
          (fitted_mean L model_matrix exp_off beta_hat)
          (compute_gp_deviance_sum L.log counts (fitted_mean L model_matrix exp_off beta_hat)
            theta)
          speeding_factor).search.conv_test = some c →
        c = |(scoring_iteration L diagonal model_matrix counts exp_off theta tolerance t beta_hat
              (fitted_mean L model_matrix exp_off beta_hat)
              (compute_gp_deviance_sum L.log counts (fitted_mean L model_matrix exp_off beta_hat)
                theta)
              speeding_factor).search.dev
            - compute_gp_deviance_sum L.log counts (fitted_mean L model_matrix exp_off beta_hat)
                theta|
          / (|(scoring_iteration L diagonal model_matrix counts exp_off theta tolerance t beta_hat
              (fitted_mean L model_matrix exp_off beta_hat)
              (compute_gp_deviance_sum L.log counts (fitted_mean L model_matrix exp_off beta_hat)
                theta)
              speeding_factor).search.dev| + 0.1)
        ∧ ((scoring_iteration L diagonal model_matrix counts exp_off theta tolerance t beta_hat
              (fitted_mean L model_matrix exp_off beta_hat)
              (compute_gp_deviance_sum L.log counts (fitted_mean L model_matrix exp_off beta_hat)
                theta)
              speeding_factor).search.dev
            < compute_gp_deviance_sum L.log counts (fitted_mean L model_matrix exp_off beta_hat)
                theta
          ∨ c < tolerance) := by
  obtain ⟨j, _, h2, _, h4, h5, h6, _, h8⟩ := line_search_spec L diagonal model_matrix counts
    exp_off theta tolerance beta_hat
    (scoring_step L diagonal model_matrix counts (fitted_mean L model_matrix exp_off beta_hat)
      theta)
    (compute_gp_deviance_sum L.log counts (fitted_mean L model_matrix exp_off beta_hat) theta)
    speeding_factor 0
  simp only [scoring_iteration]
  refine ⟨?_, ?_, ?_, ?_⟩
  · rw [h4, h2]
    rfl
  · rw [h5, h4]
    rfl
  · rw [h6, h5]
    rfl
  · intro c hc
    rcases h8 with ⟨hsome, hacc⟩ | ⟨hnone, _⟩
    · rw [hsome] at hc
      have hc' := Option.some.inj hc
      rw [h6, ← hc']
      exact ⟨line_search_trial_conv_test _ _ _ _ _ _ _ _ _ _, hacc⟩
    · rw [hnone] at hc
      exact absurd hc (by simp)

/-- C9, as the code has it. In both scoring functions, whenever the line
search of an iteration accepts a proposal (leaves `conv_test` a number `c`),
`c` is the relative change `|dev - dev_old| / (|dev| + 0.1)` and `dev < dev_old`
or `c < tolerance`; so `dev < dev_old` when `tolerance ≤ 0`, and otherwise `dev`
is below `dev_old` or within `tolerance * (|dev| + 0.1)` of it.  Here `dev_old`
is the deviance at the coefficients before the update and `dev` the deviance
at the accepted proposal. -/
theorem accepted_update_deviance {α : Type} [LinearOrderedField α] (L : NumLib α)
    (diagonal : Bool) (Y model_matrix exp_offset_matrix : Mat α) (thetas : List α)
    (beta_mat : Mat α) (tolerance : α) (max_iter : Int) (r : RowFit α)
    (hr : r ∈ fit_rows L diagonal Y model_matrix exp_offset_matrix thetas beta_mat tolerance
      max_iter)
    (it : IterRecord α) (hit : it ∈ r.history) (c : α) (hacc : it.search.conv_test = some c) :
    c = |it.search.dev - it.dev_old| / (|it.search.dev| + 0.1)
      ∧ (it.search.dev < it.dev_old ∨ c < tolerance)
      ∧ (tolerance ≤ 0 → it.search.dev < it.dev_old)
      ∧ (it.search.dev < it.dev_old
          ∨ |it.search.dev - it.dev_old| < tolerance * (|it.search.dev| + 0.1))
      ∧ ∃ gene_idx beta_hat, gene_idx < Y.n_rows
          ∧ it.mu_hat
              = fitted_mean L model_matrix (exp_offset_matrix.get_row gene_idx Y.n_cols) beta_hat
          ∧ it.dev_old
              = compute_gp_deviance_sum L.log (Y.get_row gene_idx Y.n_cols) it.mu_hat
                  (thetas.getD gene_idx 0)
          ∧ it.search.beta_prop
              = Mat.zipWith (· + ·) beta_hat
                  (Mat.map (fun s => it.search.speeding_factor * s)
                    (scoring_step L diagonal model_matrix (Y.get_row gene_idx Y.n_cols) it.mu_hat
                      (thetas.getD gene_idx 0)))
          ∧ it.search.mu_hat
              = fitted_mean L model_matrix (exp_offset_matrix.get_row gene_idx Y.n_cols)
                  it.search.beta_prop
          ∧ it.search.dev
              = compute_gp_deviance_sum L.log (Y.get_row gene_idx Y.n_cols) it.search.mu_hat
                  (thetas.getD gene_idx 0) := by
  obtain ⟨g, hg, rfl⟩ := mem_fit_rows L diagonal Y model_matrix exp_offset_matrix thetas beta_mat
    tolerance max_iter r hr
  have key := scoring_loop_history L diagonal model_matrix (Y.get_row g Y.n_cols)
    (exp_offset_matrix.get_row g Y.n_cols) (thetas.getD g 0) tolerance max_iter
    (fun _ bh mu d _ =>
      mu = fitted_mean L model_matrix (exp_offset_matrix.get_row g Y.n_cols) bh
      ∧ d = compute_gp_deviance_sum L.log (Y.get_row g Y.n_cols) mu (thetas.getD g 0))
    (fun it =>
      (∃ beta_hat,
        it.mu_hat = fitted_mean L model_matrix (exp_offset_matrix.get_row g Y.n_cols) beta_hat
        ∧ it.dev_old = compute_gp_deviance_sum L.log (Y.get_row g Y.n_cols) it.mu_hat
            (thetas.getD g 0)
        ∧ it.search.beta_prop
            = Mat.zipWith (· + ·) beta_hat
                (Mat.map (fun s => it.search.speeding_factor * s)
                  (scoring_step L diagonal model_matrix (Y.get_row g Y.n_cols) it.mu_hat
                    (thetas.getD g 0)))
        ∧ it.search.mu_hat
            = fitted_mean L model_matrix (exp_offset_matrix.get_row g Y.n_cols)
                it.search.beta_prop
        ∧ it.search.dev
            = compute_gp_deviance_sum L.log (Y.get_row g Y.n_cols) it.search.mu_hat
                (thetas.getD g 0))
      ∧ ∀ c, it.search.conv_test = some c →
          c = |it.search.dev - it.dev_old| / (|it.search.dev| + 0.1)
          ∧ (it.search.dev < it.dev_old ∨ c < tolerance))
    (by
      rintro t bh mu d sf ⟨rfl, rfl⟩
      obtain ⟨h1, h2, h3, h4⟩ := scoring_iteration_accepted L diagonal model_matrix
        (Y.get_row g Y.n_cols) (exp_offset_matrix.get_row g Y.n_cols) (thetas.getD g 0)
        tolerance t bh sf
      exact ⟨⟨bh, rfl, rfl, h1, h2, h3⟩, h4⟩)
    (by
      rintro t bh mu d sf ⟨rfl, rfl⟩
      obtain ⟨_, h2, h3, _⟩ := scoring_iteration_accepted L diagonal model_matrix
        (Y.get_row g Y.n_cols) (exp_offset_matrix.get_row g Y.n_cols) (thetas.getD g 0)
        tolerance t bh sf
      exact ⟨h2, h3⟩)
    0 (beta_mat.row g)
    (initial_mu_hat L model_matrix (exp_offset_matrix.get_row g Y.n_cols) (beta_mat.row g))
    (compute_gp_deviance_sum L.log (Y.get_row g Y.n_cols)
      (initial_mu_hat L model_matrix (exp_offset_matrix.get_row g Y.n_cols) (beta_mat.row g))
      (thetas.getD g 0)) 1 0 ⟨rfl, rfl⟩ it hit
  obtain ⟨⟨bh, k1, k2, k3, k4, k5⟩, hc⟩ := key
  obtain ⟨hc1, hc2⟩ := hc c hacc
  have hden : (0 : α) < |it.search.dev| + 0.1 := by
    have := abs_nonneg it.search.dev
    have h01 : (0 : α) < 0.1 := by norm_num
    linarith
  have hc0 : 0 ≤ c := by
    rw [hc1]
    exact div_nonneg (abs_nonneg _) (le_of_lt hden)
  refine ⟨hc1, hc2, ?_, ?_, g, bh, hg, k1, k2, k3, k4, k5⟩
  · intro htol
    rcases hc2 with h | h
    · exact h
    · exact absurd h (not_lt.mpr (le_trans htol hc0))
  · rcases hc2 with h | h
    · exact Or.inl h
    · right
      rw [hc1, div_lt_iff₀ hden] at h
      exact h

/-- C9 as amended, on the row with the count `4`, the offset `1`, the design
`1`, the dispersion `0`, the start value `0`, `tolerance = 1` and `max_iter =
1` in the diagonal solver: its accepted update has `dev < dev_old` or
`c < 1`. -/
theorem accepted_update_deviance_witness :
    ∃ it c, it ∈ (fit_row ⟨Real.exp, Real.log, Real.sqrt, fun m => (Mat.ofRow [1], m),
          fun r b => Mat.zipWith (· / ·) b r⟩ true (Mat.ofRow [1]) (Mat.ofRow [4])
          (Mat.ofRow [1]) 0 (Mat.ofRow [0]) 1 1).history
      ∧ it.search.conv_test = some c
      ∧ c = |it.search.dev - it.dev_old| / (|it.search.dev| + 0.1)
      ∧ (it.search.dev < it.dev_old ∨ c < 1) := by
  have hstep : scoring_step ⟨Real.exp, Real.log, Real.sqrt, fun m => (Mat.ofRow [1], m),
      fun r b => Mat.zipWith (· / ·) b r⟩ true (Mat.ofRow [(1 : ℝ)]) (Mat.ofRow [4])
      (Mat.ofRow [1]) 0 = Mat.ofRow [3] := by
    simp only [scoring_step, if_true]
    rw [diagonal_step_ofRow_one]
    norm_num
  obtain ⟨_, it, hit, ⟨c, hc⟩, _⟩ := fit_row_raises_deviance _ true rfl rfl hstep
  have h := accepted_update_deviance ⟨Real.exp, Real.log, Real.sqrt,
    fun m => (Mat.ofRow [1], m), fun r b => Mat.zipWith (· / ·) b r⟩ true (Mat.ofRow [4])
    (Mat.ofRow [1]) (Mat.ofRow [1]) [0] (Mat.ofRow [0]) 1 1 _
    (by rw [fit_rows_ofRow_one]; exact List.mem_singleton.mpr rfl) it hit c hc
  exact ⟨it, c, hit, hc, h.1, h.2.1⟩

/-! ### A row that diverges -/

theorem at_ofFn_row {α : Type} [Zero α] (n : Nat) (f : Nat → Nat → α) (i : Nat) (hi : i < n) :
    (Mat.ofFn 1 n f).at_ i = f 0 i := by
  simp [Mat.at_, Mat.ofFn, hi, Nat.mod_one]

theorem get_row_at {α : Type} [Zero α] (m : Mat α) (r n i : Nat) (hi : i < n) :
    (m.get_row r n).at_ i = m.get r i := by
  unfold Mat.get_row
  rw [at_ofFn_row n _ i hi]

/-- The sums the loop over `sample_iter` accumulates: `dl` and `ddl` are the
sums of the terms of lines 233 and 234 over the samples, and `all_zero` holds
exactly when every count is `0`. -/
theorem newton_sums_spec {α : Type} [LinearOrderedField α] (exp : α → α) (n_samples : Nat)
    (counts off : Mat α) (theta beta : α) :
    (newton_sums exp n_samples counts off theta beta).dl
        = ((List.range n_samples).map fun i =>
            (counts.at_ i - exp (beta + off.at_ i)) / (1 + exp (beta + off.at_ i) * theta)).sum
      ∧ (newton_sums exp n_samples counts off theta beta).ddl
        = ((List.range n_samples).map fun i =>
            exp (beta + off.at_ i) * (1 + counts.at_ i * theta)
              / (1 + exp (beta + off.at_ i) * theta) / (1 + exp (beta + off.at_ i) * theta)).sum
      ∧ ((newton_sums exp n_samples counts off theta beta).all_zero = true
        ↔ ∀ i, i < n_samples → counts.at_ i = 0) := by
  unfold newton_sums
  induction n_samples with
  | zero => simp
  | succ n ih =>
    obtain ⟨h1, h2, h3⟩ := ih
    rw [List.range_succ, List.foldl_append]
    simp only [List.foldl_cons, List.foldl_nil, List.map_append, List.map_cons, List.map_nil,
      List.sum_append, List.sum_cons, List.sum_nil, add_zero]
    refine ⟨by rw [h1], by rw [h2], ?_⟩
    rw [Bool.and_eq_true, h3, decide_eq_true_eq]
    constructor
    · rintro ⟨ha, hb⟩ i hi
      rcases Nat.lt_succ_iff_lt_or_eq.mp hi with h | h
      · exact ha i h
      · rw [h]; exact hb
    · intro h
      exact ⟨fun i hi => h i (Nat.lt_succ_of_lt hi), h n (Nat.lt_succ_self n)⟩

/-- C11. For a row of `Y` whose counts are all zero, and every dispersion,
offset, start value and tolerance, with `max_iter ≥ 1`, `fitBeta_one_group`
returns `R_NegInf` as the coefficient of the row and `0` as its iteration
count, and no update `beta += step` was executed. -/
theorem one_group_all_zero {α : Type} [LinearOrderedField α] (exp : α → α) (mattype : SexpType)
    (Y offsets : Mat α) (thetas beta_start_values : List α) (tolerance : α) (maxIter : Int)
    (hmax : 1 ≤ maxIter) (gene_idx : Nat) (hg : gene_idx < Y.n_rows)
    (hzero : ∀ c, c < Y.n_cols → Y.get gene_idx c = 0) (htype : mattype ≠ SexpType.OTHER) :
    ∃ res, fitBeta_one_group exp mattype Y offsets thetas beta_start_values tolerance maxIter
        = Except.ok res
      ∧ res.beta[gene_idx]? = some RDouble.R_NegInf
      ∧ res.iter[gene_idx]? = some 0
      ∧ ((one_group_rows exp Y offsets thetas beta_start_values tolerance maxIter)[gene_idx]?).map
          (fun r => r.updates) = some 0 := by
  refine ⟨fitBeta_one_group_internal exp Y offsets thetas beta_start_values tolerance maxIter,
    ?_, ?_⟩
  · cases mattype
    · rfl
    · rfl
    · exact absurd rfl htype
  have hz : (newton_sums exp Y.n_cols (Y.get_row gene_idx Y.n_cols)
      (offsets.get_row gene_idx Y.n_cols) (thetas.getD gene_idx 0)
      (beta_start_values.getD gene_idx 0)).all_zero = true := by
    rw [(newton_sums_spec exp _ _ _ _ _).2.2]
    intro i hi
    rw [get_row_at _ _ _ _ hi]
    exact hzero i hi
  have hrow : (one_group_rows exp Y offsets thetas beta_start_values tolerance maxIter)[gene_idx]?
      = some ⟨RDouble.R_NegInf, 0, 0⟩ := by
    simp only [one_group_rows, List.getElem?_map, List.getElem?_range hg, Option.map_some']
    rw [newton_loop_unfold]
    have h0 : (0 : Int) < maxIter := by omega
    simp only [Nat.cast_zero, h0, if_true, hz]
  simp only [fitBeta_one_group_internal, List.getElem?_map, hrow, Option.map_some']
  exact ⟨trivial, trivial, trivial⟩

/-- C11 on a matrix with the one row `[0, 0]`, with `max_iter = 5`. -/
theorem one_group_all_zero_witness :
    ∃ res, fitBeta_one_group Real.exp SexpType.REALSXP (Mat.ofRow [0, 0]) (Mat.ofRow [0, 0])
        [0] [0] (1 / 100) 5 = Except.ok res
      ∧ res.beta[0]? = some RDouble.R_NegInf
      ∧ res.iter[0]? = some 0
      ∧ ((one_group_rows Real.exp (Mat.ofRow [0, 0]) (Mat.ofRow [0, 0]) [0] [0]
        (1 / 100) 5)[0]?).map (fun r => r.updates) = some 0 :=
  one_group_all_zero Real.exp SexpType.REALSXP (Mat.ofRow [0, 0]) (Mat.ofRow [0, 0]) [0] [0]
    (1 / 100) 5 (by norm_num) 0 (by simp [Mat.ofRow])
    (by
      intro c hc
      have hc2 : c < 2 := by simpa [Mat.ofRow] using hc
      interval_cases c <;> simp [Mat.get, Mat.ofRow])
    (by decide)

/-- The number of updates `beta += step` of a row that is not all zero: the
difference of the iteration counter on exit and on entry, and one more when
the loop was left by the `break` of line 244. -/
theorem newton_loop_updates {α : Type} [LinearOrderedField α] (exp : α → α) (n_samples : Nat)
    (counts off : Mat α) (theta tolerance : α) (maxIter : Int) (beta : α) (iter : Nat)
    (hnz : ¬ ∀ i, i < n_samples → counts.at_ i = 0) :
    (iter : Int) ≤ (newton_loop exp n_samples counts off theta tolerance maxIter beta iter).iter
      ∧ ((newton_loop exp n_samples counts off theta tolerance maxIter beta iter).updates : Int)
        = (newton_loop exp n_samples counts off theta tolerance maxIter beta iter).iter - iter
          + (if (newton_loop exp n_samples counts off theta tolerance maxIter beta iter).iter
              < maxIter then 1 else 0) := by
  have hz : ∀ b, (newton_sums exp n_samples counts off theta b).all_zero = false := by
    intro b
    rw [Bool.eq_false_iff]
    intro h
    exact hnz ((newton_sums_spec exp n_samples counts off theta b).2.2.mp h)
  induction beta, iter using
    newton_loop.induct exp n_samples counts off theta tolerance maxIter with
  | case1 beta iter hlt sums hzero =>
    simp only [sums, hz] at hzero
    exact absurd hzero (by simp)
  | case2 beta iter hlt sums hzero step hstep =>
    rw [newton_loop_unfold]
    simp only [step, sums] at hstep
    simp only [hlt, if_true, hz, Bool.false_eq_true, if_false, hstep]
    simp
  | case3 beta iter hlt sums hzero step beta' hstep ih =>
    rw [newton_loop_unfold]
    simp only [step, sums] at hstep
    simp only [hlt, if_true, hz, Bool.false_eq_true, if_false, hstep]
    obtain ⟨ih1, ih2⟩ := ih
    simp only [beta', step, sums] at ih1 ih2
    refine ⟨by push_cast at ih1; omega, ?_⟩
    push_cast
    rw [ih2]
    push_cast
    ring
  | case4 beta iter hlt =>
    rw [newton_loop_unfold]
    simp only [hlt, if_false]
    simp

/-- C13, the code at a failing input. The row with the one count `2`, the
offset `0`, the dispersion `0` and the start value `0` has `dl = 1` and
`ddl = 1`, so its first step is `1`.  With `tolerance = 3/2` and
`max_iter = 5` the loop is left by the `break` of line 244 after one update
`beta += step`: the coefficient returned is `1`, and the iteration count
returned is `0`.  With `tolerance = 1/100` and `max_iter = 1` the loop runs to
`max_iter` after the same one update: the coefficient returned is `1`, and the
iteration count returned is `1`. -/
theorem one_group_iter_off_by_one :
    (one_group_rows Real.exp (Mat.ofRow [2]) (Mat.ofRow [0]) [0] [0] (3 / 2) 5)
        = [⟨RDouble.val 1, 0, 1⟩]
      ∧ fitBeta_one_group Real.exp SexpType.REALSXP (Mat.ofRow [2]) (Mat.ofRow [0]) [0] [0]
          (3 / 2) 5 = Except.ok ⟨[RDouble.val 1], [0]⟩
      ∧ (one_group_rows Real.exp (Mat.ofRow [2]) (Mat.ofRow [0]) [0] [0] (1 / 100) 1)
        = [⟨RDouble.val 1, 1, 1⟩]
      ∧ fitBeta_one_group Real.exp SexpType.REALSXP (Mat.ofRow [2]) (Mat.ofRow [0]) [0] [0]
          (1 / 100) 1 = Except.ok ⟨[RDouble.val 1], [1]⟩ := by
  have hsums : newton_sums Real.exp 1 (Mat.ofRow [(2 : ℝ)]) (Mat.ofRow [0]) 0 0
      = ⟨1, 1, false⟩ := by
    simp [newton_sums, Mat.at_, Mat.ofRow, List.range_succ]
    norm_num
  have hrows : ∀ (tolerance : ℝ) (maxIter : Int),
      one_group_rows Real.exp (Mat.ofRow [2]) (Mat.ofRow [0]) [0] [0] tolerance maxIter
        = [newton_loop Real.exp 1 (Mat.ofRow [2]) (Mat.ofRow [0]) 0 tolerance maxIter 0 0] := by
    intro tolerance maxIter
    have h2 := (get_row_ofRow_one (2 : ℝ)).1
    have h0 := (get_row_ofRow_one (0 : ℝ)).1
    have hn : (Mat.ofRow [(2 : ℝ)]).n_rows = 1 ∧ (Mat.ofRow [(2 : ℝ)]).n_cols = 1 := by
      simp [Mat.ofRow]
    simp only [one_group_rows, hn.1, hn.2, List.range_succ, List.range_zero, List.nil_append,
      List.map_cons, List.map_nil, h2, h0, List.getD_cons_zero]
  have ha : newton_loop Real.exp 1 (Mat.ofRow [2]) (Mat.ofRow [0]) 0 (3 / 2) 5 0 0
      = ⟨RDouble.val 1, 0, 1⟩ := by
    rw [newton_loop_unfold, hsums]
    norm_num
  have hb : newton_loop Real.exp 1 (Mat.ofRow [2]) (Mat.ofRow [0]) 0 (1 / 100) 1 0 0
      = ⟨RDouble.val 1, 1, 1⟩ := by
    rw [newton_loop_unfold, hsums]
    norm_num
    rw [newton_loop_unfold]
    norm_num
  refine ⟨?_, ?_, ?_, ?_⟩
  · rw [hrows, ha]
  · simp only [fitBeta_one_group, fitBeta_one_group_internal, hrows, ha, List.map_cons,
      List.map_nil]
  · rw [hrows, hb]
  · simp only [fitBeta_one_group, fitBeta_one_group_internal, hrows, hb, List.map_cons,
      List.map_nil]

/-! ## Line-search bounds and the speeding factor -/

/-- The line search entered with `line_iter = 0`: the number `j` of halvings is
`line_iter` on exit, at most `100`; `j + 1` trials were made; the factor on exit
is the factor on entry divided by `2 ^ j`. -/
theorem line_search_bounds {α : Type} [LinearOrderedField α] (L : NumLib α) (diagonal : Bool)
    (model_matrix counts exp_off : Mat α) (theta tolerance : α) (beta_hat step : Mat α)
    (dev_old speeding_factor : α) :
    (line_search L diagonal model_matrix counts exp_off theta tolerance beta_hat step dev_old
        speeding_factor 0).line_iter ≤ 100
      ∧ (line_search L diagonal model_matrix counts exp_off theta tolerance beta_hat step dev_old
        speeding_factor 0).trials.length
        = (line_search L diagonal model_matrix counts exp_off theta tolerance beta_hat step
            dev_old speeding_factor 0).line_iter + 1
      ∧ (line_search L diagonal model_matrix counts exp_off theta tolerance beta_hat step dev_old
        speeding_factor 0).speeding_factor
        = speeding_factor / 2 ^ (line_search L diagonal model_matrix counts exp_off theta
            tolerance beta_hat step dev_old speeding_factor 0).line_iter := by
  obtain ⟨j, h1, h2, h3, _, _, _, h7, _⟩ := line_search_spec L diagonal model_matrix counts
    exp_off theta tolerance beta_hat step dev_old speeding_factor 0
  have hj : j ≤ 100 := by
    rcases Nat.lt_or_ge 100 j with hlt | hge
    · have := (h7 100 hlt).2.1
      omega
    · exact hge
  rw [h1, h2, h3]
  simp only [zero_add, List.length_map, List.length_range]
  exact ⟨hj, trivial, trivial⟩

/-- C16. In `fitBeta_fisher_scoring_impl` the line search of every iteration
of every row ends: it evaluates at most 101 proposals and halves the speeding
factor at most 100 times (`line_iter ≤ 100` halvings, `line_iter + 1` trials),
and then either has accepted a proposal or has flagged divergence. -/
theorem fisher_line_search_terminates {α : Type} [LinearOrderedField α] (L : NumLib α)
    (Y model_matrix exp_offset_matrix : Mat α) (thetas : List α) (beta_mat : Mat α)
    (tolerance : α) (max_iter : Int) (r : RowFit α)
    (hr : r ∈ fit_rows L false Y model_matrix exp_offset_matrix thetas beta_mat tolerance
      max_iter)
    (it : IterRecord α) (hit : it ∈ r.history) :
    it.search.trials.length ≤ 101
      ∧ it.search.line_iter ≤ 100
      ∧ it.search.trials.length = it.search.line_iter + 1
      ∧ it.search.speeding_factor = it.speeding_factor_in / 2 ^ it.search.line_iter
      ∧ ((∃ c, it.search.conv_test = some c ∧ (it.search.dev < it.dev_old ∨ c < tolerance))
        ∨ it.search.conv_test = none) := by
  obtain ⟨g, _, rfl⟩ := mem_fit_rows L false Y model_matrix exp_offset_matrix thetas beta_mat
    tolerance max_iter r hr
  obtain ⟨t', b', m', d', s', rfl⟩ := history_is_iteration L false model_matrix _ _ _ tolerance
    max_iter 0 _ _ _ _ 0 it hit
  obtain ⟨h1, h2, h3⟩ := line_search_bounds L false model_matrix (Y.get_row g Y.n_cols)
    (exp_offset_matrix.get_row g Y.n_cols) (thetas.getD g 0) tolerance b'
    (scoring_step L false model_matrix (Y.get_row g Y.n_cols) m' (thetas.getD g 0)) d' s'
  obtain ⟨j, _, _, _, _, _, h6, _, h8⟩ := line_search_spec L false model_matrix
    (Y.get_row g Y.n_cols) (exp_offset_matrix.get_row g Y.n_cols) (thetas.getD g 0) tolerance b'
    (scoring_step L false model_matrix (Y.get_row g Y.n_cols) m' (thetas.getD g 0)) d' s' 0
  simp only [scoring_iteration]
  refine ⟨by omega, h1, h2, h3, ?_⟩
  rcases h8 with ⟨hsome, hacc⟩ | ⟨hnone, _⟩
  · left
    refine ⟨_, hsome, ?_⟩
    rw [h6]
    exact hacc
  · exact Or.inr hnone

/-- A row with one iteration in either solver: the count `4`, the offset `1`,
the design `1`, the dispersion `0`, the start value `0`, `tolerance = 1` and
`max_iter = 1`. -/
theorem example_row_history (diagonal : Bool) :
    fit_row ⟨Real.exp, Real.log, Real.sqrt, fun m => (Mat.ofRow [1], m),
        fun r b => Mat.zipWith (· / ·) b r⟩ diagonal (Mat.ofRow [1]) (Mat.ofRow [4])
        (Mat.ofRow [1]) 0 (Mat.ofRow [0]) 1 1
      ∈ fit_rows ⟨Real.exp, Real.log, Real.sqrt, fun m => (Mat.ofRow [1], m),
        fun r b => Mat.zipWith (· / ·) b r⟩ diagonal (Mat.ofRow [4]) (Mat.ofRow [1])
        (Mat.ofRow [1]) [0] (Mat.ofRow [0]) 1 1
      ∧ ∃ it, it ∈ (fit_row ⟨Real.exp, Real.log, Real.sqrt, fun m => (Mat.ofRow [1], m),
        fun r b => Mat.zipWith (· / ·) b r⟩ diagonal (Mat.ofRow [1]) (Mat.ofRow [4])
        (Mat.ofRow [1]) 0 (Mat.ofRow [0]) 1 1).history := by
  refine ⟨by rw [fit_rows_ofRow_one]; exact List.mem_singleton.mpr rfl, ?_⟩
  have hstep : scoring_step ⟨Real.exp, Real.log, Real.sqrt, fun m => (Mat.ofRow [1], m),
      fun r b => Mat.zipWith (· / ·) b r⟩ diagonal (Mat.ofRow [(1 : ℝ)]) (Mat.ofRow [4])
      (Mat.ofRow [1]) 0 = Mat.ofRow [3] := by
    cases diagonal
    · simp only [scoring_step, Bool.false_eq_true, if_false]
      rw [fisher_step_ofRow_one]
      norm_num
    · simp only [scoring_step, if_true]
      rw [diagonal_step_ofRow_one]
      norm_num
  obtain ⟨_, it, hit, _⟩ := fit_row_raises_deviance _ diagonal rfl rfl hstep
  exact ⟨it, hit⟩

/-- C16 on the row of `example_row_history`. -/
theorem fisher_line_search_terminates_witness :
    ∃ it, it ∈ (fit_row ⟨Real.exp, Real.log, Real.sqrt, fun m => (Mat.ofRow [1], m),
        fun r b => Mat.zipWith (· / ·) b r⟩ false (Mat.ofRow [1]) (Mat.ofRow [4])
        (Mat.ofRow [1]) 0 (Mat.ofRow [0]) 1 1).history
      ∧ it.search.trials.length ≤ 101 ∧ it.search.line_iter ≤ 100 := by
  obtain ⟨hmem, it, hit⟩ := example_row_history false
  have h := fisher_line_search_terminates _ _ _ _ _ _ _ _ _ hmem it hit
  exact ⟨it, hit, h.1, h.2.1⟩

/-- The first record of the history is the record of the pass the loop was
entered with, and each record starts from the values the one before left:
the iteration counter, the fitted mean, the deviance and the speeding
factor. -/
theorem scoring_loop_chain {α : Type} [LinearOrderedField α] (L : NumLib α) (diagonal : Bool)
    (model_matrix counts exp_off : Mat α) (theta tolerance : α) (max_iter : Int) (t : Nat)
    (beta_hat mu_hat : Mat α) (dev_old speeding_factor : α) (iterations : Int) :
    (∀ it, (scoring_loop L diagonal model_matrix counts exp_off theta tolerance max_iter t
        beta_hat mu_hat dev_old speeding_factor iterations).history.head? = some it →
        it = scoring_iteration L diagonal model_matrix counts exp_off theta tolerance t beta_hat
          mu_hat dev_old speeding_factor)
      ∧ List.Chain' (fun a b : IterRecord α =>
          b.t = a.t + 1 ∧ b.mu_hat = a.search.mu_hat ∧ b.dev_old = a.search.dev
            ∧ b.speeding_factor_in = a.speeding_factor)
        (scoring_loop L diagonal model_matrix counts exp_off theta tolerance max_iter t
          beta_hat mu_hat dev_old speeding_factor iterations).history := by
  induction t, beta_hat, mu_hat, dev_old, speeding_factor, iterations using
    scoring_loop.induct L diagonal model_matrix counts exp_off theta tolerance max_iter with
  | case1 t beta_hat mu_hat dev_old speeding_factor iterations hlt record hnone =>
    rw [scoring_loop_unfold]
    simp only [record] at hnone
    simp [hlt, hnone]
  | case2 t beta_hat mu_hat dev_old speeding_factor iterations hlt record c hsome hconv =>
    rw [scoring_loop_unfold]
    simp only [record] at hsome
    simp [hlt, hsome, hconv]
  | case3 t beta_hat mu_hat dev_old speeding_factor iterations hlt its record bh c hsome
      hconv ih =>
    rw [scoring_loop_unfold]
    simp only [record] at hsome
    simp only [hlt, if_true, hsome, hconv, if_false]
    obtain ⟨ih1, ih2⟩ := ih
    refine ⟨by simp, ?_⟩
    rw [List.chain'_cons']
    refine ⟨?_, ih2⟩
    intro y hy
    have hy' := ih1 y (Option.mem_def.mp hy)
    rw [hy']
    exact ⟨rfl, rfl, rfl, rfl⟩
  | case4 t beta_hat mu_hat dev_old speeding_factor iterations hlt =>
    rw [scoring_loop_unfold]
    simp [hlt]

/-- One pass through the body of the loop over `t` entered with a speeding
factor in `(0, 1]`: every speeding factor of the pass is in `(0, 1]`. -/
theorem scoring_iteration_speeding_factor {α : Type} [LinearOrderedField α] (L : NumLib α)
    (diagonal : Bool) (model_matrix counts exp_off : Mat α) (theta tolerance : α) (t : Nat)
    (beta_hat mu_hat : Mat α) (dev_old speeding_factor : α) (h0 : 0 < speeding_factor)
    (h1 : speeding_factor ≤ 1) :
    (∀ tr ∈ (scoring_iteration L diagonal model_matrix counts exp_off theta tolerance t beta_hat
        mu_hat dev_old speeding_factor).search.trials,
        0 < tr.speeding_factor ∧ tr.speeding_factor ≤ 1)
      ∧ (0 < (scoring_iteration L diagonal model_matrix counts exp_off theta tolerance t beta_hat
          mu_hat dev_old speeding_factor).search.speeding_factor
        ∧ (scoring_iteration L diagonal model_matrix counts exp_off theta tolerance t beta_hat
          mu_hat dev_old speeding_factor).search.speeding_factor ≤ 1)
      ∧ (0 < (scoring_iteration L diagonal model_matrix counts exp_off theta tolerance t beta_hat
          mu_hat dev_old speeding_factor).speeding_factor
        ∧ (scoring_iteration L diagonal model_matrix counts exp_off theta tolerance t beta_hat
          mu_hat dev_old speeding_factor).speeding_factor ≤ 1) := by
  have hhalf : ∀ k : Nat, 0 < speeding_factor / 2 ^ k ∧ speeding_factor / 2 ^ k ≤ 1 := by
    intro k
    have hp : (1 : α) ≤ 2 ^ k := one_le_pow₀ (by norm_num)
    have hp0 : (0 : α) < 2 ^ k := lt_of_lt_of_le one_pos hp
    refine ⟨div_pos h0 hp0, ?_⟩
    rw [div_le_one hp0]
    exact le_trans h1 hp
  obtain ⟨j, _, h2, h3, _⟩ := line_search_spec L diagonal model_matrix counts exp_off theta
    tolerance beta_hat (scoring_step L diagonal model_matrix counts mu_hat theta) dev_old
    speeding_factor 0
  simp only [scoring_iteration]
  have hs : 0 < (line_search L diagonal model_matrix counts exp_off theta tolerance beta_hat
      (scoring_step L diagonal model_matrix counts mu_hat theta) dev_old speeding_factor
      0).speeding_factor
      ∧ (line_search L diagonal model_matrix counts exp_off theta tolerance beta_hat
      (scoring_step L diagonal model_matrix counts mu_hat theta) dev_old speeding_factor
      0).speeding_factor ≤ 1 := by
    rw [h2]
    exact hhalf j
  refine ⟨?_, hs, ?_⟩
  · intro tr htr
    rw [h3] at htr
    obtain ⟨k, _, rfl⟩ := List.mem_map.mp htr
    exact hhalf k
  · split_ifs with hc
    · refine ⟨lt_min (mul_pos hs.1 (by norm_num)) one_pos, min_le_right _ _⟩
    · exact hs

/-- C19. In both scoring functions the speeding factor of a row starts at `1`,
each iteration starts from the factor the one before left, and every value it
takes is in `(0, 1]`: the factor an iteration is entered with, the factor of
every line-search trial, the factor the line search leaves, and the factor
after the recovery of lines 155-159. -/
theorem speeding_factor_range {α : Type} [LinearOrderedField α] (L : NumLib α)
    (diagonal : Bool) (Y model_matrix exp_offset_matrix : Mat α) (thetas : List α)
    (beta_mat : Mat α) (tolerance : α) (max_iter : Int) (r : RowFit α)
    (hr : r ∈ fit_rows L diagonal Y model_matrix exp_offset_matrix thetas beta_mat tolerance
      max_iter) :
    (∀ it, r.history.head? = some it → it.speeding_factor_in = 1)
      ∧ List.Chain' (fun a b : IterRecord α => b.speeding_factor_in = a.speeding_factor)
          r.history
      ∧ ∀ it ∈ r.history,
          (0 < it.speeding_factor_in ∧ it.speeding_factor_in ≤ 1)
          ∧ (∀ tr ∈ it.search.trials, 0 < tr.speeding_factor ∧ tr.speeding_factor ≤ 1)
          ∧ (0 < it.search.speeding_factor ∧ it.search.speeding_factor ≤ 1)
          ∧ (0 < it.speeding_factor ∧ it.speeding_factor ≤ 1) := by
  obtain ⟨g, _, rfl⟩ := mem_fit_rows L diagonal Y model_matrix exp_offset_matrix thetas beta_mat
    tolerance max_iter r hr
  unfold fit_row
  obtain ⟨hhead, hchain⟩ := scoring_loop_chain L diagonal model_matrix (Y.get_row g Y.n_cols)
    (exp_offset_matrix.get_row g Y.n_cols) (thetas.getD g 0) tolerance max_iter 0
    (beta_mat.row g)
    (initial_mu_hat L model_matrix (exp_offset_matrix.get_row g Y.n_cols) (beta_mat.row g))
    (compute_gp_deviance_sum L.log (Y.get_row g Y.n_cols)
      (initial_mu_hat L model_matrix (exp_offset_matrix.get_row g Y.n_cols) (beta_mat.row g))
      (thetas.getD g 0)) 1 0
  refine ⟨?_, ?_, ?_⟩
  · intro it hit
    rw [hhead it hit]
    rfl
  · exact hchain.imp (fun _ _ h => h.2.2.2)
  · apply scoring_loop_history L diagonal model_matrix _ _ _ tolerance max_iter
      (fun _ _ _ _ sf => 0 < sf ∧ sf ≤ 1)
    · intro t bh mu d sf hsf
      exact ⟨hsf, scoring_iteration_speeding_factor L diagonal model_matrix _ _ _ tolerance t bh
        mu d sf hsf.1 hsf.2⟩
    · intro t bh mu d sf hsf
      exact (scoring_iteration_speeding_factor L diagonal model_matrix _ _ _ tolerance t bh
        mu d sf hsf.1 hsf.2).2.2
    · exact ⟨one_pos, le_refl 1⟩

/-- C19 on the row of `example_row_history` in the diagonal solver. -/
theorem speeding_factor_range_witness :
    ∃ it, it ∈ (fit_row ⟨Real.exp, Real.log, Real.sqrt, fun m => (Mat.ofRow [1], m),
        fun r b => Mat.zipWith (· / ·) b r⟩ true (Mat.ofRow [1]) (Mat.ofRow [4])
        (Mat.ofRow [1]) 0 (Mat.ofRow [0]) 1 1).history
      ∧ 0 < it.speeding_factor ∧ it.speeding_factor ≤ 1 := by
  obtain ⟨hmem, it, hit⟩ := example_row_history true
  have h := (speeding_factor_range _ _ _ _ _ _ _ _ _ _ hmem).2.2 it hit
  exact ⟨it, hit, h.2.2.2⟩

/-- The loop over `t` entered with `iterations = t ≤ max_iter`: the iteration
count on exit is `max_iter` or at least `2`; and when the row is not marked
diverged it is the count on entry plus the number of passes made. -/
theorem scoring_loop_iterations_ge {α : Type} [LinearOrderedField α] (L : NumLib α)
    (diagonal : Bool) (model_matrix counts exp_off : Mat α) (theta tolerance : α)
    (max_iter : Int) (t : Nat) (beta_hat mu_hat : Mat α) (dev_old speeding_factor : α)
    (iterations : Int) (h1 : iterations = t) (h2 : (t : Int) ≤ max_iter) :
    ((scoring_loop L diagonal model_matrix counts exp_off theta tolerance max_iter t beta_hat
        mu_hat dev_old speeding_factor iterations).iterations = max_iter
      ∨ 2 ≤ (scoring_loop L diagonal model_matrix counts exp_off theta tolerance max_iter t
        beta_hat mu_hat dev_old speeding_factor iterations).iterations)
      ∧ ((scoring_loop L diagonal model_matrix counts exp_off theta tolerance max_iter t beta_hat
          mu_hat dev_old speeding_factor iterations).diverged = false →
        (scoring_loop L diagonal model_matrix counts exp_off theta tolerance max_iter t beta_hat
          mu_hat dev_old speeding_factor iterations).iterations
          = iterations + (scoring_loop L diagonal model_matrix counts exp_off theta tolerance
              max_iter t beta_hat mu_hat dev_old speeding_factor iterations).history.length) := by
  induction t, beta_hat, mu_hat, dev_old, speeding_factor, iterations using
    scoring_loop.induct L diagonal model_matrix counts exp_off theta tolerance max_iter with
  | case1 t beta_hat mu_hat dev_old speeding_factor iterations hlt record hnone =>
    rw [scoring_loop_unfold]
    simp only [record] at hnone
    simp [hlt, hnone]
  | case2 t beta_hat mu_hat dev_old speeding_factor iterations hlt record c hsome hconv =>
    rw [scoring_loop_unfold]
    simp only [record] at hsome
    simp only [hlt, if_true, hsome, hconv, and_self, List.length_singleton, Nat.cast_one,
      forall_const, and_true]
    right
    have := hconv.1
    omega
  | case3 t beta_hat mu_hat dev_old speeding_factor iterations hlt its record bh c hsome
      hconv ih =>
    rw [scoring_loop_unfold]
    simp only [record] at hsome
    simp only [hlt, if_true, hsome, hconv, if_false]
    obtain ⟨ih1, ih2⟩ := ih (by simp only [its]; push_cast; omega) (by push_cast; omega)
    refine ⟨ih1, ?_⟩
    intro hdiv
    rw [ih2 hdiv]
    simp only [its, List.length_cons]
    push_cast
    ring
  | case4 t beta_hat mu_hat dev_old speeding_factor iterations hlt =>
    rw [scoring_loop_unfold]
    simp only [hlt, if_false, List.length_nil, Nat.cast_zero, add_zero, forall_const, and_true]
    left
    omega

/-- C17. In both scoring functions, for `max_iter ≥ 0`, the iteration count
reported for a row is at least `min(2, max_iter)`: the convergence stop of
lines 167 and 366 needs `t > 0`.  For a row that is not marked diverged the
count is the number of passes through the body of the loop over `t`. -/
theorem iterations_ge_min_two {α : Type} [LinearOrderedField α] (L : NumLib α)
    (Y model_matrix exp_offset_matrix : Mat α) (thetas : List α) (beta_mat : Mat α)
    (tolerance : α) (max_iter : Int) (hmax : 0 ≤ max_iter) :
    (∀ n ∈ (fitBeta_fisher_scoring_impl L Y model_matrix exp_offset_matrix thetas beta_mat
        tolerance max_iter).iter, min 2 max_iter ≤ n)
      ∧ (∀ n ∈ (fitBeta_diagonal_fisher_scoring_impl L Y model_matrix exp_offset_matrix thetas
        beta_mat tolerance max_iter).iter, min 2 max_iter ≤ n)
      ∧ ∀ diagonal, ∀ r ∈ fit_rows L diagonal Y model_matrix exp_offset_matrix thetas beta_mat
          tolerance max_iter,
        min 2 max_iter ≤ r.iterations
        ∧ (r.diverged = false → r.iterations = r.history.length) := by
  have hrow : ∀ diagonal, ∀ r ∈ fit_rows L diagonal Y model_matrix exp_offset_matrix thetas
      beta_mat tolerance max_iter,
      min 2 max_iter ≤ r.iterations
      ∧ (r.diverged = false → r.iterations = r.history.length) := by
    intro diagonal r hr
    obtain ⟨g, _, rfl⟩ := mem_fit_rows L diagonal Y model_matrix exp_offset_matrix thetas
      beta_mat tolerance max_iter r hr
    unfold fit_row
    obtain ⟨k1, k2⟩ := scoring_loop_iterations_ge L diagonal model_matrix
      (Y.get_row g Y.n_cols) (exp_offset_matrix.get_row g Y.n_cols) (thetas.getD g 0) tolerance
      max_iter 0 (beta_mat.row g)
      (initial_mu_hat L model_matrix (exp_offset_matrix.get_row g Y.n_cols) (beta_mat.row g))
      (compute_gp_deviance_sum L.log (Y.get_row g Y.n_cols)
        (initial_mu_hat L model_matrix (exp_offset_matrix.get_row g Y.n_cols) (beta_mat.row g))
        (thetas.getD g 0)) 1 0 (by simp) (by simpa using hmax)
    refine ⟨?_, fun hd => by rw [k2 hd]; simp⟩
    rcases k1 with h | h
    · rw [h]
      exact min_le_right _ _
    · exact le_trans (min_le_left _ _) h
  refine ⟨?_, ?_, hrow⟩
  · intro n hn
    simp only [fitBeta_fisher_scoring_impl, List.mem_map] at hn
    obtain ⟨r, hr, rfl⟩ := hn
    exact (hrow false r hr).1
  · intro n hn
    simp only [fitBeta_diagonal_fisher_scoring_impl, List.mem_map] at hn
    obtain ⟨r, hr, rfl⟩ := hn
    exact (hrow true r hr).1

/-- C17 on the row of `example_row_history` with `max_iter = 1`: the count
reported by either function is at least `min(2, 1)`. -/
theorem iterations_ge_min_two_witness :
    (∀ n ∈ (fitBeta_fisher_scoring_impl ⟨Real.exp, Real.log, Real.sqrt,
        fun m => (Mat.ofRow [1], m), fun r b => Mat.zipWith (· / ·) b r⟩ (Mat.ofRow [4])
        (Mat.ofRow [1]) (Mat.ofRow [1]) [0] (Mat.ofRow [0]) 1 1).iter, min 2 1 ≤ n)
      ∧ (∀ n ∈ (fitBeta_diagonal_fisher_scoring_impl ⟨Real.exp, Real.log, Real.sqrt,
        fun m => (Mat.ofRow [1], m), fun r b => Mat.zipWith (· / ·) b r⟩ (Mat.ofRow [4])
        (Mat.ofRow [1]) (Mat.ofRow [1]) [0] (Mat.ofRow [0]) 1 1).iter, min 2 1 ≤ n) :=
  ⟨(iterations_ge_min_two _ _ _ _ _ _ 1 1 (by norm_num)).1,
    (iterations_ge_min_two _ _ _ _ _ _ 1 1 (by norm_num)).2.1⟩

/-! ## The steps in matrix form -/

theorem get_ofFn {α : Type} [Zero α] (n p : Nat) (f : Nat → Nat → α) (i j : Nat) (hi : i < n)
    (hj : j < p) : (Mat.ofFn n p f).get i j = f i j := by
  have hlt : i + j * n < n * p := by
    calc i + j * n < n + j * n := Nat.add_lt_add_right hi _
      _ = n * (j + 1) := by ring
      _ ≤ n * p := Nat.mul_le_mul_left n hj
  have hmod : (i + j * n) % n = i := by
    rw [Nat.add_mul_mod_self_right, Nat.mod_eq_of_lt hi]
  have hdiv : (i + j * n) / n = j := by
    rw [Nat.add_mul_div_right _ _ (lt_of_le_of_lt (Nat.zero_le i) hi), Nat.div_eq_of_lt hi,
      zero_add]
  simp [Mat.get, Mat.ofFn, hlt, hmod, hdiv]

theorem at_ofFn_col {α : Type} [Zero α] (n : Nat) (f : Nat → Nat → α) (i : Nat) (hi : i < n) :
    (Mat.ofFn n 1 f).at_ i = f i 0 := by
  have h := get_ofFn n 1 f i 0 hi (by norm_num)
  simpa [Mat.get, Mat.at_] using h

theorem sum_range_map {β : Type} [AddCommMonoid β] (g : Nat → β) (n : Nat) :
    ((List.range n).map g).sum = ∑ s in Finset.range n, g s := by
  induction n with
  | zero => simp
  | succ n ih => simp [List.range_succ, Finset.sum_range_succ, ih]

theorem w_vec_ofRow {α : Type} [LinearOrderedField α] (mu : List α) (theta : α) :
    (w_vec (Mat.ofRow mu) theta).n_rows = mu.length
      ∧ (w_vec (Mat.ofRow mu) theta).n_cols = 1
      ∧ ∀ s, s < mu.length →
          (w_vec (Mat.ofRow mu) theta).at_ s = weight theta (mu.getD s 0) := by
  refine ⟨rfl, rfl, ?_⟩
  intro s hs
  have h := at_ofFn_col mu.length (fun r c =>
    (Mat.zipWith (· / ·) (Mat.ofRow mu) (Mat.map (fun m => 1 + theta * m) (Mat.ofRow mu))).get
      c r) s hs
  rw [show w_vec (Mat.ofRow mu) theta = Mat.ofFn mu.length 1 (fun r c =>
    (Mat.zipWith (· / ·) (Mat.ofRow mu) (Mat.map (fun m => 1 + theta * m) (Mat.ofRow mu))).get
      c r) from rfl, h]
  simp [Mat.get, Mat.zipWith, Mat.map, Mat.ofRow, weight, hs, List.getD_eq_getElem?_getD]

theorem working_residual_ofRow {α : Type} [LinearOrderedField α] (ys mu : List α)
    (hlen : ys.length = mu.length) :
    (working_residual (Mat.ofRow ys) (Mat.ofRow mu)).n_rows = 1
      ∧ (working_residual (Mat.ofRow ys) (Mat.ofRow mu)).n_cols = ys.length
      ∧ ∀ s, s < ys.length →
          (working_residual (Mat.ofRow ys) (Mat.ofRow mu)).get 0 s
            = residual (ys.getD s 0) (mu.getD s 0) := by
  refine ⟨rfl, rfl, ?_⟩
  intro s hs
  have hs' : s < mu.length := hlen ▸ hs
  simp [working_residual, Mat.get, Mat.zipWith, Mat.ofRow, residual, hs, hs',
    List.getD_eq_getElem?_getD]

theorem each_col_schur_get {α : Type} [LinearOrderedField α] (m v : Mat α) (i j : Nat)
    (hi : i < m.n_rows) (hj : j < m.n_cols) :
    (Mat.each_col_schur m v).n_rows = m.n_rows
      ∧ (Mat.each_col_schur m v).n_cols = m.n_cols
      ∧ (Mat.each_col_schur m v).get i j = m.get i j * v.at_ i :=
  ⟨rfl, rfl, get_ofFn _ _ _ i j hi hj⟩

theorem diagonal_score_vec_at {α : Type} [LinearOrderedField α] (model_matrix : Mat α)
    (ys mu : List α) (theta : α) (hys : ys.length = model_matrix.n_rows)
    (hmu : mu.length = model_matrix.n_rows) (j : Nat) (hj : j < model_matrix.n_cols) :
    (diagonal_score_vec model_matrix (Mat.ofRow ys) (Mat.ofRow mu) theta).at_ j
      = ∑ s in Finset.range model_matrix.n_rows,
          residual (ys.getD s 0) (mu.getD s 0)
            * (model_matrix.get s j * weight theta (mu.getD s 0)) := by
  have hshape : diagonal_score_vec model_matrix (Mat.ofRow ys) (Mat.ofRow mu) theta
      = Mat.ofFn 1 model_matrix.n_cols (fun r c =>
          ((List.range ys.length).map fun k =>
            (working_residual (Mat.ofRow ys) (Mat.ofRow mu)).get r k
              * (Mat.each_col_schur model_matrix (w_vec (Mat.ofRow mu) theta)).get k c).sum) :=
    rfl
  rw [hshape, at_ofFn_row _ _ j hj, sum_range_map, hys]
  apply Finset.sum_congr rfl
  intro s hs
  have hs' : s < model_matrix.n_rows := Finset.mem_range.mp hs
  rw [(working_residual_ofRow ys mu (hys.trans hmu.symm)).2.2 s (hys ▸ hs'),
    (each_col_schur_get model_matrix _ s j hs' hj).2.2,
    (w_vec_ofRow mu theta).2.2 s (hmu ▸ hs')]

theorem map_sq_get {α : Type} [LinearOrderedField α] (m : Mat α) (i j : Nat) :
    (Mat.map (fun x => x ^ 2) m).get i j = m.get i j ^ 2 := by
  simp only [Mat.get, Mat.map, List.getD_eq_getElem?_getD, List.getElem?_map]
  rcases h : m.mem[i + j * m.n_rows]? with _ | x <;> simp

theorem diagonal_info_vec_at {α : Type} [LinearOrderedField α] (model_matrix : Mat α)
    (mu : List α) (theta : α) (hmu : mu.length = model_matrix.n_rows) (j : Nat)
    (hj : j < model_matrix.n_cols) :
    (diagonal_info_vec model_matrix (Mat.ofRow mu) theta).at_ j
      = ∑ s in Finset.range model_matrix.n_rows,
          weight theta (mu.getD s 0) * model_matrix.get s j ^ 2 := by
  have hshape : diagonal_info_vec model_matrix (Mat.ofRow mu) theta
      = Mat.ofFn 1 model_matrix.n_cols (fun _ c =>
          ((List.range model_matrix.n_rows).map fun r =>
            (Mat.each_col_schur (Mat.map (fun x => x ^ 2) model_matrix)
              (w_vec (Mat.ofRow mu) theta)).get r c).sum) :=
    rfl
  rw [hshape, at_ofFn_row _ _ j hj, sum_range_map]
  apply Finset.sum_congr rfl
  intro s hs
  have hs' : s < model_matrix.n_rows := Finset.mem_range.mp hs
  rw [(each_col_schur_get (Mat.map (fun x => x ^ 2) model_matrix) _ s j hs' hj).2.2,
    map_sq_get, (w_vec_ofRow mu theta).2.2 s (hmu ▸ hs'), mul_comm]

theorem diagonal_step_at {α : Type} [LinearOrderedField α] (model_matrix : Mat α)
    (ys mu : List α) (theta : α) (j : Nat) (hj : j < model_matrix.n_cols) :
    (diagonal_step model_matrix (Mat.ofRow ys) (Mat.ofRow mu) theta).at_ j
      = (diagonal_score_vec model_matrix (Mat.ofRow ys) (Mat.ofRow mu) theta).at_ j
        / (diagonal_info_vec model_matrix (Mat.ofRow mu) theta).at_ j := by
  have hshape : diagonal_step model_matrix (Mat.ofRow ys) (Mat.ofRow mu) theta
      = Mat.zipWith (· / ·) (diagonal_score_vec model_matrix (Mat.ofRow ys) (Mat.ofRow mu) theta)
          (diagonal_info_vec model_matrix (Mat.ofRow mu) theta) := rfl
  have h1 : (diagonal_score_vec model_matrix (Mat.ofRow ys) (Mat.ofRow mu) theta).mem.length
      = model_matrix.n_cols := by
    simp [diagonal_score_vec, Mat.mul, Mat.ofFn, working_residual, Mat.zipWith,
      Mat.each_col_schur, Mat.ofRow]
  have h2 : (diagonal_info_vec model_matrix (Mat.ofRow mu) theta).mem.length
      = model_matrix.n_cols := by
    simp [diagonal_info_vec, Mat.sum0, Mat.ofFn, Mat.each_col_schur, Mat.map]
  rw [hshape]
  simp only [Mat.at_, Mat.zipWith, List.getD_eq_getElem?_getD]
  rw [List.getElem?_eq_getElem (by rw [List.length_zipWith, h1, h2]; simpa using hj),
    List.getElem?_eq_getElem (h1 ▸ hj), List.getElem?_eq_getElem (h2 ▸ hj)]
  simp

theorem information_apply {α : Type} [LinearOrderedField α] (n p : Nat)
    (X : Matrix (Fin n) (Fin p) α) (w : Fin n → α) (i j : Fin p) :
    (X.transpose * Matrix.diagonal w * X) i j = ∑ s : Fin n, X s i * w s * X s j := by
  rw [Matrix.mul_apply]
  apply Finset.sum_congr rfl
  intro s _
  rw [Matrix.mul_diagonal, Matrix.transpose_apply]

theorem score_apply {α : Type} [LinearOrderedField α] (n p : Nat)
    (X : Matrix (Fin n) (Fin p) α) (w z : Fin n → α) (j : Fin p) :
    (Matrix.mulVec X.transpose (Matrix.mulVec (Matrix.diagonal w) z)) j
      = ∑ s : Fin n, X s j * (w s * z s) := by
  simp [Matrix.mulVec, Matrix.dotProduct, Matrix.diagonal_apply]

/-- The normal equations with a diagonal information matrix of non-zero
diagonal: the quotient of the score by the diagonal solves them, and nothing
else does. -/
theorem diagonal_normal_equations {α : Type} [LinearOrderedField α] (p : Nat)
    (M : Matrix (Fin p) (Fin p) α) (b v : Fin p → α)
    (hoff : ∀ i j : Fin p, i ≠ j → M i j = 0) (hdiag : ∀ j, M j j ≠ 0) :
    Matrix.mulVec M v = b ↔ v = fun j => b j / M j j := by
  have hM : ∀ (u : Fin p → α) (i : Fin p), Matrix.mulVec M u i = M i i * u i := by
    intro u i
    simp only [Matrix.mulVec, Matrix.dotProduct]
    rw [Finset.sum_eq_single i]
    · intro j _ hji
      rw [hoff i j (Ne.symm hji), zero_mul]
    · intro hi
      exact absurd (Finset.mem_univ i) hi
  constructor
  · intro h
    funext j
    have hj := congrFun h j
    rw [hM] at hj
    rw [← hj, mul_div_cancel_left₀ _ (hdiag j)]
  · intro h
    funext j
    rw [hM, h, mul_div_cancel₀ _ (hdiag j)]

/-- C15. In `fitBeta_diagonal_fisher_scoring_impl`, with the weights
`w = mu / (1 + theta * mu)`, `W = diag(w)`, the design matrix `X` and
`z = (counts - mu) / mu`: `info_vec[j]` is the diagonal entry `j` of `X^T W X`,
the sum of `w[s] * X[s, j]^2` over the samples; `score_vec[j]` is entry `j` of
`X^T W z`; `step[j] = score_vec[j] / info_vec[j]`; and whenever `X^T W X` is
diagonal with a non-zero diagonal, the step is the one solution of
`(X^T W X) step = X^T W z`. -/
theorem diagonal_step_spec {α : Type} [LinearOrderedField α] (model_matrix : Mat α)
    (ys mu : List α) (theta : α) (hys : ys.length = model_matrix.n_rows)
    (hmu : mu.length = model_matrix.n_rows) :
    (∀ j : Fin model_matrix.n_cols,
        (diagonal_info_vec model_matrix (Mat.ofRow mu) theta).at_ j
          = ((model_matrix.toMatrix model_matrix.n_rows model_matrix.n_cols).transpose
              * Matrix.diagonal (fun s : Fin model_matrix.n_rows => weight theta (mu.getD s 0))
              * model_matrix.toMatrix model_matrix.n_rows model_matrix.n_cols) j j
        ∧ (diagonal_info_vec model_matrix (Mat.ofRow mu) theta).at_ j
          = ∑ s in Finset.range model_matrix.n_rows,
              weight theta (mu.getD s 0) * model_matrix.get s j ^ 2
        ∧ (diagonal_score_vec model_matrix (Mat.ofRow ys) (Mat.ofRow mu) theta).at_ j
          = Matrix.mulVec
              (model_matrix.toMatrix model_matrix.n_rows model_matrix.n_cols).transpose
              (Matrix.mulVec
                (Matrix.diagonal (fun s : Fin model_matrix.n_rows => weight theta (mu.getD s 0)))
                (fun s : Fin model_matrix.n_rows => residual (ys.getD s 0) (mu.getD s 0))) j
        ∧ (diagonal_step model_matrix (Mat.ofRow ys) (Mat.ofRow mu) theta).at_ j
          = (diagonal_score_vec model_matrix (Mat.ofRow ys) (Mat.ofRow mu) theta).at_ j
            / (diagonal_info_vec model_matrix (Mat.ofRow mu) theta).at_ j)
      ∧ ((∀ i j : Fin model_matrix.n_cols, i ≠ j →
            ((model_matrix.toMatrix model_matrix.n_rows model_matrix.n_cols).transpose
              * Matrix.diagonal (fun s : Fin model_matrix.n_rows => weight theta (mu.getD s 0))
              * model_matrix.toMatrix model_matrix.n_rows model_matrix.n_cols) i j = 0) →
          (∀ j : Fin model_matrix.n_cols,
            ((model_matrix.toMatrix model_matrix.n_rows model_matrix.n_cols).transpose
              * Matrix.diagonal (fun s : Fin model_matrix.n_rows => weight theta (mu.getD s 0))
              * model_matrix.toMatrix model_matrix.n_rows model_matrix.n_cols) j j ≠ 0) →
          ∀ v : Fin model_matrix.n_cols → α,
            Matrix.mulVec
                ((model_matrix.toMatrix model_matrix.n_rows model_matrix.n_cols).transpose
                  * Matrix.diagonal
                      (fun s : Fin model_matrix.n_rows => weight theta (mu.getD s 0))
                  * model_matrix.toMatrix model_matrix.n_rows model_matrix.n_cols) v
              = Matrix.mulVec
                  (model_matrix.toMatrix model_matrix.n_rows model_matrix.n_cols).transpose
                  (Matrix.mulVec
                    (Matrix.diagonal
                      (fun s : Fin model_matrix.n_rows => weight theta (mu.getD s 0)))
                    (fun s : Fin model_matrix.n_rows => residual (ys.getD s 0) (mu.getD s 0)))
            ↔ v = (diagonal_step model_matrix (Mat.ofRow ys) (Mat.ofRow mu) theta).toVec
                model_matrix.n_cols) := by
  have hentry : ∀ j : Fin model_matrix.n_cols,
      (diagonal_info_vec model_matrix (Mat.ofRow mu) theta).at_ j
          = ((model_matrix.toMatrix model_matrix.n_rows model_matrix.n_cols).transpose
              * Matrix.diagonal (fun s : Fin model_matrix.n_rows => weight theta (mu.getD s 0))
              * model_matrix.toMatrix model_matrix.n_rows model_matrix.n_cols) j j
        ∧ (diagonal_score_vec model_matrix (Mat.ofRow ys) (Mat.ofRow mu) theta).at_ j
          = Matrix.mulVec
              (model_matrix.toMatrix model_matrix.n_rows model_matrix.n_cols).transpose
              (Matrix.mulVec
                (Matrix.diagonal (fun s : Fin model_matrix.n_rows => weight theta (mu.getD s 0)))
                (fun s : Fin model_matrix.n_rows => residual (ys.getD s 0) (mu.getD s 0))) j := by
    intro j
    constructor
    · rw [diagonal_info_vec_at model_matrix mu theta hmu j j.isLt, information_apply,
        Finset.sum_range]
      apply Finset.sum_congr rfl
      intro s _
      simp only [Mat.toMatrix]
      ring
    · rw [diagonal_score_vec_at model_matrix ys mu theta hys hmu j j.isLt, score_apply,
        Finset.sum_range]
      apply Finset.sum_congr rfl
      intro s _
      simp only [Mat.toMatrix]
      ring
  refine ⟨fun j => ⟨(hentry j).1, diagonal_info_vec_at model_matrix mu theta hmu j j.isLt,
    (hentry j).2, diagonal_step_at model_matrix ys mu theta j j.isLt⟩, ?_⟩
  intro hoff hdiag v
  rw [diagonal_normal_equations _ _ _ v hoff hdiag]
  have hstep : (diagonal_step model_matrix (Mat.ofRow ys) (Mat.ofRow mu) theta).toVec
      model_matrix.n_cols
      = fun j => Matrix.mulVec
          (model_matrix.toMatrix model_matrix.n_rows model_matrix.n_cols).transpose
          (Matrix.mulVec
            (Matrix.diagonal (fun s : Fin model_matrix.n_rows => weight theta (mu.getD s 0)))
            (fun s : Fin model_matrix.n_rows => residual (ys.getD s 0) (mu.getD s 0))) j
        / ((model_matrix.toMatrix model_matrix.n_rows model_matrix.n_cols).transpose
            * Matrix.diagonal (fun s : Fin model_matrix.n_rows => weight theta (mu.getD s 0))
            * model_matrix.toMatrix model_matrix.n_rows model_matrix.n_cols) j j := by
    funext j
    simp only [Mat.toVec]
    rw [diagonal_step_at model_matrix ys mu theta j j.isLt, (hentry j).1, (hentry j).2]
  rw [hstep]

/-- The normal equations with a decomposition of the weighted design matrix:
if `Q * R = diag(sw) * X` with `sw * sw = w`, `Q^T * Q = 1`, `R` is invertible
and `R * step = Q^T * (diag(sw) * z)`, then `step` is the one solution of
`(X^T W X) v = X^T W z`. -/
theorem qr_normal_equations {α : Type} [LinearOrderedField α] (n p : Nat)
    (X Q : Matrix (Fin n) (Fin p) α) (R : Matrix (Fin p) (Fin p) α) (w sw z : Fin n → α)
    (hsw : ∀ s, sw s * sw s = w s) (hQR : Q * R = Matrix.diagonal sw * X)
    (hQ : Q.transpose * Q = 1) (hR : IsUnit R.det) (step : Fin p → α)
    (hstep : Matrix.mulVec R step
      = Matrix.mulVec Q.transpose (Matrix.mulVec (Matrix.diagonal sw) z))
    (v : Fin p → α) :
    Matrix.mulVec (X.transpose * Matrix.diagonal w * X) v
        = Matrix.mulVec X.transpose (Matrix.mulVec (Matrix.diagonal w) z)
      ↔ v = step := by
  have hW : Matrix.diagonal w = Matrix.diagonal sw * Matrix.diagonal sw := by
    rw [Matrix.diagonal_mul_diagonal]
    have hfun : w = fun s => sw s * sw s := funext fun s => (hsw s).symm
    rw [hfun]
  have hA : (Matrix.diagonal sw * X).transpose = X.transpose * Matrix.diagonal sw := by
    rw [Matrix.transpose_mul, Matrix.diagonal_transpose]
  have hinfo : X.transpose * Matrix.diagonal w * X = R.transpose * R := by
    calc X.transpose * Matrix.diagonal w * X
        = (X.transpose * Matrix.diagonal sw) * (Matrix.diagonal sw * X) := by
          rw [hW]
          simp only [Matrix.mul_assoc]
      _ = (Q * R).transpose * (Q * R) := by rw [← hA, hQR]
      _ = R.transpose * (Q.transpose * Q) * R := by
          rw [Matrix.transpose_mul]
          simp only [Matrix.mul_assoc]
      _ = R.transpose * R := by rw [hQ, Matrix.mul_one]
  have hrhs : Matrix.mulVec X.transpose (Matrix.mulVec (Matrix.diagonal w) z)
      = Matrix.mulVec (R.transpose * R) step := by
    calc Matrix.mulVec X.transpose (Matrix.mulVec (Matrix.diagonal w) z)
        = Matrix.mulVec (X.transpose * Matrix.diagonal sw)
            (Matrix.mulVec (Matrix.diagonal sw) z) := by
          rw [hW]
          simp only [Matrix.mulVec_mulVec, Matrix.mul_assoc]
      _ = Matrix.mulVec (Q * R).transpose (Matrix.mulVec (Matrix.diagonal sw) z) := by
          rw [← hA, hQR]
      _ = Matrix.mulVec R.transpose
            (Matrix.mulVec Q.transpose (Matrix.mulVec (Matrix.diagonal sw) z)) := by
          rw [Matrix.transpose_mul]
          simp only [Matrix.mulVec_mulVec, Matrix.mul_assoc]
      _ = Matrix.mulVec (R.transpose * R) step := by
          rw [← hstep, Matrix.mulVec_mulVec]
  have hunit : IsUnit (R.transpose * R).det := by
    rw [Matrix.det_mul]
    exact (Matrix.isUnit_det_transpose R hR).mul hR
  have hinj := Matrix.mulVec_injective_iff_isUnit.mpr
    ((Matrix.isUnit_iff_isUnit_det _).mpr hunit)
  rw [hinfo, hrhs]
  constructor
  · intro h
    exact hinj h
  · intro h
    rw [h]

theorem w_vec_length {α : Type} [LinearOrderedField α] (mu : List α) (theta : α) :
    (w_vec (Mat.ofRow mu) theta).mem.length = mu.length := by
  simp [w_vec, Mat.t, Mat.ofFn, Mat.zipWith, Mat.ofRow]

theorem map_at {α : Type} [Zero α] (f : α → α) (m : Mat α) (i : Nat) (hi : i < m.mem.length) :
    (Mat.map f m).at_ i = f (m.at_ i) := by
  simp [Mat.at_, Mat.map, List.getD_eq_getElem?_getD, List.getElem?_eq_getElem hi]

theorem sqrt_w_vec_at {α : Type} [LinearOrderedField α] (L : NumLib α) (mu : List α) (theta : α)
    (s : Nat) (hs : s < mu.length) :
    (Mat.map L.sqrt (w_vec (Mat.ofRow mu) theta)).at_ s = L.sqrt (weight theta (mu.getD s 0)) := by
  rw [map_at _ _ s (by rw [w_vec_length]; exact hs), (w_vec_ofRow mu theta).2.2 s hs]

/-- The weighted design matrix of line 127 is `diag(sqrt(w)) * X`. -/
theorem fisher_weighted_model_matrix_toMatrix {α : Type} [LinearOrderedField α] (L : NumLib α)
    (model_matrix : Mat α) (mu : List α) (theta : α) (hmu : mu.length = model_matrix.n_rows) :
    (fisher_weighted_model_matrix L model_matrix (Mat.ofRow mu) theta).toMatrix
        model_matrix.n_rows model_matrix.n_cols
      = Matrix.diagonal
          (fun s : Fin model_matrix.n_rows => L.sqrt (weight theta (mu.getD s 0)))
        * model_matrix.toMatrix model_matrix.n_rows model_matrix.n_cols := by
  funext s j
  rw [Matrix.diagonal_mul]
  simp only [Mat.toMatrix, fisher_weighted_model_matrix]
  rw [(each_col_schur_get model_matrix _ s j s.isLt j.isLt).2.2,
    sqrt_w_vec_at L mu theta s (by rw [hmu]; exact s.isLt), mul_comm]

theorem trimatu_toMatrix {α : Type} [LinearOrderedField α] (r : Mat α) (p : Nat)
    (hrows : r.n_rows = p) (hcols : r.n_cols = p)
    (htri : ∀ i j, i < p → j < p → j < i → r.get i j = 0) :
    (Mat.trimatu r).toMatrix p p = r.toMatrix p p := by
  funext i j
  simp only [Mat.toMatrix, Mat.trimatu]
  rw [get_ofFn _ _ _ i j (by rw [hrows]; exact i.isLt) (by rw [hcols]; exact j.isLt)]
  split_ifs with h
  · rfl
  · exact (htri i j i.isLt j.isLt (by omega)).symm

theorem fisher_score_vec_at {α : Type} [LinearOrderedField α] (L : NumLib α)
    (q : Mat α) (ys mu : List α) (theta : α) (n p : Nat) (hys : ys.length = n)
    (hmu : mu.length = n) (hqr : q.n_rows = n) (hqc : q.n_cols = p) (j : Nat) (hj : j < p) :
    (fisher_score_vec L q (Mat.ofRow ys) (Mat.ofRow mu) theta).n_rows = 1
      ∧ (fisher_score_vec L q (Mat.ofRow ys) (Mat.ofRow mu) theta).n_cols = p
      ∧ (fisher_score_vec L q (Mat.ofRow ys) (Mat.ofRow mu) theta).get 0 j
        = ∑ s in Finset.range n,
            residual (ys.getD s 0) (mu.getD s 0)
              * (q.get s j * L.sqrt (weight theta (mu.getD s 0))) := by
  have hshape : fisher_score_vec L q (Mat.ofRow ys) (Mat.ofRow mu) theta
      = Mat.ofFn 1 q.n_cols (fun r c =>
          ((List.range ys.length).map fun k =>
            (working_residual (Mat.ofRow ys) (Mat.ofRow mu)).get r k
              * (Mat.each_col_schur q (Mat.map L.sqrt (w_vec (Mat.ofRow mu) theta))).get k
                  c).sum) :=
    rfl
  refine ⟨rfl, hqc, ?_⟩
  rw [hshape, get_ofFn _ _ _ 0 j (by norm_num) (by rw [hqc]; exact hj), sum_range_map, hys]
  apply Finset.sum_congr rfl
  intro s hs
  have hs' : s < n := Finset.mem_range.mp hs
  rw [(working_residual_ofRow ys mu (hys.trans hmu.symm)).2.2 s (by rw [hys]; exact hs'),
    (each_col_schur_get q _ s j (by rw [hqr]; exact hs') (by rw [hqc]; exact hj)).2.2,
    sqrt_w_vec_at L mu theta s (by rw [hmu]; exact hs')]

/-- The step of lines 123-132 solves the weighted normal equations: with a
square root that squares to the weights, an economy decomposition of the
weighted design matrix and a solution of the triangular system, `step` is the
one solution of `(X^T W X) v = X^T W z`. -/
theorem fisher_step_solves {α : Type} [LinearOrderedField α] (L : NumLib α)
    (model_matrix : Mat α) (ys mu : List α) (theta : α)
    (hys : ys.length = model_matrix.n_rows) (hmu : mu.length = model_matrix.n_rows)
    (hsqrt : ∀ s, s < model_matrix.n_rows →
      L.sqrt (weight theta (mu.getD s 0)) * L.sqrt (weight theta (mu.getD s 0))
        = weight theta (mu.getD s 0))
    (hqr : IsEconQR
      (L.qr_econ (fisher_weighted_model_matrix L model_matrix (Mat.ofRow mu) theta)).1
      (L.qr_econ (fisher_weighted_model_matrix L model_matrix (Mat.ofRow mu) theta)).2
      (fisher_weighted_model_matrix L model_matrix (Mat.ofRow mu) theta)
      model_matrix.n_rows model_matrix.n_cols)
    (hsolve : SolvesUpper L.solve
      (L.qr_econ (fisher_weighted_model_matrix L model_matrix (Mat.ofRow mu) theta)).2
      model_matrix.n_cols)
    (v : Fin model_matrix.n_cols → α) :
    Matrix.mulVec
        ((model_matrix.toMatrix model_matrix.n_rows model_matrix.n_cols).transpose
          * Matrix.diagonal (fun s : Fin model_matrix.n_rows => weight theta (mu.getD s 0))
          * model_matrix.toMatrix model_matrix.n_rows model_matrix.n_cols) v
      = Matrix.mulVec
          (model_matrix.toMatrix model_matrix.n_rows model_matrix.n_cols).transpose
          (Matrix.mulVec
            (Matrix.diagonal (fun s : Fin model_matrix.n_rows => weight theta (mu.getD s 0)))
            (fun s : Fin model_matrix.n_rows => residual (ys.getD s 0) (mu.getD s 0)))
      ↔ v = (fisher_step L model_matrix (Mat.ofRow ys) (Mat.ofRow mu) theta).toVec
          model_matrix.n_cols := by
  obtain ⟨hq1, hq2, hr1, hr2, htri, hQR, hQ, hR⟩ := hqr
  generalize hqdef :
    (L.qr_econ (fisher_weighted_model_matrix L model_matrix (Mat.ofRow mu) theta)).1 = q
    at hq1 hq2 hQR hQ
  generalize hrdef :
    (L.qr_econ (fisher_weighted_model_matrix L model_matrix (Mat.ofRow mu) theta)).2 = r
    at hr1 hr2 htri hQR hR hsolve
  have hstepdef : fisher_step L model_matrix (Mat.ofRow ys) (Mat.ofRow mu) theta
      = Mat.t (L.solve (Mat.trimatu r)
          (Mat.t (fisher_score_vec L q (Mat.ofRow ys) (Mat.ofRow mu) theta))) := by
    rw [← hqdef, ← hrdef]
    rfl
  have hscols : (fisher_score_vec L q (Mat.ofRow ys) (Mat.ofRow mu) theta).n_cols
      = model_matrix.n_cols := hq2
  have hsrows : (fisher_score_vec L q (Mat.ofRow ys) (Mat.ofRow mu) theta).n_rows = 1 := rfl
  have hbdef : Mat.t (fisher_score_vec L q (Mat.ofRow ys) (Mat.ofRow mu) theta)
      = Mat.ofFn model_matrix.n_cols 1 (fun r c =>
          (fisher_score_vec L q (Mat.ofRow ys) (Mat.ofRow mu) theta).get c r) := by
    unfold Mat.t
    rw [hscols, hsrows]
  obtain ⟨hx1, hx2, hx3⟩ := hsolve
    (Mat.t (fisher_score_vec L q (Mat.ofRow ys) (Mat.ofRow mu) theta))
    (by rw [hbdef]; rfl) (by rw [hbdef]; rfl)
  generalize hxdef : L.solve (Mat.trimatu r)
    (Mat.t (fisher_score_vec L q (Mat.ofRow ys) (Mat.ofRow mu) theta)) = x
    at hx1 hx2 hx3 hstepdef
  have htx : Mat.t x = Mat.ofFn 1 model_matrix.n_cols (fun r c => x.get c r) := by
    unfold Mat.t
    rw [hx1, hx2]
  have hstepv : (fisher_step L model_matrix (Mat.ofRow ys) (Mat.ofRow mu) theta).toVec
      model_matrix.n_cols = fun j : Fin model_matrix.n_cols => x.get j 0 := by
    funext j
    simp only [Mat.toVec]
    rw [hstepdef, htx, at_ofFn_row _ _ j j.isLt]
  rw [hstepv]
  apply qr_normal_equations model_matrix.n_rows model_matrix.n_cols
    (model_matrix.toMatrix model_matrix.n_rows model_matrix.n_cols)
    (q.toMatrix model_matrix.n_rows model_matrix.n_cols)
    (r.toMatrix model_matrix.n_cols model_matrix.n_cols)
    (fun s : Fin model_matrix.n_rows => weight theta (mu.getD s 0))
    (fun s : Fin model_matrix.n_rows => L.sqrt (weight theta (mu.getD s 0)))
    (fun s : Fin model_matrix.n_rows => residual (ys.getD s 0) (mu.getD s 0))
    (fun s => hsqrt s s.isLt)
    (by rw [hQR, fisher_weighted_model_matrix_toMatrix L model_matrix mu theta hmu])
    hQ hR
  funext j
  rw [score_apply]
  have hj := congrFun (congrFun hx3 j) (0 : Fin 1)
  rw [trimatu_toMatrix r model_matrix.n_cols hr1 hr2 htri, Matrix.mul_apply] at hj
  have hb : (Mat.t (fisher_score_vec L q (Mat.ofRow ys) (Mat.ofRow mu) theta)).toMatrix
      model_matrix.n_cols 1 j 0
      = ∑ s : Fin model_matrix.n_rows,
          q.toMatrix model_matrix.n_rows model_matrix.n_cols s j
            * (L.sqrt (weight theta (mu.getD s 0)) * residual (ys.getD s 0) (mu.getD s 0)) := by
    simp only [Mat.toMatrix, Fin.val_zero]
    rw [hbdef, get_ofFn _ _ _ j 0 j.isLt (by norm_num),
      (fisher_score_vec_at L q ys mu theta model_matrix.n_rows model_matrix.n_cols hys hmu
        hq1 hq2 j j.isLt).2.2,
      Finset.sum_range]
    apply Finset.sum_congr rfl
    intro s _
    ring
  rw [← hb, ← hj]
  rfl

/-- C14. In `fitBeta_fisher_scoring_impl`, with the weights
`w = mu / (1 + theta * mu)` non-negative, `W = diag(w)`, the design matrix `X`
and `z = (counts - mu) / mu`: the weighted design matrix of line 127 is
`sqrt(W) * X`, and for every economy decomposition `q * r` of it with
orthonormal columns of `q` and an invertible upper triangular `r`, the step
obtained from `r * step = z * (sqrt(W) * q)` is the one solution of the
weighted normal equations `(X^T W X) v = X^T W z`. -/
theorem fisher_step_normal_equations (L : NumLib ℝ) (model_matrix : Mat ℝ) (ys mu : List ℝ)
    (theta : ℝ) (v : Fin model_matrix.n_cols → ℝ) (hsqrt : L.sqrt = Real.sqrt)
    (hys : ys.length = model_matrix.n_rows) (hmu : mu.length = model_matrix.n_rows)
    (hw : ∀ s, s < model_matrix.n_rows → 0 ≤ weight theta (mu.getD s 0))
    (hqr : IsEconQR
      (L.qr_econ (fisher_weighted_model_matrix L model_matrix (Mat.ofRow mu) theta)).1
      (L.qr_econ (fisher_weighted_model_matrix L model_matrix (Mat.ofRow mu) theta)).2
      (fisher_weighted_model_matrix L model_matrix (Mat.ofRow mu) theta)
      model_matrix.n_rows model_matrix.n_cols)
    (hsolve : SolvesUpper L.solve
      (L.qr_econ (fisher_weighted_model_matrix L model_matrix (Mat.ofRow mu) theta)).2
      model_matrix.n_cols) :
    (fisher_weighted_model_matrix L model_matrix (Mat.ofRow mu) theta).toMatrix
        model_matrix.n_rows model_matrix.n_cols
        = Matrix.diagonal
            (fun s : Fin model_matrix.n_rows => Real.sqrt (weight theta (mu.getD s 0)))
          * model_matrix.toMatrix model_matrix.n_rows model_matrix.n_cols
      ∧ (Matrix.mulVec
          ((model_matrix.toMatrix model_matrix.n_rows model_matrix.n_cols).transpose
            * Matrix.diagonal (fun s : Fin model_matrix.n_rows => weight theta (mu.getD s 0))
            * model_matrix.toMatrix model_matrix.n_rows model_matrix.n_cols) v
        = Matrix.mulVec
            (model_matrix.toMatrix model_matrix.n_rows model_matrix.n_cols).transpose
            (Matrix.mulVec
              (Matrix.diagonal (fun s : Fin model_matrix.n_rows => weight theta (mu.getD s 0)))
              (fun s : Fin model_matrix.n_rows => residual (ys.getD s 0) (mu.getD s 0)))
        ↔ v = (fisher_step L model_matrix (Mat.ofRow ys) (Mat.ofRow mu) theta).toVec
            model_matrix.n_cols) := by
  constructor
  · rw [fisher_weighted_model_matrix_toMatrix L model_matrix mu theta hmu, hsqrt]
  · apply fisher_step_solves L model_matrix ys mu theta hys hmu _ hqr hsolve
    intro s hs
    rw [hsqrt]
    exact Real.mul_self_sqrt (hw s hs)

/-! ### One sample and one coefficient: a decomposition and a triangular solve -/

/-- For a design of one row and one column, the pair `([1], A)` is an economy
decomposition of the weighted design matrix `A` when its entry is not zero,
and the entry-wise quotient solves the triangular system. -/
theorem qr_ofRow_one (exp log : ℝ → ℝ) (x m theta : ℝ)
    (hne : x * Real.sqrt (weight theta m) ≠ 0) :
    IsEconQR
        ((⟨exp, log, Real.sqrt, fun A => (Mat.ofRow [1], A),
          fun r b => Mat.zipWith (· / ·) b r⟩ : NumLib ℝ).qr_econ
          (fisher_weighted_model_matrix ⟨exp, log, Real.sqrt, fun A => (Mat.ofRow [1], A),
            fun r b => Mat.zipWith (· / ·) b r⟩ (Mat.ofRow [x]) (Mat.ofRow [m]) theta)).1
        ((⟨exp, log, Real.sqrt, fun A => (Mat.ofRow [1], A),
          fun r b => Mat.zipWith (· / ·) b r⟩ : NumLib ℝ).qr_econ
          (fisher_weighted_model_matrix ⟨exp, log, Real.sqrt, fun A => (Mat.ofRow [1], A),
            fun r b => Mat.zipWith (· / ·) b r⟩ (Mat.ofRow [x]) (Mat.ofRow [m]) theta)).2
        (fisher_weighted_model_matrix ⟨exp, log, Real.sqrt, fun A => (Mat.ofRow [1], A),
          fun r b => Mat.zipWith (· / ·) b r⟩ (Mat.ofRow [x]) (Mat.ofRow [m]) theta)
        (Mat.ofRow [x]).n_rows (Mat.ofRow [x]).n_cols
      ∧ SolvesUpper
        (⟨exp, log, Real.sqrt, fun A => (Mat.ofRow [1], A),
          fun r b => Mat.zipWith (· / ·) b r⟩ : NumLib ℝ).solve
        ((⟨exp, log, Real.sqrt, fun A => (Mat.ofRow [1], A),
          fun r b => Mat.zipWith (· / ·) b r⟩ : NumLib ℝ).qr_econ
          (fisher_weighted_model_matrix ⟨exp, log, Real.sqrt, fun A => (Mat.ofRow [1], A),
            fun r b => Mat.zipWith (· / ·) b r⟩ (Mat.ofRow [x]) (Mat.ofRow [m]) theta)).2
        (Mat.ofRow [x]).n_cols := by
  have hA : fisher_weighted_model_matrix ⟨exp, log, Real.sqrt, fun A => (Mat.ofRow [1], A),
      fun r b => Mat.zipWith (· / ·) b r⟩ (Mat.ofRow [x]) (Mat.ofRow [m]) theta
      = Mat.ofRow [x * Real.sqrt (weight theta m)] := by
    simp [fisher_weighted_model_matrix, w_vec, weight, Mat.zipWith, Mat.map, Mat.t, Mat.ofFn,
      Mat.ofRow, Mat.get, Mat.at_, Mat.each_col_schur, List.range_succ]
  have hT : Mat.trimatu (Mat.ofRow [x * Real.sqrt (weight theta m)])
      = Mat.ofRow [x * Real.sqrt (weight theta m)] := by
    simp [Mat.trimatu, Mat.ofFn, Mat.ofRow, Mat.get, List.range_succ]
  rw [hA]
  show IsEconQR (Mat.ofRow [1]) (Mat.ofRow [x * Real.sqrt (weight theta m)])
      (Mat.ofRow [x * Real.sqrt (weight theta m)]) 1 1
    ∧ SolvesUpper (fun r b => Mat.zipWith (· / ·) b r)
      (Mat.ofRow [x * Real.sqrt (weight theta m)]) 1
  refine ⟨⟨rfl, rfl, rfl, rfl, ?_, ?_, ?_, ?_⟩, ?_⟩
  · intro i j hi hj hji
    omega
  · funext i j
    simp [Matrix.mul_apply, Mat.toMatrix, Mat.get, Mat.ofRow]
  · funext i j
    simp [Matrix.mul_apply, Mat.toMatrix, Mat.get, Mat.ofRow, Matrix.one_apply,
      Subsingleton.elim i j]
  · rw [Matrix.det_fin_one]
    simpa [Mat.toMatrix, Mat.get, Mat.ofRow] using hne
  · intro b hr hc
    rw [hT]
    refine ⟨hr, hc, ?_⟩
    funext i j
    have hi : i = 0 := Subsingleton.elim i 0
    have hj : j = 0 := Subsingleton.elim j 0
    subst hi hj
    rcases b with ⟨br, bc, bm⟩
    cases bm with
    | nil => simp [Matrix.mul_apply, Mat.toMatrix, Mat.get, Mat.ofRow, Mat.zipWith]
    | cons b0 bs =>
      simp [Matrix.mul_apply, Mat.toMatrix, Mat.get, Mat.ofRow, Mat.zipWith]
      field_simp

/-- C14 on the design `[1]` with the fitted mean `1`, the count `4` and
`theta = 0`, with the decomposition `([1], A)`: the step of `fisher_step`
solves the normal equations. -/
theorem fisher_step_normal_equations_witness :
    Matrix.mulVec
        (((Mat.ofRow [1] : Mat ℝ).toMatrix 1 1).transpose
          * Matrix.diagonal (fun s : Fin 1 => weight (0 : ℝ) (([1] : List ℝ).getD s 0))
          * (Mat.ofRow [1] : Mat ℝ).toMatrix 1 1)
        ((fisher_step ⟨Real.exp, Real.log, Real.sqrt, fun A => (Mat.ofRow [1], A),
            fun r b => Mat.zipWith (· / ·) b r⟩ (Mat.ofRow [1]) (Mat.ofRow [4]) (Mat.ofRow [1])
            0).toVec 1)
      = Matrix.mulVec ((Mat.ofRow [1] : Mat ℝ).toMatrix 1 1).transpose
          (Matrix.mulVec
            (Matrix.diagonal (fun s : Fin 1 => weight (0 : ℝ) (([1] : List ℝ).getD s 0)))
            (fun s : Fin 1 => residual (([4] : List ℝ).getD s 0) (([1] : List ℝ).getD s 0))) :=
  ((fisher_step_normal_equations
    ⟨Real.exp, Real.log, Real.sqrt, fun A => (Mat.ofRow [1], A),
      fun r b => Mat.zipWith (· / ·) b r⟩ (Mat.ofRow [1]) [4] [1] 0
    ((fisher_step ⟨Real.exp, Real.log, Real.sqrt, fun A => (Mat.ofRow [1], A),
      fun r b => Mat.zipWith (· / ·) b r⟩ (Mat.ofRow [1]) (Mat.ofRow [4]) (Mat.ofRow [1])
      0).toVec 1)
    rfl rfl rfl
    (by
      intro s hs
      have h0 : s = 0 := by
        simp only [Mat.ofRow, List.length_singleton] at hs
        omega
      subst h0
      norm_num [weight])
    (qr_ofRow_one Real.exp Real.log 1 1 0 (by norm_num [weight])).1
    (qr_ofRow_one Real.exp Real.log 1 1 0 (by norm_num [weight])).2).2).mpr rfl

/-- C15 on the two-by-two identity design with the fitted means `[1, 1]`, the
counts `[4, 2]` and `theta = 0`. -/
theorem diagonal_step_spec_witness :
    (diagonal_step (⟨2, 2, [1, 0, 0, 1]⟩ : Mat ℚ) (Mat.ofRow [4, 2]) (Mat.ofRow [1, 1]) 0).at_
        ((⟨0, by decide⟩ : Fin 2) : Nat)
      = (diagonal_score_vec (⟨2, 2, [1, 0, 0, 1]⟩ : Mat ℚ) (Mat.ofRow [4, 2])
            (Mat.ofRow [1, 1]) 0).at_ ((⟨0, by decide⟩ : Fin 2) : Nat)
        / (diagonal_info_vec (⟨2, 2, [1, 0, 0, 1]⟩ : Mat ℚ) (Mat.ofRow [1, 1]) 0).at_
            ((⟨0, by decide⟩ : Fin 2) : Nat) :=
  ((diagonal_step_spec (⟨2, 2, [1, 0, 0, 1]⟩ : Mat ℚ) [4, 2] [1, 1] 0 rfl rfl).1
    ⟨0, by decide⟩).2.2.2

/-! ## The Fisher-scoring step and the Newton step of one group -/

theorem clamp_inplace_of_mem {α : Type} [LinearOrderedField α] (v : Mat α) (lo hi : α)
    (h : ∀ x ∈ v.mem, lo ≤ x ∧ x ≤ hi) : clamp_inplace v lo hi = v := by
  have h1 : (clamp_inplace v lo hi).n_rows = v.n_rows := (clamp_inplace_fold v lo hi v.n_elem).1
  have h2 : (clamp_inplace v lo hi).n_cols = v.n_cols :=
    (clamp_inplace_fold v lo hi v.n_elem).2.1
  have h3 : (clamp_inplace v lo hi).mem = v.mem := by
    apply List.ext_getElem?
    intro i
    rw [clamp_inplace_getElem?]
    split_ifs with hi'
    · cases hx : v.mem[i]? with
      | none => rfl
      | some x =>
        have hmem : x ∈ v.mem := List.getElem?_mem hx
        simp [clamp_value_of_mem lo hi x (h x hmem).1 (h x hmem).2]
    · rfl
  generalize clamp_inplace v lo hi = c at h1 h2 h3
  cases c
  cases v
  simp only at h1 h2 h3
  rw [h1, h2, h3]

/-- The fitted means of an intercept-only design: when no product
`exp_off[s] * exp(beta)` leaves `[1e-50, 1e50]`, the clamp changes nothing and
`mu_hat[s] = exp_off[s] * exp(beta)`. -/
theorem fitted_mean_intercept {α : Type} [LinearOrderedField α] (L : NumLib α) (n : Nat)
    (e : List α) (b : α) (hlen : e.length = n)
    (hin : ∀ x ∈ e, (1e-50 : α) ≤ x * L.exp b ∧ x * L.exp b ≤ 1e50) :
    fitted_mean L (Mat.ofFn n 1 fun _ _ => 1) (Mat.ofRow e) (Mat.ofRow [b])
      = Mat.ofRow (e.map fun x => x * L.exp b) := by
  have hmem : List.zipWith (· * ·) e
      ((List.range (1 * n)).map fun i =>
        L.exp ((List.range 1).map fun k =>
          (Mat.ofRow [b]).get (i % 1) k
            * (Mat.t (Mat.ofFn n 1 fun _ _ => (1 : α))).get k (i / 1)).sum)
      = e.map fun x => x * L.exp b := by
    apply List.ext_getElem
    · simp [hlen]
    · intro i h1 h2
      have hi : i < n := by
        simp at h2
        omega
      have hX : (Mat.t (Mat.ofFn n 1 fun _ _ => (1 : α))).get 0 i = 1 := by
        unfold Mat.t
        rw [show (Mat.ofFn n 1 fun _ _ => (1 : α)).n_cols = 1 from rfl,
          show (Mat.ofFn n 1 fun _ _ => (1 : α)).n_rows = n from rfl,
          get_ofFn 1 n _ 0 i (by norm_num) hi, get_ofFn n 1 _ i 0 hi (by norm_num)]
      have hb : (Mat.ofRow [b]).get 0 0 = b := by simp [Mat.get, Mat.ofRow]
      simp only [List.getElem_zipWith, List.getElem_map, List.getElem_range, List.range_succ,
        List.range_zero, List.nil_append, List.map_cons, List.map_nil, List.sum_cons,
        List.sum_nil, Nat.mod_one, Nat.div_one, hX, hb, mul_one, add_zero]
  have hpre : Mat.zipWith (· * ·) (Mat.ofRow e)
      (Mat.map L.exp (Mat.mul (Mat.ofRow [b]) (Mat.t (Mat.ofFn n 1 fun _ _ => 1))))
      = Mat.ofRow (e.map fun x => x * L.exp b) := by
    have hshape : Mat.zipWith (· * ·) (Mat.ofRow e)
        (Mat.map L.exp (Mat.mul (Mat.ofRow [b]) (Mat.t (Mat.ofFn n 1 fun _ _ => 1))))
        = ⟨1, e.length, List.zipWith (· * ·) e
            ((List.range (1 * n)).map fun i =>
              L.exp ((List.range 1).map fun k =>
                (Mat.ofRow [b]).get (i % 1) k
                  * (Mat.t (Mat.ofFn n 1 fun _ _ => (1 : α))).get k (i / 1)).sum)⟩ := by
      simp only [Mat.zipWith, Mat.map, Mat.mul, Mat.ofFn, List.map_map, Mat.ofRow,
        List.length_singleton, Mat.t, Function.comp_def]
    rw [hshape, hmem]
    simp [Mat.ofRow]
  unfold fitted_mean
  rw [hpre]
  apply clamp_inplace_of_mem
  intro x hx
  obtain ⟨y, hy, rfl⟩ := List.mem_map.mp hx
  exact hin y hy

/-- The normal equation of an intercept-only design is one scalar equation:
the sum of the weights times the Fisher-scoring step is the sum of the weighted
working residuals. -/
theorem fisher_step_intercept {α : Type} [LinearOrderedField α] (L : NumLib α) (n : Nat)
    (ys mu : List α) (theta : α) (hys : ys.length = n) (hmu : mu.length = n)
    (hsqrt : ∀ s, s < n →
      L.sqrt (weight theta (mu.getD s 0)) * L.sqrt (weight theta (mu.getD s 0))
        = weight theta (mu.getD s 0))
    (hqr : IsEconQR
      (L.qr_econ (fisher_weighted_model_matrix L (Mat.ofFn n 1 fun _ _ => 1) (Mat.ofRow mu)
        theta)).1
      (L.qr_econ (fisher_weighted_model_matrix L (Mat.ofFn n 1 fun _ _ => 1) (Mat.ofRow mu)
        theta)).2
      (fisher_weighted_model_matrix L (Mat.ofFn n 1 fun _ _ => 1) (Mat.ofRow mu) theta) n 1)
    (hsolve : SolvesUpper L.solve
      (L.qr_econ (fisher_weighted_model_matrix L (Mat.ofFn n 1 fun _ _ => 1) (Mat.ofRow mu)
        theta)).2 1) :
    (∑ s in Finset.range n, weight theta (mu.getD s 0))
        * (fisher_step L (Mat.ofFn n 1 fun _ _ => 1) (Mat.ofRow ys) (Mat.ofRow mu) theta).at_ 0
      = ∑ s in Finset.range n, weight theta (mu.getD s 0) * residual (ys.getD s 0) (mu.getD s 0) := by
  have h : Matrix.mulVec
        (((Mat.ofFn n 1 fun _ _ => (1 : α)).toMatrix n 1).transpose
          * Matrix.diagonal (fun s : Fin n => weight theta (mu.getD s 0))
          * (Mat.ofFn n 1 fun _ _ => (1 : α)).toMatrix n 1)
        ((fisher_step L (Mat.ofFn n 1 fun _ _ => 1) (Mat.ofRow ys) (Mat.ofRow mu) theta).toVec 1)
      = Matrix.mulVec ((Mat.ofFn n 1 fun _ _ => (1 : α)).toMatrix n 1).transpose
          (Matrix.mulVec (Matrix.diagonal (fun s : Fin n => weight theta (mu.getD s 0)))
            (fun s : Fin n => residual (ys.getD s 0) (mu.getD s 0))) :=
    (fisher_step_solves L (Mat.ofFn n 1 fun _ _ => 1) ys mu theta hys hmu hsqrt hqr
      hsolve _).mpr rfl
  have h0 := congrFun h 0
  have hX : ∀ s : Fin n, (Mat.ofFn n 1 fun _ _ => (1 : α)).toMatrix n 1 s 0 = 1 := by
    intro s
    simp only [Mat.toMatrix, Fin.val_zero]
    rw [get_ofFn n 1 _ s 0 s.isLt (by norm_num)]
  rw [score_apply] at h0
  simp only [Matrix.mulVec, Matrix.dotProduct, Fin.sum_univ_one, Fin.isValue] at h0
  rw [information_apply] at h0
  simp only [hX, one_mul, mul_one, Mat.toVec, Fin.val_zero] at h0
  rw [Finset.sum_range, Finset.sum_range]
  exact h0

/-- C12, with the clamp inactive. For an intercept-only design (one column of
ones), counts `≥ 0`, `theta ≥ 0`, `exp_off[s] = exp(off[s])`, an economy
decomposition and an exact triangular solve, and a `beta` at which every fitted
mean `exp_off[s] * exp(beta)` lies in `[1e-50, 1e50]`: the clamp leaves the
fitted means unchanged, the sum of the weights times the Fisher-scoring step
of `fitBeta_fisher_scoring_impl` is the first derivative `dl` of
`fitBeta_one_group_internal`, the second derivative `ddl` is positive, and so
the Fisher-scoring step and the Newton step `dl / ddl` have the same sign and
vanish together. -/
theorem fisher_step_sign_one_group (L : NumLib ℝ) (ys offs : List ℝ) (theta beta : ℝ)
    (hexp : L.exp = Real.exp) (hsqrt : L.sqrt = Real.sqrt)
    (hlen : offs.length = ys.length)
    (hys : ∀ y ∈ ys, 0 ≤ y) (htheta : 0 ≤ theta)
    (hclamp : ∀ o ∈ offs,
      (1e-50 : ℝ) ≤ Real.exp o * Real.exp beta ∧ Real.exp o * Real.exp beta ≤ 1e50)
    (hqr : IsEconQR
      (L.qr_econ (fisher_weighted_model_matrix L (Mat.ofFn ys.length 1 fun _ _ => 1)
        (fitted_mean L (Mat.ofFn ys.length 1 fun _ _ => 1) (Mat.ofRow (offs.map Real.exp))
          (Mat.ofRow [beta])) theta)).1
      (L.qr_econ (fisher_weighted_model_matrix L (Mat.ofFn ys.length 1 fun _ _ => 1)
        (fitted_mean L (Mat.ofFn ys.length 1 fun _ _ => 1) (Mat.ofRow (offs.map Real.exp))
          (Mat.ofRow [beta])) theta)).2
      (fisher_weighted_model_matrix L (Mat.ofFn ys.length 1 fun _ _ => 1)
        (fitted_mean L (Mat.ofFn ys.length 1 fun _ _ => 1) (Mat.ofRow (offs.map Real.exp))
          (Mat.ofRow [beta])) theta)
      ys.length 1)
    (hsolve : SolvesUpper L.solve
      (L.qr_econ (fisher_weighted_model_matrix L (Mat.ofFn ys.length 1 fun _ _ => 1)
        (fitted_mean L (Mat.ofFn ys.length 1 fun _ _ => 1) (Mat.ofRow (offs.map Real.exp))
          (Mat.ofRow [beta])) theta)).2 1) :
    fitted_mean L (Mat.ofFn ys.length 1 fun _ _ => 1) (Mat.ofRow (offs.map Real.exp))
        (Mat.ofRow [beta])
        = Mat.ofRow (offs.map fun o => Real.exp o * Real.exp beta)
      ∧ (∑ s in Finset.range ys.length, weight theta (Real.exp (beta + offs.getD s 0)))
          * (fisher_step L (Mat.ofFn ys.length 1 fun _ _ => 1) (Mat.ofRow ys)
              (fitted_mean L (Mat.ofFn ys.length 1 fun _ _ => 1)
                (Mat.ofRow (offs.map Real.exp)) (Mat.ofRow [beta])) theta).at_ 0
        = (newton_sums Real.exp ys.length (Mat.ofRow ys) (Mat.ofRow offs) theta beta).dl
      ∧ 0 < ∑ s in Finset.range ys.length, weight theta (Real.exp (beta + offs.getD s 0))
      ∧ 0 < (newton_sums Real.exp ys.length (Mat.ofRow ys) (Mat.ofRow offs) theta beta).ddl
      ∧ (0 < (fisher_step L (Mat.ofFn ys.length 1 fun _ _ => 1) (Mat.ofRow ys)
              (fitted_mean L (Mat.ofFn ys.length 1 fun _ _ => 1)
                (Mat.ofRow (offs.map Real.exp)) (Mat.ofRow [beta])) theta).at_ 0
          ↔ 0 < (newton_sums Real.exp ys.length (Mat.ofRow ys) (Mat.ofRow offs) theta beta).dl
              / (newton_sums Real.exp ys.length (Mat.ofRow ys) (Mat.ofRow offs) theta beta).ddl)
      ∧ ((fisher_step L (Mat.ofFn ys.length 1 fun _ _ => 1) (Mat.ofRow ys)
              (fitted_mean L (Mat.ofFn ys.length 1 fun _ _ => 1)
                (Mat.ofRow (offs.map Real.exp)) (Mat.ofRow [beta])) theta).at_ 0 = 0
          ↔ (newton_sums Real.exp ys.length (Mat.ofRow ys) (Mat.ofRow offs) theta beta).dl
              / (newton_sums Real.exp ys.length (Mat.ofRow ys) (Mat.ofRow offs) theta beta).ddl
            = 0)
      ∧ ((fisher_step L (Mat.ofFn ys.length 1 fun _ _ => 1) (Mat.ofRow ys)
              (fitted_mean L (Mat.ofFn ys.length 1 fun _ _ => 1)
                (Mat.ofRow (offs.map Real.exp)) (Mat.ofRow [beta])) theta).at_ 0 < 0
          ↔ (newton_sums Real.exp ys.length (Mat.ofRow ys) (Mat.ofRow offs) theta beta).dl
              / (newton_sums Real.exp ys.length (Mat.ofRow ys) (Mat.ofRow offs) theta beta).ddl
            < 0) := by
  have hfm : fitted_mean L (Mat.ofFn ys.length 1 fun _ _ => 1) (Mat.ofRow (offs.map Real.exp))
      (Mat.ofRow [beta]) = Mat.ofRow (offs.map fun o => Real.exp o * Real.exp beta) := by
    have h := fitted_mean_intercept L ys.length (offs.map Real.exp) beta (by simp [hlen])
      (by
        rw [hexp]
        intro x hx
        obtain ⟨o, ho, rfl⟩ := List.mem_map.mp hx
        exact hclamp o ho)
    rw [h, hexp, List.map_map]
    rfl
  rw [hfm] at hqr hsolve ⊢
  have hn : 1 ≤ ys.length := by
    by_contra hlt
    have h0 : ys.length = 0 := by omega
    have hQ := congrFun (congrFun hqr.2.2.2.2.2.2.1 0) 0
    rw [Matrix.mul_apply] at hQ
    have hempty : IsEmpty (Fin ys.length) := by
      rw [h0]
      infer_instance
    simp [Finset.univ_eq_empty] at hQ
  have hmus : ∀ s, s < ys.length →
      (offs.map fun o => Real.exp o * Real.exp beta).getD s 0
        = Real.exp (beta + offs.getD s 0) := by
    intro s hs
    have hs' : s < offs.length := by omega
    simp [List.getD_eq_getElem?_getD, List.getElem?_map, List.getElem?_eq_getElem hs',
      Real.exp_add, mul_comm]
  have hwpos : ∀ s, 0 < weight theta (Real.exp (beta + offs.getD s 0)) := by
    intro s
    have hmu : 0 < Real.exp (beta + offs.getD s 0) := Real.exp_pos _
    have h2 : 0 < 1 + theta * Real.exp (beta + offs.getD s 0) := by
      have := mul_nonneg htheta (le_of_lt hmu)
      linarith
    exact div_pos hmu h2
  have key := fisher_step_intercept L ys.length ys
    (offs.map fun o => Real.exp o * Real.exp beta) theta rfl (by simp [hlen])
    (by
      intro s hs
      rw [hsqrt, hmus s hs]
      exact Real.mul_self_sqrt (le_of_lt (hwpos s)))
    hqr hsolve
  have hS : (∑ s in Finset.range ys.length,
      weight theta ((offs.map fun o => Real.exp o * Real.exp beta).getD s 0))
      = ∑ s in Finset.range ys.length, weight theta (Real.exp (beta + offs.getD s 0)) := by
    apply Finset.sum_congr rfl
    intro s hs
    rw [hmus s (Finset.mem_range.mp hs)]
  have hdl : (∑ s in Finset.range ys.length,
      weight theta ((offs.map fun o => Real.exp o * Real.exp beta).getD s 0)
        * residual (ys.getD s 0) ((offs.map fun o => Real.exp o * Real.exp beta).getD s 0))
      = (newton_sums Real.exp ys.length (Mat.ofRow ys) (Mat.ofRow offs) theta beta).dl := by
    rw [(newton_sums_spec Real.exp ys.length (Mat.ofRow ys) (Mat.ofRow offs) theta beta).1,
      sum_range_map]
    apply Finset.sum_congr rfl
    intro s hs
    rw [hmus s (Finset.mem_range.mp hs)]
    have hmu : 0 < Real.exp (beta + offs.getD s 0) := Real.exp_pos _
    have h2 : 0 < 1 + theta * Real.exp (beta + offs.getD s 0) := by
      have := mul_nonneg htheta (le_of_lt hmu)
      linarith
    have h3 : 1 + Real.exp (beta + offs.getD s 0) * theta
        = 1 + theta * Real.exp (beta + offs.getD s 0) := by ring
    show weight theta (Real.exp (beta + offs.getD s 0))
        * residual (ys.getD s 0) (Real.exp (beta + offs.getD s 0))
      = (ys.getD s 0 - Real.exp (beta + offs.getD s 0))
          / (1 + Real.exp (beta + offs.getD s 0) * theta)
    rw [h3]
    unfold weight residual
    field_simp
    ring
  rw [hS, hdl] at key
  have hSpos : 0 < ∑ s in Finset.range ys.length,
      weight theta (Real.exp (beta + offs.getD s 0)) := by
    apply Finset.sum_pos
    · intro s _
      exact hwpos s
    · exact Finset.nonempty_range_iff.mpr (by omega)
  have hddl : 0 < (newton_sums Real.exp ys.length (Mat.ofRow ys) (Mat.ofRow offs) theta
      beta).ddl := by
    rw [(newton_sums_spec Real.exp ys.length (Mat.ofRow ys) (Mat.ofRow offs) theta beta).2.1]
    apply List.sum_pos
    · intro x hx
      obtain ⟨i, hi, rfl⟩ := List.mem_map.mp hx
      have hmu : 0 < Real.exp (beta + (Mat.ofRow offs).at_ i) := Real.exp_pos _
      have hc : 0 ≤ (Mat.ofRow ys).at_ i := by
        have hi' : i < ys.length := List.mem_range.mp hi
        have : (Mat.ofRow ys).at_ i = ys[i] := by
          simp [Mat.at_, Mat.ofRow, List.getD_eq_getElem?_getD, List.getElem?_eq_getElem hi']
        rw [this]
        exact hys _ (List.getElem_mem hi')
      have h1 : 0 < 1 + (Mat.ofRow ys).at_ i * theta := by
        have := mul_nonneg hc htheta
        linarith
      have h2 : 0 < 1 + Real.exp (beta + (Mat.ofRow offs).at_ i) * theta := by
        have := mul_nonneg (le_of_lt hmu) htheta
        linarith
      positivity
    · intro h
      have hl := congrArg List.length h
      simp only [List.length_map, List.length_range, List.length_nil] at hl
      omega
  generalize (fisher_step L (Mat.ofFn ys.length 1 fun _ _ => 1) (Mat.ofRow ys)
    (Mat.ofRow (offs.map fun o => Real.exp o * Real.exp beta)) theta).at_ 0 = t at key ⊢
  generalize (newton_sums Real.exp ys.length (Mat.ofRow ys) (Mat.ofRow offs) theta beta).dl
    = dl at key ⊢
  generalize (newton_sums Real.exp ys.length (Mat.ofRow ys) (Mat.ofRow offs) theta beta).ddl
    = ddl at hddl ⊢
  generalize (∑ s in Finset.range ys.length,
    weight theta (Real.exp (beta + offs.getD s 0))) = S at key hSpos ⊢
  refine ⟨rfl, key, hSpos, hddl, ?_, ?_, ?_⟩
  · rw [div_pos_iff_of_pos_right hddl, ← key]
    exact (mul_pos_iff_of_pos_left hSpos).symm
  · rw [div_eq_zero_iff, ← key]
    constructor
    · intro h
      left
      rw [h, mul_zero]
    · rintro (h | h)
      · rcases mul_eq_zero.mp h with h | h
        · exact absurd h (ne_of_gt hSpos)
        · exact h
      · exact absurd h (ne_of_gt hddl)
  · rw [div_neg_iff, ← key]
    constructor
    · intro h
      right
      exact ⟨mul_neg_of_pos_of_neg hSpos h, hddl⟩
    · rintro (⟨_, h⟩ | ⟨h, _⟩)
      · exact absurd h (not_lt.mpr (le_of_lt hddl))
      · by_contra hc
        exact absurd h (not_lt.mpr (mul_nonneg (le_of_lt hSpos) (not_lt.mp hc)))

/-- C12 on one sample with the count `4`, the offset `0`, `theta = 0` and
`beta = 0`, with the decomposition `([1], A)` of the one-by-one weighted design
matrix. -/
theorem fisher_step_sign_one_group_witness :
    (0 < (fisher_step ⟨Real.exp, Real.log, Real.sqrt, fun A => (Mat.ofRow [1], A),
              fun r b => Mat.zipWith (· / ·) b r⟩ (Mat.ofFn 1 1 fun _ _ => 1) (Mat.ofRow [4])
            (fitted_mean ⟨Real.exp, Real.log, Real.sqrt, fun A => (Mat.ofRow [1], A),
              fun r b => Mat.zipWith (· / ·) b r⟩ (Mat.ofFn 1 1 fun _ _ => 1)
              (Mat.ofRow [Real.exp 0]) (Mat.ofRow [0])) 0).at_ 0
      ↔ 0 < (newton_sums Real.exp 1 (Mat.ofRow [4]) (Mat.ofRow [0]) 0 0).dl
          / (newton_sums Real.exp 1 (Mat.ofRow [4]) (Mat.ofRow [0]) 0 0).ddl) := by
  have hX : Mat.ofFn ([4] : List ℝ).length 1 (fun _ _ => (1 : ℝ)) = Mat.ofRow [1] := by
    simp [Mat.ofFn, Mat.ofRow, List.range_succ]
  have hm : clamp_value (1e-50 : ℝ) 1e50 (Real.exp 0 * Real.exp (0 * 1)) = 1 := by
    rw [zero_mul, Real.exp_zero, mul_one]
    exact clamp_value_of_mem _ _ _ (by norm_num) (by norm_num)
  have hne : (1 : ℝ) * Real.sqrt (weight 0 1) ≠ 0 := by norm_num [weight]
  exact (fisher_step_sign_one_group
    ⟨Real.exp, Real.log, Real.sqrt, fun A => (Mat.ofRow [1], A),
      fun r b => Mat.zipWith (· / ·) b r⟩ [4] [0] 0 0 rfl rfl rfl
    (by norm_num) (le_refl 0)
    (by
      intro o ho
      rw [List.mem_singleton] at ho
      subst ho
      norm_num [Real.exp_zero])
    (by
      rw [hX, List.map_cons, List.map_nil, fitted_mean_ofRow_one]
      simp only [hm]
      exact (qr_ofRow_one Real.exp Real.log 1 1 0 hne).1)
    (by
      rw [hX, List.map_cons, List.map_nil, fitted_mean_ofRow_one]
      simp only [hm]
      exact (qr_ofRow_one Real.exp Real.log 1 1 0 hne).2)).2.2.2.2.1

/-- C12 fails where the clamp of the fitted means acts. One sample with the
count `1e55` and the offset `log 1e60` (so `exp_off = 1e60`), an intercept-only
design, `theta = 0` and `beta = 0`, with the decomposition `([1], A)` of the
one-by-one weighted design matrix `A`, which is an economy decomposition with
an exact triangular solve. `fitBeta_fisher_scoring_impl` clamps the fitted mean
`1e60` to `1e50`, which is below the count, and its step is positive;
`fitBeta_one_group_internal` uses the mean `1e60`, which is above the count,
and its step `dl / ddl` is negative. -/
theorem fisher_step_sign_differs :
    Real.exp (Real.log 1e60) = 1e60
      ∧ fitted_mean ⟨Real.exp, Real.log, Real.sqrt, fun A => (Mat.ofRow [1], A),
            fun r b => Mat.zipWith (· / ·) b r⟩ (Mat.ofFn 1 1 fun _ _ => 1)
          (Mat.ofRow [Real.exp (Real.log 1e60)]) (Mat.ofRow [0]) = Mat.ofRow [1e50]
      ∧ IsEconQR
          ((⟨Real.exp, Real.log, Real.sqrt, fun A => (Mat.ofRow [1], A),
            fun r b => Mat.zipWith (· / ·) b r⟩ : NumLib ℝ).qr_econ
            (fisher_weighted_model_matrix ⟨Real.exp, Real.log, Real.sqrt,
              fun A => (Mat.ofRow [1], A), fun r b => Mat.zipWith (· / ·) b r⟩
              (Mat.ofFn 1 1 fun _ _ => 1) (Mat.ofRow [1e50]) 0)).1
          ((⟨Real.exp, Real.log, Real.sqrt, fun A => (Mat.ofRow [1], A),
            fun r b => Mat.zipWith (· / ·) b r⟩ : NumLib ℝ).qr_econ
            (fisher_weighted_model_matrix ⟨Real.exp, Real.log, Real.sqrt,
              fun A => (Mat.ofRow [1], A), fun r b => Mat.zipWith (· / ·) b r⟩
              (Mat.ofFn 1 1 fun _ _ => 1) (Mat.ofRow [1e50]) 0)).2
          (fisher_weighted_model_matrix ⟨Real.exp, Real.log, Real.sqrt,
            fun A => (Mat.ofRow [1], A), fun r b => Mat.zipWith (· / ·) b r⟩
            (Mat.ofFn 1 1 fun _ _ => 1) (Mat.ofRow [1e50]) 0) 1 1
      ∧ SolvesUpper
          (⟨Real.exp, Real.log, Real.sqrt, fun A => (Mat.ofRow [1], A),
            fun r b => Mat.zipWith (· / ·) b r⟩ : NumLib ℝ).solve
          ((⟨Real.exp, Real.log, Real.sqrt, fun A => (Mat.ofRow [1], A),
            fun r b => Mat.zipWith (· / ·) b r⟩ : NumLib ℝ).qr_econ
            (fisher_weighted_model_matrix ⟨Real.exp, Real.log, Real.sqrt,
              fun A => (Mat.ofRow [1], A), fun r b => Mat.zipWith (· / ·) b r⟩
              (Mat.ofFn 1 1 fun _ _ => 1) (Mat.ofRow [1e50]) 0)).2 1
      ∧ 0 < (fisher_step ⟨Real.exp, Real.log, Real.sqrt, fun A => (Mat.ofRow [1], A),
              fun r b => Mat.zipWith (· / ·) b r⟩ (Mat.ofFn 1 1 fun _ _ => 1)
            (Mat.ofRow [1e55])
            (fitted_mean ⟨Real.exp, Real.log, Real.sqrt, fun A => (Mat.ofRow [1], A),
              fun r b => Mat.zipWith (· / ·) b r⟩ (Mat.ofFn 1 1 fun _ _ => 1)
              (Mat.ofRow [Real.exp (Real.log 1e60)]) (Mat.ofRow [0])) 0).at_ 0
      ∧ 0 < (newton_sums Real.exp 1 (Mat.ofRow [1e55]) (Mat.ofRow [Real.log 1e60]) 0 0).ddl
      ∧ (newton_sums Real.exp 1 (Mat.ofRow [1e55]) (Mat.ofRow [Real.log 1e60]) 0 0).dl
          / (newton_sums Real.exp 1 (Mat.ofRow [1e55]) (Mat.ofRow [Real.log 1e60]) 0 0).ddl
        < 0 := by
  have hX : Mat.ofFn 1 1 (fun _ _ => (1 : ℝ)) = Mat.ofRow [1] := by
    simp [Mat.ofFn, Mat.ofRow, List.range_succ]
  have hel : Real.exp (Real.log 1e60) = 1e60 := Real.exp_log (by norm_num)
  have hm : clamp_value (1e-50 : ℝ) 1e50 (1e60 * Real.exp (0 * 1)) = 1e50 := by
    rw [zero_mul, Real.exp_zero, mul_one]
    norm_num [clamp_value]
  have hw : weight (0 : ℝ) 1e50 = 1e50 := by norm_num [weight]
  have hs : 0 < Real.sqrt (1e50 : ℝ) := Real.sqrt_pos.mpr (by norm_num)
  have hne : (1 : ℝ) * Real.sqrt (weight 0 1e50) ≠ 0 := by
    rw [hw, one_mul]
    exact ne_of_gt hs
  have hfm : fitted_mean ⟨Real.exp, Real.log, Real.sqrt, fun A => (Mat.ofRow [1], A),
      fun r b => Mat.zipWith (· / ·) b r⟩ (Mat.ofFn 1 1 fun _ _ => 1)
      (Mat.ofRow [Real.exp (Real.log 1e60)]) (Mat.ofRow [0]) = Mat.ofRow [1e50] := by
    rw [hX, fitted_mean_ofRow_one, hel]
    simp only [hm]
  refine ⟨hel, hfm, ?_, ?_, ?_, ?_, ?_⟩
  · rw [hX]
    exact (qr_ofRow_one Real.exp Real.log 1 1e50 0 hne).1
  · rw [hX]
    exact (qr_ofRow_one Real.exp Real.log 1 1e50 0 hne).2
  · rw [hfm, hX, fisher_step_ofRow_one]
    have h0 : (0 : ℝ) * 1e50 = 0 := zero_mul _
    simp only [Mat.at_, Mat.ofRow, List.getD_cons_zero, h0, add_zero, div_one, one_mul]
    rw [mul_div_assoc, div_self (ne_of_gt hs), mul_one]
    norm_num
  · simp only [newton_sums, List.range_succ, List.range_zero, List.nil_append, List.foldl_cons,
      List.foldl_nil, Mat.at_, Mat.ofRow, List.getD_cons_zero, zero_add, hel, mul_zero,
      add_zero, div_one, mul_one]
    norm_num
  · simp only [newton_sums, List.range_succ, List.range_zero, List.nil_append, List.foldl_cons,
      List.foldl_nil, Mat.at_, Mat.ofRow, List.getD_cons_zero, zero_add, hel, mul_zero,
      add_zero, div_one, mul_one]
    norm_num

/-! ## The clamp on doubles -/

theorem Double.lt_iff {α : Type} [LinearOrderedField α] (a b : Double α) :
    a < b ↔ Double.lt a b := Iff.rfl

theorem Double.le_iff {α : Type} [LinearOrderedField α] (a b : Double α) :
    a ≤ b ↔ Double.le a b := Iff.rfl

/-- A comparison with not-a-number is false. -/
theorem Double.nan_compare {α : Type} [LinearOrderedField α] (a : Double α) :
    ¬ a < Double.nan ∧ ¬ Double.nan < a ∧ ¬ a ≤ Double.nan ∧ ¬ Double.nan ≤ a := by
  cases a <;> simp [Double.lt_iff, Double.le_iff, Double.lt, Double.le]

theorem clamp_value_fin {α : Type} [LinearOrderedField α] (l u a : α) :
    clamp_value (Double.fin l) (Double.fin u) (Double.fin a) = Double.fin (clamp_value l u a) := by
  simp only [clamp_value, gt_iff_lt, Double.lt_iff, Double.lt]
  split_ifs <;> rfl

/-- What lines 59-63 leave in place of a double `x`, for bounds `lo <= hi`. -/
theorem clamp_value_double {α : Type} [LinearOrderedField α] (lo hi x : Double α)
    (h : lo ≤ hi) :
    (x < lo → clamp_value lo hi x = lo)
      ∧ (hi < x → clamp_value lo hi x = hi)
      ∧ (¬ x < lo → ¬ hi < x → clamp_value lo hi x = x)
      ∧ (x = Double.nan → clamp_value lo hi x = Double.nan)
      ∧ (x ≠ Double.nan → lo ≤ clamp_value lo hi x ∧ clamp_value lo hi x ≤ hi)
      ∧ ∀ a l u, x = Double.fin a → lo = Double.fin l → hi = Double.fin u →
          clamp_value lo hi x = Double.fin (min (max a l) u) := by
  have h2 : hi < x → ¬ x < lo := by
    cases lo <;> cases hi <;> cases x <;>
      simp only [Double.lt_iff, Double.le_iff, Double.lt, Double.le, not_false_eq_true,
        not_true_eq_false, imp_self, implies_true, false_implies] at h ⊢
    intro h1 h3
    linarith
  refine ⟨?_, ?_, ?_, ?_, ?_, ?_⟩
  · intro h1
    simp [clamp_value, h1]
  · intro h1
    simp [clamp_value, h1, h2 h1]
  · intro h1 h3
    simp [clamp_value, h1, h3]
  · intro hx
    subst hx
    simp [clamp_value, (Double.nan_compare lo).2.1, (Double.nan_compare hi).1]
  · intro hx
    cases lo <;> cases hi <;> cases x <;>
      simp only [Double.le_iff, Double.le, ne_eq, not_true_eq_false] at h hx <;>
      simp only [clamp_value, gt_iff_lt, Double.lt_iff, Double.le_iff, Double.lt, Double.le,
        if_true, if_false, and_self, and_true, true_and] <;>
      try trivial
    all_goals
      split_ifs <;> simp only [Double.le, Double.lt] <;>
        first
        | trivial
        | exact ⟨le_refl _, h⟩
        | exact ⟨h, le_refl _⟩
        | exact ⟨trivial, not_lt.mp ‹_›⟩
        | exact ⟨not_lt.mp ‹_›, trivial⟩
        | (constructor <;> linarith)
  · intro a l u hx hlo hhi
    subst hx hlo hhi
    rw [clamp_value_fin, clamp_value_eq_min_max l u a h]

/-- C6 on doubles. For a well-formed matrix `v` of doubles and bounds
`lo <= hi`, `clamp_inplace(v, lo, hi)` keeps the shape and the length of `v`;
an element that compares below `lo` becomes `lo`, an element that compares
above `hi` becomes `hi`, any other element is unchanged.  So an element that is
not-a-number, for which both comparisons are false, stays not-a-number, and
every other element ends in `[lo, hi]`: a finite element `a` between finite
bounds becomes `min(max(a, lo), hi)`. -/
theorem clamp_inplace_double {α : Type} [LinearOrderedField α] (v : Mat (Double α))
    (lo hi : Double α) (hwf : v.WF) (h : lo ≤ hi) :
    (clamp_inplace v lo hi).n_rows = v.n_rows
      ∧ (clamp_inplace v lo hi).n_cols = v.n_cols
      ∧ (clamp_inplace v lo hi).mem.length = v.mem.length
      ∧ ∀ i, i < v.n_elem →
          (v.at_ i < lo → (clamp_inplace v lo hi).at_ i = lo)
          ∧ (hi < v.at_ i → (clamp_inplace v lo hi).at_ i = hi)
          ∧ (¬ v.at_ i < lo → ¬ hi < v.at_ i → (clamp_inplace v lo hi).at_ i = v.at_ i)
          ∧ (v.at_ i = Double.nan → (clamp_inplace v lo hi).at_ i = Double.nan)
          ∧ (v.at_ i ≠ Double.nan →
              lo ≤ (clamp_inplace v lo hi).at_ i ∧ (clamp_inplace v lo hi).at_ i ≤ hi)
          ∧ ∀ a l u, v.at_ i = Double.fin a → lo = Double.fin l → hi = Double.fin u →
              (clamp_inplace v lo hi).at_ i = Double.fin (min (max a l) u) := by
  refine ⟨(clamp_inplace_fold v lo hi v.n_elem).1, (clamp_inplace_fold v lo hi v.n_elem).2.1,
    clamp_inplace_length v lo hi, ?_⟩
  intro i hi'
  rw [clamp_inplace_at v lo hi hwf i hi']
  exact clamp_value_double lo hi (v.at_ i) h

/-- C6 on the row `[5, NaN]` with the bounds `1` and `3`: the element `5`
becomes `3`. -/
theorem clamp_inplace_double_witness :
    (clamp_inplace (Mat.ofRow [Double.fin (5 : ℚ), Double.nan]) (Double.fin 1)
        (Double.fin 3)).at_ 0 = Double.fin 3 :=
  ((clamp_inplace_double (Mat.ofRow [Double.fin (5 : ℚ), Double.nan]) (Double.fin 1)
      (Double.fin 3) (by simp [Mat.WF, Mat.ofRow, Mat.n_elem])
      (by simp [Double.le_iff, Double.le])).2.2.2 0
    (by simp [Mat.ofRow, Mat.n_elem])).2.1
    (by norm_num [Mat.at_, Mat.ofRow, Double.lt_iff, Double.lt])

/-- C6 fails on a vector that holds not-a-number. On the row `[5, NaN]` with
the bounds `1 <= 3`, `clamp_inplace` returns `[3, NaN]`: both comparisons of
lines 59 and 61 are false for the second element, which stays not-a-number and
does not lie in `[1, 3]`. -/
theorem clamp_inplace_keeps_nan :
    (Double.fin (1 : ℚ)) ≤ Double.fin 3
      ∧ clamp_inplace (Mat.ofRow [Double.fin (5 : ℚ), Double.nan]) (Double.fin 1) (Double.fin 3)
        = Mat.ofRow [Double.fin 3, Double.nan]
      ∧ ¬ (Double.fin (1 : ℚ) ≤ Double.nan ∧ Double.nan ≤ Double.fin (3 : ℚ)) := by
  refine ⟨by simp [Double.le_iff, Double.le], ?_, ?_⟩
  · have h35 : (3 : ℚ) < 5 := by norm_num
    simp [clamp_inplace, Mat.ofRow, Mat.n_elem, Mat.at_, Mat.set, List.range_succ,
      Double.lt_iff, Double.lt, h35]
  · simp [Double.le_iff, Double.le]

/-! ## The fitted mean on doubles -/

theorem Double.zero_def {α : Type} [LinearOrderedField α] : (0 : Double α) = Double.fin 0 := rfl

theorem Double.one_def {α : Type} [LinearOrderedField α] : (1 : Double α) = Double.fin 1 := rfl

theorem Double.ofScientific_def {α : Type} [LinearOrderedField α] (m : Nat) (s : Bool)
    (e : Nat) :
    (OfScientific.ofScientific m s e : Double α) = Double.fin (OfScientific.ofScientific m s e) :=
  rfl

theorem Double.add_def {α : Type} [LinearOrderedField α] (a b : Double α) :
    a + b = Double.add a b := rfl

theorem Double.sub_def {α : Type} [LinearOrderedField α] (a b : Double α) :
    a - b = Double.add a (Double.neg b) := rfl

theorem Double.mul_def {α : Type} [LinearOrderedField α] (a b : Double α) :
    a * b = Double.mul a b := rfl

theorem Double.div_def {α : Type} [LinearOrderedField α] (a b : Double α) :
    a / b = Double.div a b := rfl

theorem Double.pow_def {α : Type} [LinearOrderedField α] (a : Double α) (n : Nat) :
    a ^ n = Double.pow a n := rfl

/-- Every stored element of a clamped matrix of doubles is not-a-number or
lies within the bounds, when the matrix stores no more than `n_elem`
elements. -/
theorem clamp_inplace_double_mem {α : Type} [LinearOrderedField α] (v : Mat (Double α))
    (lo hi : Double α) (h : lo ≤ hi) (hlen : v.mem.length ≤ v.n_elem) :
    ∀ x ∈ (clamp_inplace v lo hi).mem, x = Double.nan ∨ (lo ≤ x ∧ x ≤ hi) := by
  intro x hx
  obtain ⟨i, hi', rfl⟩ := List.getElem_of_mem hx
  have hi2 : i < v.mem.length := by
    rw [clamp_inplace_length] at hi'
    exact hi'
  have hget := clamp_inplace_getElem? v lo hi i
  rw [List.getElem?_eq_getElem hi', List.getElem?_eq_getElem hi2,
    if_pos (lt_of_lt_of_le hi2 hlen)] at hget
  simp only [Option.map_some', Option.some.injEq] at hget
  rw [hget]
  by_cases hnan : v.mem[i] = Double.nan
  · left
    exact (clamp_value_double lo hi _ h).2.2.2.1 hnan
  · right
    exact (clamp_value_double lo hi _ h).2.2.2.2.1 hnan

theorem fitted_mean_double {α : Type} [LinearOrderedField α] (L : NumLib (Double α))
    (model_matrix exp_off beta : Mat (Double α)) (hlen : exp_off.mem.length ≤ exp_off.n_elem) :
    ∀ x ∈ (fitted_mean L model_matrix exp_off beta).mem,
      x = Double.nan ∨ ((1e-50 : Double α) ≤ x ∧ x ≤ 1e50) := by
  unfold fitted_mean
  apply clamp_inplace_double_mem
  · show Double.le (Double.fin _) (Double.fin _)
    simp only [Double.le]
    norm_num
  · simp only [Mat.zipWith, Mat.n_elem, List.length_zipWith]
    exact le_trans (min_le_left _ _) hlen

/-- The fitted mean of a trial of the line search, as `line_search_trial`
computes it, is `trial_mu_hat`. -/
theorem line_search_trial_mu_hat {α : Type} [LinearOrderedField α] (L : NumLib α)
    (model_matrix counts exp_off : Mat α) (theta : α) (beta_hat step : Mat α)
    (dev_old speeding_factor : α) (line_iter : Nat) :
    (line_search_trial L model_matrix counts exp_off theta beta_hat step dev_old speeding_factor
        line_iter).mu_hat
      = trial_mu_hat L model_matrix exp_off beta_hat step speeding_factor := rfl

/-- C7 on doubles. In both scoring functions, for every row and every input,
every entry of the initial fitted mean (lines 113-114, 314-315) and of the
fitted mean of a line-search trial (lines 138-140, 337-339), whatever the
coefficients, the step and the speeding factor are, is not-a-number or lies in
`[1e-50, 1e50]`. -/
theorem mu_hat_within_bounds_or_nan {α : Type} [LinearOrderedField α] (L : NumLib (Double α))
    (Y model_matrix exp_offset_matrix beta_mat : Mat (Double α)) (gene_idx : Nat) :
    (∀ x ∈ (initial_mu_hat L model_matrix (exp_offset_matrix.get_row gene_idx Y.n_cols)
          (beta_mat.row gene_idx)).mem,
        x = Double.nan ∨ ((1e-50 : Double α) ≤ x ∧ x ≤ 1e50))
      ∧ ∀ (beta_hat step : Mat (Double α)) (speeding_factor : Double α),
          ∀ x ∈ (trial_mu_hat L model_matrix (exp_offset_matrix.get_row gene_idx Y.n_cols)
            beta_hat step speeding_factor).mem,
          x = Double.nan ∨ ((1e-50 : Double α) ≤ x ∧ x ≤ 1e50) :=
  ⟨fitted_mean_double L _ _ _ (le_of_eq (get_row_length _ _ _)),
    fun _ _ _ => fitted_mean_double L _ _ _ (le_of_eq (get_row_length _ _ _))⟩

/-- C7 fails where a step is not-a-number. The diagonal solver on one sample
with the count `4`, the design `[0]`, the offset factor `1`, `theta = 0` and
the start value `0`: the initial fitted mean is `1`; the score and the
information of the one coefficient are both `0`, so the step of line 331 is
`0 / 0`, not-a-number; the proposal `beta_hat + 1 * step` of line 337 is
not-a-number, and so is the fitted mean of line 338 of the first trial, which
the clamp of line 339 leaves as it is and line 340 passes to the deviance.  It
does not lie in `[1e-50, 1e50]`.  Of the library functions only `std::exp` is
called on this path. -/
theorem mu_hat_can_be_nan :
    initial_mu_hat
        ⟨Double.exp Real.exp, fun x => x, fun x => x, fun A => (A, A), fun _ b => b⟩
        (Mat.ofRow [Double.fin 0]) (Mat.ofRow [Double.fin 1]) (Mat.ofRow [Double.fin 0])
      = Mat.ofRow [Double.fin (1 : ℝ)]
    ∧ diagonal_step (Mat.ofRow [Double.fin 0]) (Mat.ofRow [Double.fin 4])
        (initial_mu_hat
          ⟨Double.exp Real.exp, fun x => x, fun x => x, fun A => (A, A), fun _ b => b⟩
          (Mat.ofRow [Double.fin 0]) (Mat.ofRow [Double.fin 1]) (Mat.ofRow [Double.fin 0]))
        (Double.fin 0)
      = Mat.ofRow [(Double.nan : Double ℝ)]
    ∧ trial_mu_hat
        ⟨Double.exp Real.exp, fun x => x, fun x => x, fun A => (A, A), fun _ b => b⟩
        (Mat.ofRow [Double.fin 0]) (Mat.ofRow [Double.fin 1]) (Mat.ofRow [Double.fin 0])
        (diagonal_step (Mat.ofRow [Double.fin 0]) (Mat.ofRow [Double.fin 4])
          (initial_mu_hat
            ⟨Double.exp Real.exp, fun x => x, fun x => x, fun A => (A, A), fun _ b => b⟩
            (Mat.ofRow [Double.fin 0]) (Mat.ofRow [Double.fin 1]) (Mat.ofRow [Double.fin 0]))
          (Double.fin 0))
        (Double.fin 1)
      = Mat.ofRow [(Double.nan : Double ℝ)]
    ∧ ¬ ((1e-50 : Double ℝ) ≤ Double.nan ∧ (Double.nan : Double ℝ) ≤ 1e50) := by
  have h50 : ¬ (1 : ℝ) < 1e-50 := by norm_num
  have h50' : ¬ (1e50 : ℝ) < 1 := by norm_num
  have hinit : initial_mu_hat
      ⟨Double.exp Real.exp, fun x => x, fun x => x, fun A => (A, A), fun _ b => b⟩
      (Mat.ofRow [Double.fin 0]) (Mat.ofRow [Double.fin 1]) (Mat.ofRow [Double.fin 0])
      = Mat.ofRow [Double.fin (1 : ℝ)] := by
    simp [initial_mu_hat, fitted_mean, clamp_inplace, Mat.zipWith, Mat.map, Mat.mul, Mat.t,
      Mat.ofFn, Mat.ofRow, Mat.get, Mat.at_, Mat.set, Mat.n_elem, List.range_succ,
      Double.zero_def, Double.add_def, Double.mul_def, Double.ofScientific_def, Double.lt_iff,
      Double.add, Double.mul, Double.exp, Double.lt, h50, h50']
  have hstep : diagonal_step (Mat.ofRow [Double.fin 0]) (Mat.ofRow [Double.fin 4])
      (Mat.ofRow [Double.fin (1 : ℝ)]) (Double.fin 0) = Mat.ofRow [Double.nan] := by
    simp [diagonal_step, w_vec, working_residual, Mat.each_col_schur, Mat.sum0, Mat.zipWith,
      Mat.map, Mat.mul, Mat.t, Mat.ofFn, Mat.ofRow, Mat.get, Mat.at_, List.range_succ,
      Double.zero_def, Double.one_def, Double.add_def, Double.sub_def, Double.mul_def,
      Double.div_def, Double.pow_def, Double.add, Double.neg, Double.mul, Double.div,
      Double.pow]
  have htrial : trial_mu_hat
      ⟨Double.exp Real.exp, fun x => x, fun x => x, fun A => (A, A), fun _ b => b⟩
      (Mat.ofRow [Double.fin 0]) (Mat.ofRow [Double.fin 1]) (Mat.ofRow [Double.fin 0])
      (Mat.ofRow [(Double.nan : Double ℝ)]) (Double.fin 1) = Mat.ofRow [Double.nan] := by
    simp [trial_mu_hat, fitted_mean, clamp_inplace, Mat.zipWith, Mat.map, Mat.mul, Mat.t,
      Mat.ofFn, Mat.ofRow, Mat.get, Mat.at_, Mat.set, Mat.n_elem, List.range_succ,
      Double.zero_def, Double.add_def, Double.mul_def, Double.ofScientific_def, Double.lt_iff,
      Double.add, Double.mul, Double.exp, Double.lt]
  rw [hinit, hstep, htrial]
  exact ⟨rfl, rfl, rfl, fun h => (Double.nan_compare _).2.2.1 h.1⟩

/-! ## The second derivative of the one-group solver when `exp` underflows -/

end GlmGamPoi
